import Mathlib

/-! # rkb-extract: cue sheet normalizer and track extractor

A shallow embedding of `rkb-extract.go`.

Conventions of the embedding

* A Go `string` is a `List Char`, the sequence of runes of a valid UTF-8 text.
  Lengths that Go counts in bytes are computed with `byteLen`.
* Go's `int` is the 64-bit two's complement integer of the usual build
  targets; it is an `Int` wrapped by `wrapInt`.
* Operating-system I/O errors (open, create, read, write, flush) are assumed
  absent.  The one error the code can then still return is the scanner's
  `bufio.ErrTooLong`.
* The output file of `fixCueSheet` is what the `bufio.Writer` has passed on
  when the function returns (`outputFile`): everything after `Flush`, less
  when the function returns early.
* Running an external program puts its argument vector at the end of the list
  of the commands run; which commands fail is a parameter.
* The two regular expressions of the program are sequences of literals and
  capturing groups around a greedy `class+`; `matchHere` is the backtracking
  (leftmost-first) matcher whose answer Go's `regexp` package returns.
-/

namespace RkbExtract

/-! ## Text helpers -/

/-- Number of bytes of the UTF-8 encoding of a text. -/
def byteLen (s : List Char) : Nat :=
  (s.map fun c => c.utf8Size).sum

/-- The text made of the first `n` bytes of `s`.  A rune cut by the boundary
leaves bytes that every Go decoder reads as one U+FFFD each. -/
def takeBytes : Nat → List Char → List Char
  | _, [] => []
  | n, c :: cs =>
    if c.utf8Size ≤ n then c :: takeBytes (n - c.utf8Size) cs
    else List.replicate n (Char.ofNat 0xFFFD)

/-- Go `strings.HasPrefix`. -/
def hasPrefix (s pre : List Char) : Bool :=
  pre.isPrefixOf s

/-- Go `unicode.IsSpace`. -/
def isSpace (c : Char) : Bool :=
  let n := c.toNat
  (0x09 ≤ n && n ≤ 0x0D) || n == 0x20 || n == 0x85 || n == 0xA0 || n == 0x1680 ||
  (0x2000 ≤ n && n ≤ 0x200A) || n == 0x2028 || n == 0x2029 || n == 0x202F ||
  n == 0x205F || n == 0x3000

/-- Loop of `strings.Fields`: skip white space, cut one field, repeat. -/
def fieldsAux : Nat → List Char → List (List Char)
  | 0, _ => []
  | fuel + 1, s =>
    match s.dropWhile isSpace with
    | [] => []
    | c :: cs =>
      (c :: cs).takeWhile (fun x => !isSpace x) ::
        fieldsAux fuel ((c :: cs).dropWhile (fun x => !isSpace x))

/-- Go `strings.Fields`: the maximal runs of non-space runes.  Every field
holds at least one rune, so `s.length` rounds are enough. -/
def fields (s : List Char) : List (List Char) :=
  fieldsAux s.length s

/-! ## Regular expressions -/

/-- A node of a pattern: a literal rune, or a capturing group around a greedy
one-or-more repetition of a character class, as in `(\d+)` and `(.+)`. -/
inductive Node where
  | lit (c : Char)
  | plus (cls : Char → Bool)

/-- The class `\d` of Go's regexp: the ASCII digits. -/
def isDigit (c : Char) : Bool :=
  48 ≤ c.toNat && c.toNat ≤ 57

/-- The class `.` of Go's regexp without the `s` flag. -/
def isDot (c : Char) : Bool :=
  c != '\n'

/-- The literal nodes of a text. -/
def lits (s : List Char) : List Node :=
  s.map Node.lit

/-- Greedy repetition: try to continue after `k` runes, then after `k - 1`,
down to one rune.  The capture is put in front of those of the continuation. -/
def backtrack (cont : List Char → Option (List (List Char) × List Char))
    (s : List Char) : Nat → Option (List (List Char) × List Char)
  | 0 => none
  | k + 1 =>
    match cont (s.drop (k + 1)) with
    | some (caps, rest) => some (s.take (k + 1) :: caps, rest)
    | none => backtrack cont s k

/-- Match a pattern at the start of `s`: the captures and the unmatched rest
of the first match a backtracking matcher finds. -/
def matchHere : List Node → List Char → Option (List (List Char) × List Char)
  | [], s => some ([], s)
  | Node.lit c :: re, s =>
    match s with
    | [] => none
    | x :: xs => if x = c then matchHere re xs else none
  | Node.plus cls :: re, s =>
    backtrack (fun t => matchHere re t) s (s.takeWhile cls).length

/-- Go `Regexp.FindStringSubmatch`: the leftmost match followed by its
captures, or the empty slice when nothing matches. -/
def findStringSubmatch (re : List Node) : List Char → List (List Char)
  | [] =>
    match matchHere re [] with
    | some (caps, _) => [] :: caps
    | none => []
  | c :: cs =>
    match matchHere re (c :: cs) with
    | some (caps, rest) => (c :: cs).take ((c :: cs).length - rest.length) :: caps
    | none => findStringSubmatch re cs

/-- Loop of `Regexp.ReplaceAllStringFunc`: copy up to the next match, put
the replacement of the match, go on behind it.  Both patterns of the program
start with a literal, so a match is never empty; where the matcher reports
no progress the rune is copied. -/
def replaceAllAux (re : List Node) (repl : List Char → List Char) :
    Nat → List Char → List Char
  | 0, s => s
  | fuel + 1, s =>
    match s with
    | [] => []
    | c :: cs =>
      match matchHere re (c :: cs) with
      | some (_, rest) =>
        if rest.length < (c :: cs).length then
          repl ((c :: cs).take ((c :: cs).length - rest.length)) ++
            replaceAllAux re repl fuel rest
        else c :: replaceAllAux re repl fuel cs
      | none => c :: replaceAllAux re repl fuel cs

/-- Go `Regexp.ReplaceAllStringFunc`. -/
def replaceAllStringFunc (re : List Node) (src : List Char)
    (repl : List Char → List Char) : List Char :=
  replaceAllAux re repl src.length src

/-- Whether a text starts with an ASCII digit. -/
def startsWithDigit : List Char → Bool
  | [] => false
  | c :: _ => isDigit c

/-! ## Integers and formatting -/

/-- Wrap an integer into the range of Go's 64-bit `int`. -/
def wrapInt (x : Int) : Int :=
  (x + 2 ^ 63) % 2 ^ 64 - 2 ^ 63

/-- Value of a run of decimal digits. -/
def digitsValue (s : List Char) : Nat :=
  s.foldl (fun acc c => acc * 10 + (c.toNat - 48)) 0

/-- Go `strconv.Atoi` on a 64-bit target: the value and whether an error is
reported.  A syntax error gives 0, a range error the nearest bound. -/
def atoi (s : List Char) : Int × Bool :=
  let neg := s.head? = some '-'
  let ds := if s.head? = some '-' ∨ s.head? = some '+' then s.tail else s
  if ds = [] ∨ ¬ ds.all isDigit then (0, true)
  else
    let v : Int := digitsValue ds
    if neg then
      if 2 ^ 63 < v then (-(2 ^ 63), true) else (-v, false)
    else
      if 2 ^ 63 ≤ v then (2 ^ 63 - 1, true) else (v, false)

/-- Decimal digits of a natural number, at least `width` of them. -/
def padDigits (width n : Nat) : List Char :=
  let ds := Nat.toDigits 10 n
  List.replicate (width - ds.length) '0' ++ ds

/-- Go `fmt.Sprintf("%02d", n)`: the sign takes one column of the width. -/
def fmt02d (n : Int) : List Char :=
  if n < 0 then '-' :: padDigits 1 n.natAbs else padDigits 2 n.natAbs

/-! ## fixCueSheet: the per-line rewrite -/

/-- The pattern `INDEX 01 (\d+):(\d+):(\d+)`. -/
def indexRegex : List Node :=
  lits "INDEX 01 ".toList ++
    [Node.plus isDigit, Node.lit ':', Node.plus isDigit, Node.lit ':', Node.plus isDigit]

/-- The function literal handed to `ReplaceAllStringFunc` in `fixCueSheet`. -/
def replaceIndex (m : List Char) : List Char :=
  match findStringSubmatch indexRegex m with
  | [_, h, mi, seconds] =>
    let hours := (atoi h).1
    let minutes := (atoi mi).1
    let totalMinutes := wrapInt (wrapInt (hours * 60) + minutes)
    "INDEX 01 ".toList ++ fmt02d totalMinutes ++ ':' :: seconds ++ ".000".toList
  | _ => m

/-- The body of the scan loop of `fixCueSheet` up to the write: the modified
line. -/
def rewriteLine (line : List Char) : List Char :=
  replaceAllStringFunc indexRegex line replaceIndex

/-! ## bufio.Scanner with the default `ScanLines` split -/

/-- The errors `Scanner.Err` can report when the reader itself does not fail. -/
inductive ScanError where
  | tooLong
deriving DecidableEq, Repr

/-- Go `bufio.MaxScanTokenSize`, the buffer limit of a scanner made by
`bufio.NewScanner`. -/
def maxScanTokenSize : Nat := 64 * 1024

/-- State of a `bufio.Scanner`: the input not yet consumed (what is buffered
and what is still unread), the last token, and the sticky error.  Once the
error is set only the buffered bytes are left in `src`. -/
structure Scanner where
  src : List Char
  token : List Char
  err : Option ScanError
deriving DecidableEq, Repr

/-- Go `bufio.NewScanner`. -/
def newScanner (input : List Char) : Scanner :=
  { src := input, token := [], err := none }

/-- The helper `dropCR` of `bufio.ScanLines`. -/
def dropCR (data : List Char) : List Char :=
  if data.getLast? = some '\r' then data.dropLast else data

/-- Go `Scanner.Scan` with `ScanLines`.  At the end of the input the token is
cleared and the result is false.  A line of `maxScanTokenSize` bytes or more
before its terminator fills the buffer: the error is set, the token cleared,
and the full buffer stays behind.  A later call hands those bytes to the split
function as the final data of the input. -/
def Scanner.scan (s : Scanner) : Bool × Scanner :=
  if s.src = [] then (false, { s with token := [] })
  else
    let line := s.src.takeWhile (fun c => c != '\n')
    if s.err = none ∧ maxScanTokenSize ≤ byteLen line then
      (false, { src := takeBytes maxScanTokenSize s.src, token := [],
                err := some ScanError.tooLong })
    else
      (true, { s with src := s.src.drop (line.length + 1), token := dropCR line })

/-! ## fixCueSheet -/

/-- What a run of `fixCueSheet` leaves: the text handed to the buffered writer
and the returned error.  When `err` is `none` the writer has been flushed and
`written` is the content of the output file.  When `err` is set the file holds
less: see `outputFile`. -/
structure FixResult where
  written : List Char
  err : Option ScanError
deriving DecidableEq, Repr

/-- The scan loop of `fixCueSheet`: every delivered line is rewritten and
written with a line feed after it. -/
def fixLoop : Nat → Scanner → List Char → Scanner × List Char
  | 0, sc, out => (sc, out)
  | fuel + 1, sc, out =>
    match sc.scan with
    | (true, sc1) => fixLoop fuel sc1 (out ++ (rewriteLine sc1.token ++ ['\n']))
    | (false, sc1) => (sc1, out)

/-- The function `fixCueSheet` on the content of the input file.  Every
successful scan consumes input, so `input.length + 1` rounds end the loop
(`fixCueSheet_fuel`). -/
def fixCueSheet (input : List Char) : FixResult :=
  match fixLoop (input.length + 1) (newScanner input) [] with
  | (sc, out) => { written := out, err := sc.err }

/-! ## fixCueSheet: the output file -/

/-- Go `bufio.defaultBufSize`, the buffer size of a writer made by
`bufio.NewWriter`. -/
def defaultBufSize : Nat := 4096

/-- State of the `bufio.Writer` of `fixCueSheet`: the text handed to it so
far, and the number of bytes of that text that have reached the file.  The
bytes after them are in the buffer. -/
structure Writer where
  text : List Char
  flushed : Nat
deriving DecidableEq, Repr

/-- Go `bufio.NewWriter` on the file that `os.Create` returns, which is
empty. -/
def newWriter : Writer :=
  { text := [], flushed := 0 }

/-- Go `Writer.Buffered`: the number of bytes in the buffer. -/
def Writer.buffered (w : Writer) : Nat :=
  byteLen w.text - w.flushed

/-- Go `Writer.WriteString`.  A text that fits the free part of the buffer is
copied there.  Otherwise, with an empty buffer the text goes to the file at
once (`*os.File` has a `WriteString` method); with bytes in the buffer, the
buffer is filled up and flushed, and what is left of the text is copied to the
buffer when it fits and goes to the file at once when it does not. -/
def Writer.writeString (w : Writer) (s : List Char) : Writer :=
  if byteLen s ≤ defaultBufSize - w.buffered then { w with text := w.text ++ s }
  else if w.buffered = 0 then { text := w.text ++ s, flushed := w.flushed + byteLen s }
  else if byteLen s - (defaultBufSize - w.buffered) ≤ defaultBufSize then
    { text := w.text ++ s, flushed := w.flushed + defaultBufSize }
  else
    { text := w.text ++ s,
      flushed := w.flushed + defaultBufSize + (byteLen s - (defaultBufSize - w.buffered)) }

/-- Go `Writer.Flush`: the buffered bytes go to the file. -/
def Writer.flush (w : Writer) : Writer :=
  { w with flushed := byteLen w.text }

/-- The content of the file under the writer. -/
def Writer.file (w : Writer) : List Char :=
  takeBytes w.flushed w.text

/-- The scan loop of `fixCueSheet` with its writer: every delivered line is
rewritten and handed to `WriteString` with a line feed after it. -/
def writeLoop : Nat → Scanner → Writer → Scanner × Writer
  | 0, sc, w => (sc, w)
  | fuel + 1, sc, w =>
    match sc.scan with
    | (true, sc1) => writeLoop fuel sc1 (w.writeString (rewriteLine sc1.token ++ ['\n']))
    | (false, sc1) => (sc1, w)

/-- The content of the output file when `fixCueSheet` returns.  When the
scanner reports an error the function returns before `writer.Flush()`, and the
deferred `Close` of the file does not flush the writer: the file then holds
only what the writer has passed on.  Without error the writer is flushed. -/
def outputFile (input : List Char) : List Char :=
  match writeLoop (input.length + 1) (newScanner input) newWriter with
  | (sc, w) =>
    match sc.err with
    | some _ => w.file
    | none => w.flush.file

/-! ## parseCueSheet -/

/-- The Go struct `TrackInfo`. -/
structure TrackInfo where
  TrackNumber : List Char
  Title : List Char
  Performer : List Char
  Filename : List Char
deriving DecidableEq, Repr

/-- The pattern `<field> "(.+)"` compiled by `extractMetadata`; the field
names the program passes hold no regexp operator. -/
def metadataRegex (field : List Char) : List Node :=
  lits field ++ [Node.lit ' ', Node.lit '"', Node.plus isDot, Node.lit '"']

/-- The function `extractMetadata`. -/
def extractMetadata (field line : List Char) : List Char :=
  match findStringSubmatch (metadataRegex field) line with
  | _ :: v :: _ => v
  | _ => []

/-- Outcome of `parseCueSheet`: a run-time panic (index out of range), or the
returned tracks and error. -/
inductive ParseResult where
  | panic
  | ret (tracks : List TrackInfo) (err : Option ScanError)
deriving DecidableEq, Repr

/-- The scan loop of `parseCueSheet`. -/
def parseLoop : Nat → Scanner → List TrackInfo → ParseResult
  | 0, sc, tracks => ParseResult.ret tracks sc.err
  | fuel + 1, sc, tracks =>
    match sc.scan with
    | (false, sc1) => ParseResult.ret tracks sc1.err
    | (true, sc1) =>
      let line := sc1.token
      if hasPrefix line "\tTRACK".toList then
        match (fields line)[1]? with
        | none => ParseResult.panic
        | some trackNumber =>
          let sc2 := sc1.scan.2
          let title := extractMetadata "TITLE".toList sc2.token
          let sc3 := sc2.scan.2
          let performer := extractMetadata "PERFORMER".toList sc3.token
          parseLoop fuel sc3
            (tracks ++ [{ TrackNumber := trackNumber, Title := title,
                          Performer := performer, Filename := [] }])
      else parseLoop fuel sc1 tracks

/-- The function `parseCueSheet` on the content of the cue file.  The loop
ends at a call of `Scan` that fails; `input.length + 1` rounds are enough for
every input (`parseCueSheet_fuel`). -/
def parseCueSheet (input : List Char) : ParseResult :=
  parseLoop (input.length + 1) (newScanner input) []

/-! ## main: the tagging loop -/

/-- Go `fmt.Sprintf("%02s", s)`: the string padded on the left with zeros to
a width of two runes. -/
def fmt02s (s : List Char) : List Char :=
  List.replicate (2 - s.length) '0' ++ s

/-- Go `exec.Command(name, arg...).CombinedOutput()`: the command is run,
which puts its argument vector at the end of the list of the commands run so
far, and an error is reported when the command fails.  Which commands fail is
the parameter `fails`. -/
def combinedOutput (fails : List (List Char) → Bool) (argv : List (List Char))
    (ran : List (List (List Char))) : Bool × List (List (List Char)) :=
  (fails argv, ran ++ [argv])

/-- The function `applyMetadata`: whether it returns an error, and the
commands run when it returns. -/
def applyMetadata (fails : List (List Char) → Bool) (filepath : List Char)
    (track : TrackInfo) (albumName : List Char) (ran : List (List (List Char))) :
    Bool × List (List (List Char)) :=
  combinedOutput fails
    ["metaflac".toList, "--remove-all-tags".toList,
     "--set-tag=TITLE=".toList ++ track.Title,
     "--set-tag=ARTIST=".toList ++ track.Performer,
     "--set-tag=ALBUM=".toList ++ albumName, filepath] ran

/-- The loop of `main` over the tracks: the commands run, and the file names
for which a failure is printed.  A failure does not end the loop.  The title
goes into the file name as it stands. -/
def tagLoop (fails : List (List Char) → Bool) (albumName : List Char) :
    List TrackInfo → List (List (List Char)) → List (List Char) →
      List (List (List Char)) × List (List Char)
  | [], ran, failed => (ran, failed)
  | track :: rest, ran, failed =>
    let filename := fmt02s track.TrackNumber ++ ('-' :: (track.Title ++ ".flac".toList))
    match applyMetadata fails filename track albumName ran with
    | (true, ran1) => tagLoop fails albumName rest ran1 (failed ++ [filename])
    | (false, ran1) => tagLoop fails albumName rest ran1 failed

/-! ## Vocabulary of the statements -/

/-- The text the replacement function returns for a match. -/
def indexChunk (d1 d2 d3 : List Char) : List Char :=
  "INDEX 01 ".toList ++ (fmt02d (wrapInt (wrapInt ((atoi d1).1 * 60) + (atoi d2).1)) ++
    ':' :: (d3 ++ ".000".toList))

/-- A decimal writing of `n` with `zeros` leading zeros. -/
def decimal (zeros n : Nat) : List Char :=
  List.replicate zeros '0' ++ Nat.toDigits 10 n

/-- The lines of a text: the pieces ended by a line feed, and what follows
the last line feed when that is not empty. -/
def splitLines : List Char → List (List Char)
  | [] => []
  | c :: cs =>
    if c = '\n' then [] :: splitLines cs
    else
      match splitLines cs with
      | [] => [[c]]
      | l :: ls => (c :: l) :: ls

/-- The text made of the given lines, a line feed after each. -/
def unlines : List (List Char) → List Char
  | [] => []
  | l :: ls => l ++ '\n' :: unlines ls

/-- The tokens of the successive successful calls of `Scan`, up to the first
call that returns false. -/
def scanAll : Nat → Scanner → List (List Char)
  | 0, _ => []
  | fuel + 1, sc =>
    match sc.scan with
    | (true, sc1) => sc1.token :: scanAll fuel sc1
    | (false, _) => []

/-- The lines the scanner of `fixCueSheet` delivers for an input. -/
def scannedLines (input : List Char) : List (List Char) :=
  scanAll (input.length + 1) (newScanner input)

/-- What follows the letter `I` of a replacement text. -/
def chunkTail (d1 d2 d3 : List Char) : List Char :=
  "NDEX 01 ".toList ++ (fmt02d (wrapInt (wrapInt ((atoi d1).1 * 60) + (atoi d2).1)) ++
    ':' :: (d3 ++ ".000".toList))

/-- The loop of `parseCueSheet` read on the lines of the input: what the loop
does when the scanner delivers every line (see `parseLoop_short`). -/
def parseLines : List (List Char) → List TrackInfo → ParseResult
  | [], tracks => ParseResult.ret tracks none
  | l :: rest, tracks =>
    if hasPrefix (dropCR l) "\tTRACK".toList then
      match (fields (dropCR l))[1]? with
      | none => ParseResult.panic
      | some trackNumber =>
        match rest with
        | [] =>
          ParseResult.ret (tracks ++ [⟨trackNumber, extractMetadata "TITLE".toList [],
            extractMetadata "PERFORMER".toList [], []⟩]) none
        | [t] =>
          ParseResult.ret (tracks ++ [⟨trackNumber, extractMetadata "TITLE".toList (dropCR t),
            extractMetadata "PERFORMER".toList [], []⟩]) none
        | t :: p :: rest1 =>
          parseLines rest1 (tracks ++ [⟨trackNumber, extractMetadata "TITLE".toList (dropCR t),
            extractMetadata "PERFORMER".toList (dropCR p), []⟩])
    else parseLines rest tracks

/-- Whether a text is empty or starts with white space. -/
def spaceAhead : List Char → Bool
  | [] => true
  | c :: _ => isSpace c

/-- A track block of a cue sheet: the header line `<tab>TRACK number ...`,
the title line, the performer line, and the lines up to the next block. -/
structure Block where
  number : List Char
  headerRest : List Char
  title : List Char
  performer : List Char
  trailing : List (List Char)

/-- The header line of a block. -/
def Block.header (b : Block) : List Char :=
  "\tTRACK ".toList ++ (b.number ++ b.headerRest)

/-- The lines of a block in file order. -/
def Block.lines (b : Block) : List (List Char) :=
  b.header :: b.title :: b.performer :: b.trailing

/-- A block is well formed when its number is a token without white space,
followed by nothing or by white space, and no line after the performer line
starts with a tab and `TRACK`. -/
def Block.wellFormed (b : Block) : Bool :=
  !b.number.isEmpty && b.number.all (fun x => !isSpace x) && spaceAhead b.headerRest &&
    b.trailing.all (fun l => !hasPrefix l "\tTRACK".toList)

/-- The record a block stands for. -/
def Block.record (b : Block) : TrackInfo :=
  ⟨b.number, extractMetadata "TITLE".toList (dropCR b.title),
    extractMetadata "PERFORMER".toList (dropCR b.performer), []⟩

/-- A bound on the number of calls of `Scan` that can still succeed. -/
def scansLeft (sc : Scanner) : Nat :=
  match sc.err with
  | none => sc.src.length
  | some _ => if sc.src = [] then 0 else 1

/-- The states a scanner reaches: after the error, what is buffered holds no
line feed. -/
def Scanner.settled (sc : Scanner) : Prop :=
  sc.err = none ∨ ∀ x ∈ sc.src, x ≠ '\n'

/-- An occurrence in `line`, after the text `a`, of the keyword, one space, a
double quote, at least one character, and a later double quote. -/
def quotedAt (kw line a : List Char) : Prop :=
  ∃ c m b, line = a ++ (kw ++ ' ' :: '"' :: ((c :: m) ++ '"' :: b))

/-- The records of an outcome; none for a panic. -/
def ParseResult.records : ParseResult → List TrackInfo
  | ParseResult.panic => []
  | ParseResult.ret tracks _ => tracks

/-- An outcome with earlier records put in front of its own. -/
def ParseResult.after (earlier : List TrackInfo) : ParseResult → ParseResult
  | ParseResult.panic => ParseResult.panic
  | ParseResult.ret tracks err => ParseResult.ret (earlier ++ tracks) err

/-- The second white-space-delimited field of every line that starts with a
tab and `TRACK` and has such a field, in file order. -/
def headerNumbers (ls : List (List Char)) : List (List Char) :=
  ls.filterMap fun l =>
    if hasPrefix l "\tTRACK".toList then (fields (dropCR l))[1]? else none

/-! # Verification -/

/-! ## The matcher -/

theorem matchHere_lits_append (p : List Char) (re : List Node) (s : List Char) :
    matchHere (lits p ++ re) (p ++ s) = matchHere re s := by
  induction p with
  | nil => rfl
  | cons c p ih => simpa [lits, matchHere] using ih

theorem matchHere_lits_inv (p : List Char) (re : List Node) (s : List Char)
    (r : List (List Char) × List Char) (h : matchHere (lits p ++ re) s = some r) :
    ∃ t, s = p ++ t ∧ matchHere re t = some r := by
  induction p generalizing s with
  | nil => exact ⟨s, rfl, h⟩
  | cons c p ih =>
    cases s with
    | nil => simp [lits, matchHere] at h
    | cons x xs =>
      simp only [lits, List.map_cons, List.cons_append, matchHere] at h
      split at h
      · next hx =>
        obtain ⟨t, ht, hm⟩ := ih xs h
        exact ⟨t, by rw [hx, ht]; rfl, hm⟩
      · exact absurd h (by simp)

theorem backtrack_inv (cont : List Char → Option (List (List Char) × List Char))
    (s : List Char) (k : Nat) (caps : List (List Char)) (rest : List Char)
    (h : backtrack cont s k = some (caps, rest)) :
    ∃ j caps1, 1 ≤ j ∧ j ≤ k ∧ cont (s.drop j) = some (caps1, rest) ∧
      caps = s.take j :: caps1 := by
  induction k with
  | zero => simp [backtrack] at h
  | succ k ih =>
    simp only [backtrack] at h
    split at h
    · next c r hc =>
      simp only [Option.some.injEq, Prod.mk.injEq] at h
      exact ⟨k + 1, c, by omega, le_refl _, by rw [hc, h.2], h.1.symm⟩
    · obtain ⟨j, c, h1, h2, h3⟩ := ih h
      exact ⟨j, c, h1, by omega, h3⟩

theorem backtrack_none (cont : List Char → Option (List (List Char) × List Char))
    (s : List Char) (k : Nat) (h : ∀ j, 1 ≤ j → j ≤ k → cont (s.drop j) = none) :
    backtrack cont s k = none := by
  induction k with
  | zero => rfl
  | succ k ih =>
    simp only [backtrack]
    rw [h (k + 1) (by omega) (le_refl _)]
    exact ih fun j h1 h2 => h j h1 (by omega)

theorem backtrack_first (cont : List Char → Option (List (List Char) × List Char))
    (s : List Char) (k : Nat) (hk : 1 ≤ k)
    (h : ∀ j, 1 ≤ j → j < k → cont (s.drop j) = none) :
    backtrack cont s k =
      (cont (s.drop k)).map fun r => (s.take k :: r.1, r.2) := by
  obtain ⟨k, rfl⟩ : ∃ n, k = n + 1 := ⟨k - 1, by omega⟩
  simp only [backtrack]
  cases hc : cont (s.drop (k + 1)) with
  | some r => rfl
  | none =>
    simp only [Option.map_none']
    exact backtrack_none cont s k fun j h1 h2 => h j h1 (by omega)

theorem take_takeWhile_length (cls : Char → Bool) (s : List Char) :
    s.take (s.takeWhile cls).length = s.takeWhile cls := by
  induction s with
  | nil => rfl
  | cons x xs ih =>
    by_cases hx : cls x = true
    · simp [List.takeWhile_cons_of_pos hx, ih]
    · simp [List.takeWhile_cons_of_neg hx]

theorem drop_takeWhile_length (cls : Char → Bool) (s : List Char) :
    s.drop (s.takeWhile cls).length = s.dropWhile cls := by
  induction s with
  | nil => rfl
  | cons x xs ih =>
    by_cases hx : cls x = true
    · simp [List.takeWhile_cons_of_pos hx, List.dropWhile_cons_of_pos hx, ih]
    · simp [List.takeWhile_cons_of_neg hx, List.dropWhile_cons_of_neg hx]

theorem length_takeWhile_le (cls : Char → Bool) (s : List Char) :
    (s.takeWhile cls).length ≤ s.length := by
  have h := congrArg List.length (List.takeWhile_append_dropWhile cls s)
  rw [List.length_append] at h
  omega

theorem takeWhile_run (cls : Char → Bool) (d t : List Char) (c : Char)
    (hd : ∀ x ∈ d, cls x = true) (hc : cls c = false) :
    (d ++ c :: t).takeWhile cls = d := by
  rw [List.takeWhile_append_of_pos hd, List.takeWhile_cons_of_neg (by simp [hc])]
  simp

theorem matchHere_plus_lit (cls : Char → Bool) (c : Char) (re : List Node)
    (d t : List Char) (hne : d ≠ []) (hd : ∀ x ∈ d, cls x = true) (hc : cls c = false) :
    matchHere (Node.plus cls :: Node.lit c :: re) (d ++ c :: t) =
      (matchHere re t).map fun r => (d :: r.1, r.2) := by
  have hlen : 1 ≤ d.length := by
    cases d with
    | nil => exact absurd rfl hne
    | cons _ _ => simp
  simp only [matchHere, takeWhile_run cls d t c hd hc]
  rw [backtrack_first _ _ _ hlen]
  · simp [matchHere]
  · intro j h1 h2
    rw [List.drop_append_of_le_length (by omega)]
    obtain ⟨x, xs, hx⟩ : ∃ x xs, d.drop j = x :: xs := by
      cases hdj : d.drop j with
      | nil => simp at hdj; omega
      | cons x xs => exact ⟨x, xs, rfl⟩
    have hxmem : x ∈ d := List.mem_of_mem_drop (by rw [hx]; simp)
    have hxc : x ≠ c := by
      intro h
      rw [h] at hxmem
      have := hd c hxmem
      rw [hc] at this
      exact absurd this (by simp)
    simp [hx, matchHere, hxc]

theorem matchHere_plus_lit_inv (cls : Char → Bool) (c : Char) (re : List Node)
    (s : List Char) (caps : List (List Char)) (rest : List Char)
    (h : matchHere (Node.plus cls :: Node.lit c :: re) s = some (caps, rest)) :
    ∃ d t caps1, d ≠ [] ∧ (∀ x ∈ d, cls x = true) ∧ s = d ++ c :: t ∧
      matchHere re t = some (caps1, rest) ∧ caps = d :: caps1 := by
  simp only [matchHere] at h
  obtain ⟨j, caps1, h1, h2, h3, h4⟩ := backtrack_inv _ _ _ _ _ h
  cases hdrop : s.drop j with
  | nil => rw [hdrop] at h3; simp at h3
  | cons x t =>
    rw [hdrop] at h3
    simp only at h3
    split at h3
    · next hx =>
      refine ⟨s.take j, t, caps1, ?_, ?_, ?_, h3, h4⟩
      · intro hnil
        have hl : (s.take j).length = 0 := by rw [hnil]; rfl
        have hjl : j ≤ s.length := le_trans h2 (length_takeWhile_le cls s)
        rw [List.length_take] at hl
        omega
      · intro y hy
        have hpre : s.take j = (s.takeWhile cls).take j := by
          have e : s.take j = (s.takeWhile cls ++ s.dropWhile cls).take j := by
            rw [List.takeWhile_append_dropWhile]
          rw [e, List.take_append_of_le_length h2]
        rw [hpre] at hy
        exact List.mem_takeWhile_imp (List.mem_of_mem_take hy)
      · rw [← hx, ← hdrop, List.take_append_drop]
    · exact absurd h3 (by simp)

theorem matchHere_plus_last (cls : Char → Bool) (s : List Char) :
    matchHere [Node.plus cls] s =
      if s.takeWhile cls = [] then none
      else some ([s.takeWhile cls], s.dropWhile cls) := by
  simp only [matchHere]
  cases hk : (s.takeWhile cls).length with
  | zero =>
    have : s.takeWhile cls = [] := List.length_eq_zero.mp hk
    simp [this, backtrack]
  | succ k =>
    have hne : s.takeWhile cls ≠ [] := by
      intro h
      rw [h] at hk
      simp at hk
    simp only [backtrack, if_neg hne]
    rw [← hk, take_takeWhile_length, drop_takeWhile_length]

theorem takeWhile_of_not_startsWithDigit (q : List Char) (hq : startsWithDigit q = false) :
    q.takeWhile isDigit = [] := by
  cases q with
  | nil => rfl
  | cons c cs => exact List.takeWhile_cons_of_neg (by simpa [startsWithDigit] using hq)

theorem startsWithDigit_dropWhile (t : List Char) :
    startsWithDigit (t.dropWhile isDigit) = false := by
  induction t with
  | nil => rfl
  | cons c cs ih =>
    by_cases hc : isDigit c = true
    · rw [List.dropWhile_cons_of_pos hc]; exact ih
    · rw [List.dropWhile_cons_of_neg hc]; simpa [startsWithDigit] using hc

theorem isDigit_colon : isDigit ':' = false := by decide

/-- The pattern matches a text that starts with `INDEX 01 d1:d2:d3`, the
last digit run taken in full. -/
theorem matchHere_index (d1 d2 d3 q : List Char)
    (n1 : d1 ≠ []) (h1 : ∀ x ∈ d1, isDigit x = true)
    (n2 : d2 ≠ []) (h2 : ∀ x ∈ d2, isDigit x = true)
    (n3 : d3 ≠ []) (h3 : ∀ x ∈ d3, isDigit x = true)
    (hq : startsWithDigit q = false) :
    matchHere indexRegex ("INDEX 01 ".toList ++ (d1 ++ ':' :: (d2 ++ ':' :: (d3 ++ q)))) =
      some ([d1, d2, d3], q) := by
  have htw : (d3 ++ q).takeWhile isDigit = d3 := by
    rw [List.takeWhile_append_of_pos h3, takeWhile_of_not_startsWithDigit q hq]
    simp
  have hdw : (d3 ++ q).dropWhile isDigit = q := by
    have h := List.takeWhile_append_dropWhile isDigit (d3 ++ q)
    rw [htw] at h
    exact List.append_cancel_left h
  unfold indexRegex
  rw [matchHere_lits_append, matchHere_plus_lit _ _ _ _ _ n1 h1 isDigit_colon,
    matchHere_plus_lit _ _ _ _ _ n2 h2 isDigit_colon, matchHere_plus_last, htw, hdw]
  simp [n3]

/-- Every match of the pattern at the start of a text has the shape
`INDEX 01 d1:d2:d3` and ends where the last digit run ends. -/
theorem matchHere_index_inv (s : List Char) (caps : List (List Char)) (rest : List Char)
    (h : matchHere indexRegex s = some (caps, rest)) :
    ∃ d1 d2 d3, (d1 ≠ [] ∧ ∀ x ∈ d1, isDigit x = true) ∧
      (d2 ≠ [] ∧ ∀ x ∈ d2, isDigit x = true) ∧
      (d3 ≠ [] ∧ ∀ x ∈ d3, isDigit x = true) ∧
      s = "INDEX 01 ".toList ++ (d1 ++ ':' :: (d2 ++ ':' :: (d3 ++ rest))) ∧
      caps = [d1, d2, d3] ∧ startsWithDigit rest = false := by
  unfold indexRegex at h
  obtain ⟨t0, hs, h⟩ := matchHere_lits_inv _ _ _ _ h
  obtain ⟨d1, t1, c1, n1, h1, e1, h, hc1⟩ := matchHere_plus_lit_inv _ _ _ _ _ _ h
  obtain ⟨d2, t2, c2, n2, h2, e2, h, hc2⟩ := matchHere_plus_lit_inv _ _ _ _ _ _ h
  rw [matchHere_plus_last] at h
  split at h
  · exact absurd h (by simp)
  · next hne =>
    simp only [Option.some.injEq, Prod.mk.injEq] at h
    refine ⟨d1, d2, t2.takeWhile isDigit, ⟨n1, h1⟩, ⟨n2, h2⟩,
      ⟨hne, fun x hx => List.mem_takeWhile_imp hx⟩, ?_, ?_, ?_⟩
    · rw [hs, e1, e2, ← h.2, List.takeWhile_append_dropWhile]
    · rw [hc1, hc2, ← h.1]
    · rw [← h.2]; exact startsWithDigit_dropWhile t2

/-! ## The replacement loop -/

theorem replaceAllAux_fuel (re : List Node) (repl : List Char → List Char) :
    ∀ (fuel : Nat) (s : List Char) (fuel1 : Nat), s.length ≤ fuel → s.length ≤ fuel1 →
      replaceAllAux re repl fuel s = replaceAllAux re repl fuel1 s := by
  intro fuel
  induction fuel with
  | zero =>
    intro s fuel1 h0 _
    have hs : s = [] := List.length_eq_zero.mp (Nat.le_zero.mp h0)
    subst hs
    cases fuel1 <;> rfl
  | succ fuel ih =>
    intro s fuel1 h0 h1
    cases s with
    | nil => cases fuel1 <;> rfl
    | cons c cs =>
      obtain ⟨f1, rfl⟩ : ∃ n, fuel1 = n + 1 := ⟨fuel1 - 1, by simp at h1; omega⟩
      simp only [List.length_cons] at h0 h1
      simp only [replaceAllAux]
      cases hm : matchHere re (c :: cs) with
      | none => simp only; rw [ih cs f1 (by omega) (by omega)]
      | some r =>
        obtain ⟨caps, rest⟩ := r
        simp only
        split
        · next hlt =>
          simp only [List.length_cons] at hlt
          rw [ih rest f1 (by omega) (by omega)]
        · rw [ih cs f1 (by omega) (by omega)]

theorem replaceAll_nil (re : List Node) (repl : List Char → List Char) :
    replaceAllStringFunc re [] repl = [] := rfl

theorem replaceAll_cons_none (re : List Node) (repl : List Char → List Char)
    (c : Char) (cs : List Char) (h : matchHere re (c :: cs) = none) :
    replaceAllStringFunc re (c :: cs) repl = c :: replaceAllStringFunc re cs repl := by
  simp only [replaceAllStringFunc, List.length_cons, replaceAllAux, h]

theorem replaceAll_match (re : List Node) (repl : List Char → List Char)
    (s : List Char) (caps : List (List Char)) (rest : List Char)
    (h : matchHere re s = some (caps, rest)) (hlt : rest.length < s.length) :
    replaceAllStringFunc re s repl =
      repl (s.take (s.length - rest.length)) ++ replaceAllStringFunc re rest repl := by
  cases s with
  | nil => simp at hlt
  | cons c cs =>
    simp only [replaceAllStringFunc, List.length_cons, replaceAllAux, h]
    rw [if_pos (by simpa using hlt)]
    simp only [List.length_cons] at hlt
    rw [replaceAllAux_fuel re repl cs.length rest rest.length (by omega) (le_refl _)]

/-- Text in which no match starts is copied. -/
theorem replaceAll_skip (re : List Node) (repl : List Char → List Char)
    (p s : List Char) (h : ∀ i, i < p.length → matchHere re ((p ++ s).drop i) = none) :
    replaceAllStringFunc re (p ++ s) repl = p ++ replaceAllStringFunc re s repl := by
  induction p with
  | nil => rfl
  | cons c p ih =>
    have h0 := h 0 (by simp)
    simp only [List.drop_zero, List.cons_append] at h0
    rw [List.cons_append, replaceAll_cons_none re repl c (p ++ s) h0, ih, List.cons_append]
    intro i hi
    have := h (i + 1) (by simpa using hi)
    simpa using this

theorem matchHere_index_head (c : Char) (cs : List Char) (hc : c ≠ 'I') :
    matchHere indexRegex (c :: cs) = none := by
  simp [indexRegex, lits, matchHere, hc]

theorem matchHere_index_nil : matchHere indexRegex [] = none := by
  simp [indexRegex, lits, matchHere]

/-- A prefix without the letter `I` is copied by the rewrite. -/
theorem rewriteLine_indent (p s : List Char) (hp : ∀ x ∈ p, x ≠ 'I') :
    rewriteLine (p ++ s) = p ++ rewriteLine s := by
  apply replaceAll_skip
  intro i hi
  rw [List.drop_append_of_le_length (by omega)]
  cases hd : p.drop i with
  | nil => simp at hd; omega
  | cons x xs =>
    have hx : x ∈ p := List.mem_of_mem_drop (by rw [hd]; simp)
    exact matchHere_index_head x _ (hp x hx)

theorem findStringSubmatch_of_match (re : List Node) (s : List Char)
    (caps : List (List Char)) (rest : List Char) (hs : s ≠ [])
    (h : matchHere re s = some (caps, rest)) :
    findStringSubmatch re s = s.take (s.length - rest.length) :: caps := by
  cases s with
  | nil => exact absurd rfl hs
  | cons c cs => simp only [findStringSubmatch, h]

theorem findStringSubmatch_index (d1 d2 d3 : List Char)
    (n1 : d1 ≠ []) (h1 : ∀ x ∈ d1, isDigit x = true)
    (n2 : d2 ≠ []) (h2 : ∀ x ∈ d2, isDigit x = true)
    (n3 : d3 ≠ []) (h3 : ∀ x ∈ d3, isDigit x = true) :
    findStringSubmatch indexRegex ("INDEX 01 ".toList ++ (d1 ++ ':' :: (d2 ++ ':' :: d3))) =
      ["INDEX 01 ".toList ++ (d1 ++ ':' :: (d2 ++ ':' :: d3)), d1, d2, d3] := by
  have hm := matchHere_index d1 d2 d3 [] n1 h1 n2 h2 n3 h3 rfl
  simp only [List.append_nil] at hm
  rw [findStringSubmatch_of_match _ _ _ _ (by simp) hm]
  simp

theorem replaceIndex_match (d1 d2 d3 : List Char)
    (n1 : d1 ≠ []) (h1 : ∀ x ∈ d1, isDigit x = true)
    (n2 : d2 ≠ []) (h2 : ∀ x ∈ d2, isDigit x = true)
    (n3 : d3 ≠ []) (h3 : ∀ x ∈ d3, isDigit x = true) :
    replaceIndex ("INDEX 01 ".toList ++ (d1 ++ ':' :: (d2 ++ ':' :: d3))) =
      indexChunk d1 d2 d3 := by
  simp only [replaceIndex, findStringSubmatch_index d1 d2 d3 n1 h1 n2 h2 n3 h3, indexChunk]
  simp

/-- A match at the start of the text is replaced and the rewrite goes on
behind it. -/
theorem rewriteLine_match (d1 d2 d3 q : List Char)
    (n1 : d1 ≠ []) (h1 : ∀ x ∈ d1, isDigit x = true)
    (n2 : d2 ≠ []) (h2 : ∀ x ∈ d2, isDigit x = true)
    (n3 : d3 ≠ []) (h3 : ∀ x ∈ d3, isDigit x = true)
    (hq : startsWithDigit q = false) :
    rewriteLine ("INDEX 01 ".toList ++ (d1 ++ ':' :: (d2 ++ ':' :: (d3 ++ q)))) =
      indexChunk d1 d2 d3 ++ rewriteLine q := by
  have hm := matchHere_index d1 d2 d3 q n1 h1 n2 h2 n3 h3 hq
  unfold rewriteLine
  rw [replaceAll_match _ _ _ _ _ hm (by simp; omega)]
  congr 1
  rw [← replaceIndex_match d1 d2 d3 n1 h1 n2 h2 n3 h3]
  congr 1
  have e : "INDEX 01 ".toList ++ (d1 ++ ':' :: (d2 ++ ':' :: (d3 ++ q))) =
      ("INDEX 01 ".toList ++ (d1 ++ ':' :: (d2 ++ ':' :: d3))) ++ q := by simp
  rw [e, List.length_append, Nat.add_sub_cancel, List.take_left']
  rfl

/-! ## Decimal digits -/

theorem digitChar_value (k : Nat) (hk : k < 10) : (Nat.digitChar k).toNat - 48 = k := by
  interval_cases k <;> rfl

theorem digitChar_isDigit (k : Nat) (hk : k < 10) : isDigit (Nat.digitChar k) = true := by
  interval_cases k <;> rfl

theorem digitsValue_toDigitsCore (fuel n : Nat) (ds : List Char) (h : n < fuel) :
    (Nat.toDigitsCore 10 fuel n ds).foldl (fun acc c => acc * 10 + (c.toNat - 48)) 0 =
      ds.foldl (fun acc c => acc * 10 + (c.toNat - 48)) n := by
  induction fuel generalizing n ds with
  | zero => omega
  | succ fuel ih =>
    simp only [Nat.toDigitsCore]
    split
    · next h0 =>
      have hn : n % 10 = n := Nat.mod_eq_of_lt (by omega)
      have hv := digitChar_value (n % 10) (Nat.mod_lt _ (by omega))
      rw [hn] at hv
      simp [List.foldl_cons, hn, hv]
    · next h0 =>
      rw [ih (n / 10) _ (by omega)]
      simp only [List.foldl_cons, digitChar_value (n % 10) (Nat.mod_lt _ (by omega))]
      congr 1
      omega

theorem isDigit_toDigitsCore (fuel n : Nat) (ds : List Char)
    (hds : ∀ x ∈ ds, isDigit x = true) :
    ∀ x ∈ Nat.toDigitsCore 10 fuel n ds, isDigit x = true := by
  induction fuel generalizing n ds with
  | zero => simpa [Nat.toDigitsCore] using hds
  | succ fuel ih =>
    have hd := digitChar_isDigit (n % 10) (Nat.mod_lt _ (by omega))
    simp only [Nat.toDigitsCore]
    split
    · intro x hx
      rcases List.mem_cons.mp hx with h | h
      · rw [h]; exact hd
      · exact hds x h
    · apply ih
      intro x hx
      rcases List.mem_cons.mp hx with h | h
      · rw [h]; exact hd
      · exact hds x h

theorem toDigitsCore_ne_nil (fuel n : Nat) (ds : List Char) (h : ds ≠ [] ∨ 0 < fuel) :
    Nat.toDigitsCore 10 fuel n ds ≠ [] := by
  induction fuel generalizing n ds with
  | zero =>
    rcases h with h | h
    · simpa [Nat.toDigitsCore] using h
    · omega
  | succ fuel ih =>
    simp only [Nat.toDigitsCore]
    split
    · simp
    · exact ih _ _ (Or.inl (by simp))

theorem digitsValue_decimal (z n : Nat) : digitsValue (decimal z n) = n := by
  unfold digitsValue decimal
  rw [List.foldl_append]
  have hz : (List.replicate z '0').foldl (fun acc c => acc * 10 + (c.toNat - 48)) 0 = 0 := by
    induction z with
    | zero => rfl
    | succ z ih => rw [List.replicate_succ, List.foldl_cons]; exact ih
  rw [hz]
  exact digitsValue_toDigitsCore (n + 1) n [] (by omega)

theorem decimal_ne_nil (z n : Nat) : decimal z n ≠ [] := by
  unfold decimal
  intro h
  exact toDigitsCore_ne_nil (n + 1) n [] (Or.inr (by omega)) (List.append_eq_nil.mp h).2

theorem decimal_isDigit (z n : Nat) : ∀ x ∈ decimal z n, isDigit x = true := by
  intro x hx
  rcases List.mem_append.mp hx with h | h
  · rw [(List.mem_replicate.mp h).2]; rfl
  · exact isDigit_toDigitsCore (n + 1) n [] (by simp) x h

/-- On a run of digits `Atoi` returns the value, or the largest `int` when
the value does not fit. -/
theorem atoi_digits (d : List Char) (hne : d ≠ []) (hd : ∀ x ∈ d, isDigit x = true) :
    atoi d = if (2 : Int) ^ 63 ≤ digitsValue d then (2 ^ 63 - 1, true)
      else ((digitsValue d : Int), false) := by
  cases d with
  | nil => exact absurd rfl hne
  | cons c cs =>
    have hc := hd c (by simp)
    have hm : c ≠ '-' := by intro h; rw [h] at hc; exact absurd hc (by decide)
    have hp : c ≠ '+' := by intro h; rw [h] at hc; exact absurd hc (by decide)
    have hall : (c :: cs).all isDigit = true := List.all_eq_true.mpr hd
    simp only [atoi, List.head?_cons, Option.some.injEq, hm, hp, or_self, if_false, hall]
    simp

theorem wrapInt_of_range (x : Int) (h0 : 0 ≤ x) (h1 : x < 2 ^ 63) : wrapInt x = x := by
  unfold wrapInt
  rw [Int.emod_eq_of_lt (by omega) (by omega)]
  omega

theorem fmt02d_nonneg (n : Nat) : fmt02d (n : Int) = padDigits 2 n := by
  simp [fmt02d]

theorem indexChunk_decimal (H M z1 z2 : Nat) (S : List Char) (hrange : H * 60 + M < 2 ^ 63) :
    indexChunk (decimal z1 H) (decimal z2 M) S =
      "INDEX 01 ".toList ++ (padDigits 2 (H * 60 + M) ++ ':' :: (S ++ ".000".toList)) := by
  have hH : ¬ ((2 : Int) ^ 63 ≤ (H : Int)) := by
    have : (H : Int) < 2 ^ 63 := by exact_mod_cast (by omega : H < 2 ^ 63)
    omega
  have hM : ¬ ((2 : Int) ^ 63 ≤ (M : Int)) := by
    have : (M : Int) < 2 ^ 63 := by exact_mod_cast (by omega : M < 2 ^ 63)
    omega
  have hT : ((H * 60 + M : Nat) : Int) < 2 ^ 63 := by exact_mod_cast hrange
  have h60 : ((H : Int) * 60) < 2 ^ 63 := by push_cast at hT; omega
  unfold indexChunk
  rw [atoi_digits _ (decimal_ne_nil z1 H) (decimal_isDigit z1 H),
    atoi_digits _ (decimal_ne_nil z2 M) (decimal_isDigit z2 M),
    digitsValue_decimal, digitsValue_decimal, if_neg hH, if_neg hM]
  simp only
  rw [wrapInt_of_range ((H : Int) * 60) (by positivity) h60,
    wrapInt_of_range ((H : Int) * 60 + M) (by positivity) (by push_cast at hT; omega)]
  have e : (H : Int) * 60 + M = ((H * 60 + M : Nat) : Int) := by push_cast; ring
  rw [e, fmt02d_nonneg]

/-- C1 (amended): for all non-negative integers `H` and `M` with
`H * 60 + M < 2 ^ 63`, written in decimal with any number of leading zeros,
and every non-empty digit string `S`, the per-line rewrite of `fixCueSheet`
turns the line `INDEX 01 H:M:S`, after any indentation `p` that holds no
letter `I`, into `INDEX 01 T:S.000`, where `T` is the decimal writing of
`H * 60 + M` padded with zeros to at least two digits and `S` is copied. -/
theorem rewriteLine_index (H M z1 z2 : Nat) (S p : List Char)
    (hS : S ≠ []) (hSd : ∀ x ∈ S, isDigit x = true) (hp : ∀ x ∈ p, x ≠ 'I')
    (hrange : H * 60 + M < 2 ^ 63) :
    rewriteLine (p ++ ("INDEX 01 ".toList ++
        (decimal z1 H ++ ':' :: (decimal z2 M ++ ':' :: S)))) =
      p ++ ("INDEX 01 ".toList ++
        (padDigits 2 (H * 60 + M) ++ ':' :: (S ++ ".000".toList))) := by
  have hm := rewriteLine_match (decimal z1 H) (decimal z2 M) S []
    (decimal_ne_nil z1 H) (decimal_isDigit z1 H) (decimal_ne_nil z2 M) (decimal_isDigit z2 M)
    hS hSd rfl
  rw [List.append_nil] at hm
  rw [rewriteLine_indent p _ hp, hm, indexChunk_decimal H M z1 z2 S hrange]
  have h0 : rewriteLine [] = [] := rfl
  rw [h0, List.append_nil]

set_option maxRecDepth 100000 in
/-- Witness of C1: the line `\tINDEX 01 01:30:12` becomes `\tINDEX 01 90:12.000`. -/
theorem rewriteLine_index_witness :
    ("\t".toList ++ ("INDEX 01 ".toList ++
        (decimal 1 1 ++ ':' :: (decimal 0 30 ++ ':' :: "12".toList))) =
        "\tINDEX 01 01:30:12".toList) ∧
      rewriteLine "\tINDEX 01 01:30:12".toList = "\tINDEX 01 90:12.000".toList :=
  ⟨by decide,
   rewriteLine_index 1 30 1 0 "12".toList "\t".toList (by decide) (by decide) (by decide)
     (by norm_num)⟩

set_option maxRecDepth 100000 in
/-- Counterexample to C1 as stated: with `H = 153722867280912931` the product
`H * 60` leaves the range of `int` and the line gets a negative minute field. -/
theorem rewriteLine_index_overflow :
    rewriteLine ("INDEX 01 ".toList ++
        (decimal 0 153722867280912931 ++ ':' :: (decimal 0 0 ++ ':' :: "12".toList))) =
      "INDEX 01 -9223372036854775756:12.000".toList ∧
    rewriteLine ("INDEX 01 ".toList ++
        (decimal 0 153722867280912931 ++ ':' :: (decimal 0 0 ++ ':' :: "12".toList))) ≠
      [] ++ ("INDEX 01 ".toList ++
        (padDigits 2 (153722867280912931 * 60 + 0) ++ ':' :: ("12".toList ++ ".000".toList))) := by
  decide

/-! ## Lines -/

theorem splitLines_line_cons (l rest : List Char) (hl : ∀ x ∈ l, x ≠ '\n') :
    splitLines (l ++ '\n' :: rest) = l :: splitLines rest := by
  induction l with
  | nil => simp [splitLines]
  | cons c l ih =>
    have hc : c ≠ '\n' := hl c (by simp)
    rw [List.cons_append, splitLines, if_neg hc, ih (fun x hx => hl x (by simp [hx]))]

theorem splitLines_last (l : List Char) (hne : l ≠ []) (hl : ∀ x ∈ l, x ≠ '\n') :
    splitLines l = [l] := by
  induction l with
  | nil => exact absurd rfl hne
  | cons c l ih =>
    have hc : c ≠ '\n' := hl c (by simp)
    cases l with
    | nil => simp [splitLines, hc]
    | cons d l =>
      rw [splitLines, if_neg hc, ih (by simp) (fun x hx => hl x (by simp [hx]))]

theorem splitLines_unlines (ls : List (List Char)) (h : ∀ l ∈ ls, ∀ x ∈ l, x ≠ '\n') :
    splitLines (unlines ls) = ls := by
  induction ls with
  | nil => rfl
  | cons l ls ih =>
    rw [unlines, splitLines_line_cons l _ (h l (by simp)),
      ih (fun m hm => h m (by simp [hm]))]

theorem unlines_append (a b : List (List Char)) : unlines (a ++ b) = unlines a ++ unlines b := by
  induction a with
  | nil => rfl
  | cons l a ih => simp [unlines, ih]

theorem takeWhile_line (l rest : List Char) (hl : ∀ x ∈ l, x ≠ '\n') :
    (l ++ '\n' :: rest).takeWhile (fun c => c != '\n') = l := by
  apply takeWhile_run
  · intro x hx
    simpa using hl x hx
  · simp

theorem takeWhile_noNewline (l : List Char) (hl : ∀ x ∈ l, x ≠ '\n') :
    l.takeWhile (fun c => c != '\n') = l := by
  rw [List.takeWhile_eq_self_iff]
  intro x hx
  simpa using hl x hx

/-! ## The scanner -/

theorem scan_nil (tok : List Char) (err : Option ScanError) :
    Scanner.scan { src := [], token := tok, err := err } =
      (false, { src := [], token := [], err := err }) := by
  simp [Scanner.scan]

theorem scan_line (l rest tok : List Char) (hl : ∀ x ∈ l, x ≠ '\n')
    (hshort : byteLen l < maxScanTokenSize) :
    Scanner.scan { src := l ++ '\n' :: rest, token := tok, err := none } =
      (true, { src := rest, token := dropCR l, err := none }) := by
  have hne : l ++ '\n' :: rest ≠ [] := by simp
  simp only [Scanner.scan, if_neg hne, takeWhile_line l rest hl]
  rw [if_neg (by omega)]
  simp

theorem scan_last (l tok : List Char) (hne : l ≠ []) (hl : ∀ x ∈ l, x ≠ '\n')
    (hshort : byteLen l < maxScanTokenSize) :
    Scanner.scan { src := l, token := tok, err := none } =
      (true, { src := [], token := dropCR l, err := none }) := by
  simp only [Scanner.scan, if_neg hne, takeWhile_noNewline l hl]
  rw [if_neg (by omega)]
  simp

theorem byteLen_append (a b : List Char) : byteLen (a ++ b) = byteLen a + byteLen b := by
  simp [byteLen]

theorem scan_tooLong (l rest tok : List Char) (hl : ∀ x ∈ l, x ≠ '\n')
    (hlong : maxScanTokenSize ≤ byteLen l) :
    Scanner.scan { src := l ++ rest, token := tok, err := none } =
      (false, { src := takeBytes maxScanTokenSize (l ++ rest), token := [],
                err := some ScanError.tooLong }) := by
  have hne : l ++ rest ≠ [] := by
    intro h
    have : l = [] := (List.append_eq_nil.mp h).1
    rw [this] at hlong
    simp [byteLen, maxScanTokenSize] at hlong
  have htw : (l ++ rest).takeWhile (fun c => c != '\n') =
      l ++ rest.takeWhile (fun c => c != '\n') :=
    List.takeWhile_append_of_pos (fun x hx => by simpa using hl x hx)
  simp only [Scanner.scan, if_neg hne, htw, byteLen_append]
  rw [if_pos ⟨trivial, by omega⟩]

theorem line_cases (s : List Char) :
    (∀ x ∈ s, x ≠ '\n') ∨ ∃ l rest, s = l ++ '\n' :: rest ∧ ∀ x ∈ l, x ≠ '\n' := by
  induction s with
  | nil => left; simp
  | cons c cs ih =>
    by_cases hc : c = '\n'
    · right; exact ⟨[], cs, by simp [hc], by simp⟩
    · rcases ih with h | ⟨l, rest, h1, h2⟩
      · left
        intro x hx
        rcases List.mem_cons.mp hx with h0 | h0
        · rw [h0]; exact hc
        · exact h x h0
      · right
        refine ⟨c :: l, rest, by simp [h1], ?_⟩
        intro x hx
        rcases List.mem_cons.mp hx with h0 | h0
        · rw [h0]; exact hc
        · exact h2 x h0

theorem scan_token_irrelevant (src tok tok1 : List Char) (err : Option ScanError) :
    Scanner.scan { src := src, token := tok, err := err } =
      Scanner.scan { src := src, token := tok1, err := err } := by
  simp [Scanner.scan]

theorem dropCR_subset (l : List Char) : ∀ x ∈ dropCR l, x ∈ l := by
  intro x hx
  unfold dropCR at hx
  split at hx
  · exact List.mem_of_mem_dropLast hx
  · exact hx

theorem scan_token_noNewline (sc sc1 : Scanner) (h : sc.scan = (true, sc1)) :
    ∀ x ∈ sc1.token, x ≠ '\n' := by
  unfold Scanner.scan at h
  split at h
  · simp at h
  · simp only at h
    split at h
    · simp at h
    · simp only [Prod.mk.injEq, true_and] at h
      rw [← h]
      intro x hx
      have hx1 := dropCR_subset _ x hx
      have := List.mem_takeWhile_imp hx1
      simpa using this

/-! ## The loop of fixCueSheet -/

theorem fixLoop_written (fuel : Nat) (sc : Scanner) (out : List Char) :
    (fixLoop fuel sc out).2 = out ++ unlines ((scanAll fuel sc).map rewriteLine) := by
  induction fuel generalizing sc out with
  | zero => simp [fixLoop, scanAll, unlines]
  | succ fuel ih =>
    simp only [fixLoop, scanAll]
    rcases hs : sc.scan with ⟨ok, sc1⟩
    cases ok with
    | true => simp [ih, unlines]
    | false => simp [unlines]

theorem scanAll_noNewline (fuel : Nat) (sc : Scanner) :
    ∀ l ∈ scanAll fuel sc, ∀ x ∈ l, x ≠ '\n' := by
  induction fuel generalizing sc with
  | zero => simp [scanAll]
  | succ fuel ih =>
    simp only [scanAll]
    rcases hs : sc.scan with ⟨ok, sc1⟩
    cases ok with
    | true =>
      intro l hl
      rcases List.mem_cons.mp hl with h | h
      · rw [h]; exact scan_token_noNewline sc sc1 hs
      · exact ih sc1 l h
    | false => simp

theorem fixLoop_short (fuel : Nat) (input tok out : List Char) (hfuel : input.length < fuel)
    (hshort : ∀ l ∈ splitLines input, byteLen l < maxScanTokenSize) :
    fixLoop fuel { src := input, token := tok, err := none } out =
      ({ src := [], token := [], err := none },
        out ++ unlines ((splitLines input).map fun l => rewriteLine (dropCR l))) := by
  induction fuel generalizing input tok out with
  | zero => omega
  | succ fuel ih =>
    cases hin : input with
    | nil => simp [fixLoop, scan_nil, splitLines, unlines]
    | cons c cs =>
      rw [← hin]
      have hne : input ≠ [] := by rw [hin]; simp
      rcases line_cases input with hl | ⟨l, rest, he, hl⟩
      · have hsp := splitLines_last input hne hl
        have hb : byteLen input < maxScanTokenSize := hshort input (by rw [hsp]; simp)
        simp only [fixLoop, scan_last input tok hne hl hb]
        cases fuel with
        | zero => rw [hin] at hfuel; simp at hfuel
        | succ fuel => simp [fixLoop, scan_nil, hsp, unlines]
      · have hsp := splitLines_line_cons l rest hl
        rw [he] at hshort hfuel ⊢
        have hb : byteLen l < maxScanTokenSize := hshort l (by rw [hsp]; simp)
        simp only [fixLoop, scan_line l rest tok hl hb]
        rw [ih rest (dropCR l) _ (by simp at hfuel; omega)
          (fun m hm => hshort m (by rw [hsp]; simp [hm]))]
        simp [hsp, unlines]

/-! ## Induction along the rewrite of a line -/

theorem rewriteLine_nil : rewriteLine [] = [] := rfl

theorem rewriteLine_cons_none (c : Char) (cs : List Char)
    (h : matchHere indexRegex (c :: cs) = none) :
    rewriteLine (c :: cs) = c :: rewriteLine cs :=
  replaceAll_cons_none indexRegex replaceIndex c cs h

theorem rewriteLine_cases (P : List Char → List Char → Prop) (hnil : P [] [])
    (hcopy : ∀ c cs, matchHere indexRegex (c :: cs) = none → P cs (rewriteLine cs) →
      P (c :: cs) (c :: rewriteLine cs))
    (hrepl : ∀ d1 d2 d3 q, (d1 ≠ [] ∧ ∀ x ∈ d1, isDigit x = true) →
      (d2 ≠ [] ∧ ∀ x ∈ d2, isDigit x = true) → (d3 ≠ [] ∧ ∀ x ∈ d3, isDigit x = true) →
      startsWithDigit q = false → P q (rewriteLine q) →
      P ("INDEX 01 ".toList ++ (d1 ++ ':' :: (d2 ++ ':' :: (d3 ++ q))))
        (indexChunk d1 d2 d3 ++ rewriteLine q)) :
    ∀ s, P s (rewriteLine s) := by
  suffices h : ∀ n s, s.length = n → P s (rewriteLine s) from fun s => h s.length s rfl
  intro n
  induction n using Nat.strong_induction_on with
  | _ n ih =>
    intro s hn
    cases s with
    | nil => exact hnil
    | cons c cs =>
      cases hm : matchHere indexRegex (c :: cs) with
      | none =>
        rw [rewriteLine_cons_none c cs hm]
        exact hcopy c cs hm (ih cs.length (by rw [← hn]; simp) cs rfl)
      | some r =>
        obtain ⟨caps, rest⟩ := r
        obtain ⟨d1, d2, d3, p1, p2, p3, hs, _, hq⟩ := matchHere_index_inv _ _ _ hm
        rw [hs, rewriteLine_match d1 d2 d3 rest p1.1 p1.2 p2.1 p2.2 p3.1 p3.2 hq]
        refine hrepl d1 d2 d3 rest p1 p2 p3 hq (ih rest.length ?_ rest rfl)
        rw [← hn, hs]
        simp
        omega

theorem findStringSubmatch_nil_iff (re : List Node) (c : Char) (cs : List Char) :
    findStringSubmatch re (c :: cs) = [] ↔
      matchHere re (c :: cs) = none ∧ findStringSubmatch re cs = [] := by
  rw [findStringSubmatch]
  cases hm : matchHere re (c :: cs) with
  | none => simp
  | some r => simp

/-- A line without a match of the pattern is left as it is. -/
theorem rewriteLine_noMatch (l : List Char) (h : findStringSubmatch indexRegex l = []) :
    rewriteLine l = l := by
  induction l with
  | nil => rfl
  | cons c cs ih =>
    obtain ⟨h1, h2⟩ := (findStringSubmatch_nil_iff _ c cs).mp h
    rw [rewriteLine_cons_none c cs h1, ih h2]

/-! ## The replacement text -/

theorem padDigits_isDigit (w n : Nat) : ∀ x ∈ padDigits w n, isDigit x = true := by
  intro x hx
  rcases List.mem_append.mp hx with h | h
  · rw [(List.mem_replicate.mp h).2]; rfl
  · exact isDigit_toDigitsCore (n + 1) n [] (by simp) x h

theorem padDigits_ne_nil (w n : Nat) : padDigits w n ≠ [] := by
  unfold padDigits
  intro h
  exact toDigitsCore_ne_nil (n + 1) n [] (Or.inr (by omega)) (List.append_eq_nil.mp h).2

/-- The minute field is a non-empty digit run, or a minus sign and a digit run. -/
theorem fmt02d_shape (n : Int) :
    (fmt02d n ≠ [] ∧ ∀ x ∈ fmt02d n, isDigit x = true) ∨
      ∃ ds, fmt02d n = '-' :: ds ∧ ∀ x ∈ ds, isDigit x = true := by
  unfold fmt02d
  split
  · right; exact ⟨_, rfl, padDigits_isDigit 1 _⟩
  · left; exact ⟨padDigits_ne_nil 2 _, padDigits_isDigit 2 _⟩

theorem fmt02d_chars (n : Int) : ∀ x ∈ fmt02d n, x = '-' ∨ isDigit x = true := by
  intro x hx
  rcases fmt02d_shape n with ⟨_, h⟩ | ⟨ds, he, h⟩
  · exact Or.inr (h x hx)
  · rw [he] at hx
    rcases List.mem_cons.mp hx with h0 | h0
    · exact Or.inl h0
    · exact Or.inr (h x h0)

theorem indexChunk_eq (d1 d2 d3 : List Char) :
    indexChunk d1 d2 d3 = 'I' :: chunkTail d1 d2 d3 := rfl

theorem chunkTail_chars (d1 d2 d3 : List Char) (h3 : ∀ x ∈ d3, isDigit x = true) :
    ∀ x ∈ chunkTail d1 d2 d3, x ≠ 'I' ∧ x ≠ '\n' := by
  intro x hx
  have key : x ∈ "NDEX 01 :.-".toList ∨ isDigit x = true := by
    unfold chunkTail at hx
    rcases List.mem_append.mp hx with h | h
    · left
      have hsub : ∀ y ∈ "NDEX 01 ".toList, y ∈ "NDEX 01 :.-".toList := by decide
      exact hsub x h
    · rcases List.mem_append.mp h with h | h
      · rcases fmt02d_chars _ x h with h0 | h0
        · left; rw [h0]; decide
        · exact Or.inr h0
      · rcases List.mem_cons.mp h with h0 | h0
        · left; rw [h0]; decide
        · rcases List.mem_append.mp h0 with h1 | h1
          · exact Or.inr (h3 x h1)
          · rcases List.mem_cons.mp h1 with h2 | h2
            · left; rw [h2]; decide
            · right
              have hz : ∀ y ∈ "000".toList, isDigit y = true := by decide
              exact hz x h2
  rcases key with h | h
  · have hall : ∀ y ∈ "NDEX 01 :.-".toList, y ≠ 'I' ∧ y ≠ '\n' := by decide
    exact hall x h
  · constructor
    · intro hx; rw [hx] at h; exact absurd h (by decide)
    · intro hx; rw [hx] at h; exact absurd h (by decide)

/-- The rewrite puts no line feed into a line. -/
theorem rewriteLine_noNewline (s : List Char) (hs : ∀ x ∈ s, x ≠ '\n') :
    ∀ x ∈ rewriteLine s, x ≠ '\n' := by
  refine rewriteLine_cases (fun s r => (∀ x ∈ s, x ≠ '\n') → ∀ x ∈ r, x ≠ '\n')
    ?_ ?_ ?_ s hs
  · intro _ x hx
    simp at hx
  · intro c cs _ ih h x hx
    rcases List.mem_cons.mp hx with h0 | h0
    · rw [h0]; exact h c (by simp)
    · exact ih (fun y hy => h y (by simp [hy])) x h0
  · intro d1 d2 d3 q _ _ p3 _ ih h x hx
    rcases List.mem_append.mp hx with h0 | h0
    · rw [indexChunk_eq] at h0
      rcases List.mem_cons.mp h0 with h1 | h1
      · rw [h1]; decide
      · exact (chunkTail_chars d1 d2 d3 p3.2 x h1).2
    · exact ih (fun y hy => h y (by simp [hy])) x h0

/-- A start of the rewritten line without the letter `I` is a start of the
line itself. -/
theorem rewriteLine_prefix_inv (s : List Char) :
    ∀ u v, (∀ x ∈ u, x ≠ 'I') → rewriteLine s = u ++ v → ∃ v1, s = u ++ v1 := by
  refine rewriteLine_cases
    (fun s r => ∀ u v, (∀ x ∈ u, x ≠ 'I') → r = u ++ v → ∃ v1, s = u ++ v1) ?_ ?_ ?_ s
  · intro u v _ h
    have : u = [] := (List.append_eq_nil.mp h.symm).1
    exact ⟨[], by simp [this]⟩
  · intro c cs _ ih u v hu h
    cases u with
    | nil => exact ⟨c :: cs, rfl⟩
    | cons x u =>
      simp only [List.cons_append, List.cons.injEq] at h
      obtain ⟨v1, hv⟩ := ih u v (fun y hy => hu y (by simp [hy])) h.2
      exact ⟨v1, by rw [h.1, hv]; rfl⟩
  · intro d1 d2 d3 q _ _ _ _ _ u v hu h
    cases u with
    | nil => exact ⟨_, rfl⟩
    | cons x u =>
      rw [indexChunk_eq] at h
      simp only [List.cons_append, List.cons.injEq] at h
      exact absurd h.1.symm (hu x (by simp))

/-! ## No match is left in a rewritten line -/

theorem matchHere_index_isSome (d1 d2 d3 t : List Char)
    (n1 : d1 ≠ []) (h1 : ∀ x ∈ d1, isDigit x = true)
    (n2 : d2 ≠ []) (h2 : ∀ x ∈ d2, isDigit x = true)
    (n3 : d3 ≠ []) (h3 : ∀ x ∈ d3, isDigit x = true) :
    matchHere indexRegex ("INDEX 01 ".toList ++ (d1 ++ ':' :: (d2 ++ ':' :: (d3 ++ t)))) =
      some ([d1, d2, d3 ++ t.takeWhile isDigit], t.dropWhile isDigit) := by
  have e : d3 ++ t = (d3 ++ t.takeWhile isDigit) ++ t.dropWhile isDigit := by
    rw [List.append_assoc, List.takeWhile_append_dropWhile]
  rw [e]
  apply matchHere_index _ _ _ _ n1 h1 n2 h2 (by simp [n3]) _ (startsWithDigit_dropWhile t)
  intro x hx
  rcases List.mem_append.mp hx with h | h
  · exact h3 x h
  · exact List.mem_takeWhile_imp h

theorem run_unique (cls : Char → Bool) (d e t u : List Char) (c b : Char)
    (hd : ∀ x ∈ d, cls x = true) (he : ∀ x ∈ e, cls x = true)
    (hc : cls c = false) (hb : cls b = false) (h : d ++ c :: t = e ++ b :: u) :
    d = e ∧ c = b ∧ t = u := by
  have h1 := congrArg (List.takeWhile cls) h
  rw [takeWhile_run cls d t c hd hc, takeWhile_run cls e u b he hb] at h1
  rw [h1] at h
  have h2 := List.append_cancel_left h
  simp only [List.cons.injEq] at h2
  exact ⟨h1, h2.1, h2.2⟩

theorem matchHere_indexChunk (d1 d2 d3 r : List Char)
    (h3 : ∀ x ∈ d3, isDigit x = true) :
    matchHere indexRegex (indexChunk d1 d2 d3 ++ r) = none := by
  cases hm : matchHere indexRegex (indexChunk d1 d2 d3 ++ r) with
  | none => rfl
  | some res =>
    exfalso
    obtain ⟨caps, rest⟩ := res
    obtain ⟨e1, e2, e3, p1, p2, _, hs, _, _⟩ := matchHere_index_inv _ _ _ hm
    unfold indexChunk at hs
    rw [List.append_assoc] at hs
    have hs1 := List.append_cancel_left hs
    rcases fmt02d_shape (wrapInt (wrapInt ((atoi d1).1 * 60) + (atoi d2).1)) with
      ⟨_, hT⟩ | ⟨ds, hT, _⟩
    · rw [List.append_assoc, List.cons_append] at hs1
      obtain ⟨_, _, ht⟩ := run_unique isDigit _ _ _ _ ':' ':' hT p1.2 (by decide) (by decide) hs1
      have ht1 : d3 ++ '.' :: ("000".toList ++ r) = e2 ++ ':' :: (e3 ++ rest) := by
        rw [← ht]; simp
      obtain ⟨_, hdot, _⟩ :=
        run_unique isDigit _ _ _ _ '.' ':' h3 p2.2 (by decide) (by decide) ht1
      exact absurd hdot (by decide)
    · rw [hT] at hs1
      cases e1 with
      | nil => exact p1.1 rfl
      | cons y e1 =>
        simp only [List.cons_append, List.cons.injEq] at hs1
        have := p1.2 y (by simp)
        rw [← hs1.1] at this
        exact absurd this (by decide)

theorem findStringSubmatch_skip (re : List Node) (p b : List Char)
    (h : ∀ i, i < p.length → matchHere re ((p ++ b).drop i) = none)
    (hb : findStringSubmatch re b = []) : findStringSubmatch re (p ++ b) = [] := by
  induction p with
  | nil => exact hb
  | cons c p ih =>
    rw [List.cons_append, findStringSubmatch_nil_iff]
    constructor
    · simpa using h 0 (by simp)
    · apply ih
      intro i hi
      simpa using h (i + 1) (by simpa using hi)

theorem findStringSubmatch_index_nil : findStringSubmatch indexRegex [] = [] := by
  simp [findStringSubmatch, matchHere_index_nil]

/-- The rewritten line holds no match of the pattern. -/
theorem rewriteLine_noMatch_left (s : List Char) :
    findStringSubmatch indexRegex (rewriteLine s) = [] := by
  refine rewriteLine_cases (fun _ r => findStringSubmatch indexRegex r = []) ?_ ?_ ?_ s
  · exact findStringSubmatch_index_nil
  · intro c cs hnone ih
    rw [findStringSubmatch_nil_iff]
    refine ⟨?_, ih⟩
    cases hm : matchHere indexRegex (c :: rewriteLine cs) with
    | none => rfl
    | some res =>
      exfalso
      obtain ⟨caps, rest⟩ := res
      obtain ⟨e1, e2, e3, p1, p2, p3, hs, _, _⟩ := matchHere_index_inv _ _ _ hm
      have hs1 : c :: rewriteLine cs =
          'I' :: (("NDEX 01 ".toList ++ (e1 ++ ':' :: (e2 ++ ':' :: e3))) ++ rest) := by
        rw [hs]; simp
      simp only [List.cons.injEq] at hs1
      have hu : ∀ x ∈ "NDEX 01 ".toList ++ (e1 ++ ':' :: (e2 ++ ':' :: e3)), x ≠ 'I' := by
        intro x hx
        have key : x ∈ "NDEX 01 :".toList ∨ isDigit x = true := by
          rcases List.mem_append.mp hx with h | h
          · left
            have hsub : ∀ y ∈ "NDEX 01 ".toList, y ∈ "NDEX 01 :".toList := by decide
            exact hsub x h
          · rcases List.mem_append.mp h with h | h
            · exact Or.inr (p1.2 x h)
            · rcases List.mem_cons.mp h with h | h
              · left; rw [h]; decide
              · rcases List.mem_append.mp h with h | h
                · exact Or.inr (p2.2 x h)
                · rcases List.mem_cons.mp h with h | h
                  · left; rw [h]; decide
                  · exact Or.inr (p3.2 x h)
        rcases key with h | h
        · have hall : ∀ y ∈ "NDEX 01 :".toList, y ≠ 'I' := by decide
          exact hall x h
        · intro hx; rw [hx] at h; exact absurd h (by decide)
      obtain ⟨v1, hv⟩ := rewriteLine_prefix_inv cs _ rest hu hs1.2
      have hsome := matchHere_index_isSome e1 e2 e3 v1 p1.1 p1.2 p2.1 p2.2 p3.1 p3.2
      have hcs : c :: cs = "INDEX 01 ".toList ++ (e1 ++ ':' :: (e2 ++ ':' :: (e3 ++ v1))) := by
        rw [hs1.1, hv]; simp
      rw [hcs, hsome] at hnone
      exact absurd hnone (by simp)
  · intro d1 d2 d3 q _ _ p3 _ ih
    rw [indexChunk_eq, List.cons_append, findStringSubmatch_nil_iff]
    constructor
    · rw [← List.cons_append, ← indexChunk_eq]
      exact matchHere_indexChunk d1 d2 d3 _ p3.2
    · apply findStringSubmatch_skip _ _ _ _ ih
      intro i hi
      rw [List.drop_append_of_le_length (by omega)]
      cases hd : (chunkTail d1 d2 d3).drop i with
      | nil => simp at hd; omega
      | cons x xs =>
        have hx : x ∈ chunkTail d1 d2 d3 := List.mem_of_mem_drop (by rw [hd]; simp)
        exact matchHere_index_head x _ (chunkTail_chars d1 d2 d3 p3.2 x hx).1

/-- Rewriting a rewritten line changes nothing. -/
theorem rewriteLine_rewriteLine (s : List Char) : rewriteLine (rewriteLine s) = rewriteLine s :=
  rewriteLine_noMatch _ (rewriteLine_noMatch_left s)

/-! ## fixCueSheet -/

theorem splitLines_noNewline (s : List Char) : ∀ l ∈ splitLines s, ∀ x ∈ l, x ≠ '\n' := by
  induction s with
  | nil => simp [splitLines]
  | cons c cs ih =>
    rw [splitLines]
    split
    · intro l hl
      rcases List.mem_cons.mp hl with h | h
      · rw [h]; simp
      · exact ih l h
    · next hc =>
      split
      · intro l hl
        simp only [List.mem_singleton] at hl
        rw [hl]
        intro x hx
        simp only [List.mem_singleton] at hx
        rw [hx]; exact hc
      · next l0 ls heq =>
        intro l hl
        rcases List.mem_cons.mp hl with h | h
        · rw [h]
          intro x hx
          rcases List.mem_cons.mp hx with h0 | h0
          · rw [h0]; exact hc
          · exact ih l0 (by rw [heq]; simp) x h0
        · exact ih l (by rw [heq]; simp [h])

theorem byteLen_replicate (n : Nat) (c : Char) (hc : c.utf8Size = 1) :
    byteLen (List.replicate n c) = n := by
  induction n with
  | zero => rfl
  | succ n ih =>
    unfold byteLen at ih ⊢
    rw [List.replicate_succ, List.map_cons, List.sum_cons, ih, hc]
    omega

theorem scan_progress (sc sc1 : Scanner) (h : sc.scan = (true, sc1)) :
    sc1.err = sc.err ∧ sc1.src.length < sc.src.length := by
  unfold Scanner.scan at h
  split at h
  · simp at h
  · next hne =>
    simp only at h
    split at h
    · simp at h
    · simp only [Prod.mk.injEq, true_and] at h
      rw [← h]
      refine ⟨rfl, ?_⟩
      simp only [List.length_drop]
      have : 0 < sc.src.length := List.length_pos.mpr hne
      omega

/-- The rounds given to the loop of `fixCueSheet` are enough: more rounds
change nothing. -/
theorem fixLoop_fuel (fuel k : Nat) (sc : Scanner) (out : List Char)
    (h : sc.src.length < fuel) : fixLoop (fuel + k) sc out = fixLoop fuel sc out := by
  induction fuel generalizing sc out with
  | zero => omega
  | succ fuel ih =>
    rw [show fuel + 1 + k = (fuel + k) + 1 by omega]
    simp only [fixLoop]
    rcases hs : sc.scan with ⟨ok, sc1⟩
    cases ok with
    | false => rfl
    | true =>
      simp only
      exact ih sc1 _ (by have := (scan_progress sc sc1 hs).2; omega)

theorem scanAll_fuel (fuel k : Nat) (sc : Scanner)
    (h : sc.src.length < fuel) : scanAll (fuel + k) sc = scanAll fuel sc := by
  induction fuel generalizing sc with
  | zero => omega
  | succ fuel ih =>
    rw [show fuel + 1 + k = (fuel + k) + 1 by omega]
    simp only [scanAll]
    rcases hs : sc.scan with ⟨ok, sc1⟩
    cases ok with
    | false => rfl
    | true =>
      simp only
      rw [ih sc1 (by have := (scan_progress sc sc1 hs).2; omega)]

theorem fixCueSheet_written (input : List Char) :
    (fixCueSheet input).written = unlines ((scannedLines input).map rewriteLine) := by
  have h := fixLoop_written (input.length + 1) (newScanner input) []
  unfold fixCueSheet scannedLines
  rcases hf : fixLoop (input.length + 1) (newScanner input) [] with ⟨sc, out⟩
  rw [hf] at h
  simpa using h

theorem fixCueSheet_short (input : List Char)
    (hshort : ∀ l ∈ splitLines input, byteLen l < maxScanTokenSize) :
    fixCueSheet input =
      { written := unlines ((splitLines input).map fun l => rewriteLine (dropCR l)),
        err := none } := by
  unfold fixCueSheet newScanner
  rw [fixLoop_short _ input [] [] (by omega) hshort]
  simp

theorem rewritten_noNewline (ls : List (List Char)) (h : ∀ l ∈ ls, ∀ x ∈ l, x ≠ '\n') :
    ∀ l ∈ ls.map (fun l => rewriteLine (dropCR l)), ∀ x ∈ l, x ≠ '\n' := by
  intro l hl
  obtain ⟨m, hm, rfl⟩ := List.mem_map.mp hl
  exact rewriteLine_noNewline _ (fun x hx => h m hm x (dropCR_subset m x hx))

/-- C2 (amended): for every input text in which every line is shorter than
65536 bytes, the output of the normalizer has exactly one line per input
line, in the same order (the i-th output line is the rewrite of the i-th
input line without its carriage return), and every output line is followed
by exactly one line feed, whether or not the last input line had one. -/
theorem fixCueSheet_lines (input : List Char)
    (hshort : ∀ l ∈ splitLines input, byteLen l < maxScanTokenSize) :
    splitLines (fixCueSheet input).written =
        (splitLines input).map (fun l => rewriteLine (dropCR l)) ∧
      (splitLines (fixCueSheet input).written).length = (splitLines input).length ∧
      (fixCueSheet input).written = unlines (splitLines (fixCueSheet input).written) := by
  have hw := fixCueSheet_short input hshort
  have hsp : splitLines (fixCueSheet input).written =
      (splitLines input).map (fun l => rewriteLine (dropCR l)) := by
    rw [hw]
    exact splitLines_unlines _ (rewritten_noNewline _ (splitLines_noNewline input))
  refine ⟨hsp, by rw [hsp, List.length_map], ?_⟩
  rw [hsp, hw]

set_option maxRecDepth 100000 in
/-- Witness of C2: three input lines, the last one without a line feed. -/
theorem fixCueSheet_lines_witness :
    (∀ l ∈ splitLines "FILE x\n\tINDEX 01 01:30:12\r\nabc".toList,
        byteLen l < maxScanTokenSize) ∧
      (fixCueSheet "FILE x\n\tINDEX 01 01:30:12\r\nabc".toList).written =
        "FILE x\n\tINDEX 01 90:12.000\nabc\n".toList ∧
      (splitLines (fixCueSheet "FILE x\n\tINDEX 01 01:30:12\r\nabc".toList).written).length =
        (splitLines "FILE x\n\tINDEX 01 01:30:12\r\nabc".toList).length :=
  ⟨by decide, by decide,
    (fixCueSheet_lines "FILE x\n\tINDEX 01 01:30:12\r\nabc".toList (by decide)).2.1⟩

theorem fixCueSheet_tooLong_first (l rest : List Char) (hl : ∀ x ∈ l, x ≠ '\n')
    (hlong : maxScanTokenSize ≤ byteLen l) :
    fixCueSheet (l ++ rest) = { written := [], err := some ScanError.tooLong } := by
  unfold fixCueSheet newScanner
  simp only [fixLoop, scan_tooLong l rest [] hl hlong]

/-- Counterexample to C2 as stated: the input made of one line of 65536
letters has one line, and the normalizer writes nothing. -/
theorem fixCueSheet_lines_tooLong :
    (splitLines (List.replicate 65536 'a')).length = 1 ∧
      (splitLines (fixCueSheet (List.replicate 65536 'a')).written).length = 0 := by
  have hl : ∀ x ∈ List.replicate 65536 'a', x ≠ '\n' := by
    intro x hx
    rw [(List.mem_replicate.mp hx).2]
    decide
  constructor
  · rw [splitLines_last _
      (List.ne_nil_of_length_pos (by rw [List.length_replicate]; decide)) hl]
    rfl
  · have h := fixCueSheet_tooLong_first (List.replicate 65536 'a') [] hl
      (by rw [byteLen_replicate 65536 'a' (by decide)]; decide)
    rw [List.append_nil] at h
    rw [h]
    rfl

theorem dropCR_of_last (l : List Char) (h : l.getLast? ≠ some '\r') : dropCR l = l := by
  unfold dropCR
  rw [if_neg h]

/-- C6 (amended): when no operating-system I/O error occurs and every line of
the input is shorter than 65536 bytes, `fixCueSheet` returns no error and
writes every input line, rewritten and without its carriage return, whatever
the lines contain. -/
theorem fixCueSheet_no_error (input : List Char)
    (hshort : ∀ l ∈ splitLines input, byteLen l < maxScanTokenSize) :
    (fixCueSheet input).err = none ∧
      (fixCueSheet input).written =
        unlines ((splitLines input).map fun l => rewriteLine (dropCR l)) := by
  rw [fixCueSheet_short input hshort]
  exact ⟨rfl, rfl⟩

set_option maxRecDepth 100000 in
/-- Witness of C6: a sheet of three lines. -/
theorem fixCueSheet_no_error_witness :
    (∀ l ∈ splitLines "REM \"q\n\tINDEX 01 00:61:07\nINDEX 01 x".toList,
        byteLen l < maxScanTokenSize) ∧
      (fixCueSheet "REM \"q\n\tINDEX 01 00:61:07\nINDEX 01 x".toList).err = none :=
  ⟨by decide, (fixCueSheet_no_error "REM \"q\n\tINDEX 01 00:61:07\nINDEX 01 x".toList
    (by decide)).1⟩

theorem fixCueSheet_tooLong_second (l1 l2 rest : List Char)
    (hl1 : ∀ x ∈ l1, x ≠ '\n') (hs1 : byteLen l1 < maxScanTokenSize)
    (hl2 : ∀ x ∈ l2, x ≠ '\n') (hlong : maxScanTokenSize ≤ byteLen l2) :
    fixCueSheet (l1 ++ '\n' :: (l2 ++ rest)) =
      { written := rewriteLine (dropCR l1) ++ ['\n'], err := some ScanError.tooLong } := by
  obtain ⟨f, hf⟩ : ∃ f, (l1 ++ '\n' :: (l2 ++ rest)).length = f + 1 :=
    ⟨l1.length + (l2 ++ rest).length, by simp; omega⟩
  unfold fixCueSheet newScanner
  rw [hf]
  simp only [fixLoop, scan_line l1 (l2 ++ rest) [] hl1 hs1,
    scan_tooLong l2 rest (dropCR l1) hl2 hlong, List.nil_append]

set_option maxRecDepth 100000 in
/-- Counterexample to C6 as stated: with a second line of 65536 letters and
no I/O error `fixCueSheet` returns the scanner's error `ErrTooLong`; the long
line and the line after it are not written. -/
theorem fixCueSheet_tooLong :
    fixCueSheet ("ok".toList ++ '\n' :: (List.replicate 65536 'b' ++ "\nend\n".toList)) =
      { written := "ok\n".toList, err := some ScanError.tooLong } := by
  have hl : ∀ x ∈ List.replicate 65536 'b', x ≠ '\n' := by
    intro x hx
    rw [(List.mem_replicate.mp hx).2]
    decide
  have hb : maxScanTokenSize ≤ byteLen (List.replicate 65536 'b') := by
    rw [byteLen_replicate 65536 'b' (by decide)]; decide
  rw [fixCueSheet_tooLong_second "ok".toList (List.replicate 65536 'b') "\nend\n".toList
    (by decide) (by decide) hl hb]
  have e : rewriteLine (dropCR "ok".toList) ++ ['\n'] = "ok\n".toList := by decide
  rw [e]

/-! ## The loop of parseCueSheet -/

/-- One call of `Scan` on an input whose lines all fit the buffer. -/
theorem scan_short (input tok : List Char)
    (hshort : ∀ l ∈ splitLines input, byteLen l < maxScanTokenSize) :
    (input = [] ∧ Scanner.scan { src := input, token := tok, err := none } =
        (false, { src := [], token := [], err := none })) ∨
      ∃ l src1, Scanner.scan { src := input, token := tok, err := none } =
          (true, { src := src1, token := dropCR l, err := none }) ∧
        splitLines input = l :: splitLines src1 ∧ src1.length < input.length := by
  cases hin : input with
  | nil => left; exact ⟨rfl, scan_nil tok none⟩
  | cons c cs =>
    right
    rw [← hin]
    have hne : input ≠ [] := by rw [hin]; simp
    rcases line_cases input with hl | ⟨l, rest, he, hl⟩
    · have hsp := splitLines_last input hne hl
      have hb : byteLen input < maxScanTokenSize := hshort input (by rw [hsp]; simp)
      refine ⟨input, [], scan_last input tok hne hl hb, by rw [hsp]; rfl, ?_⟩
      rw [hin]; simp
    · have hsp := splitLines_line_cons l rest hl
      rw [he] at hshort ⊢
      have hb : byteLen l < maxScanTokenSize := hshort l (by rw [hsp]; simp)
      exact ⟨l, rest, scan_line l rest tok hl hb, hsp, by simp; omega⟩

theorem parseLoop_short (fuel : Nat) (input tok : List Char) (tracks : List TrackInfo)
    (hfuel : input.length < fuel)
    (hshort : ∀ l ∈ splitLines input, byteLen l < maxScanTokenSize) :
    parseLoop fuel { src := input, token := tok, err := none } tracks =
      parseLines (splitLines input) tracks := by
  induction fuel generalizing input tok tracks with
  | zero => omega
  | succ fuel ih =>
    rw [parseLoop]
    rcases scan_short input tok hshort with ⟨h0, hs⟩ | ⟨l, src1, hs, hsp, hlt⟩
    · rw [hs, h0]; rfl
    · have hshort1 : ∀ m ∈ splitLines src1, byteLen m < maxScanTokenSize :=
        fun m hm => hshort m (by rw [hsp]; simp [hm])
      rw [hs, hsp, parseLines]
      simp only
      split
      · cases hf : (fields (dropCR l))[1]? with
        | none => rfl
        | some n =>
          simp only
          rcases scan_short src1 (dropCR l) hshort1 with ⟨h1, hs1⟩ | ⟨t, src2, hs1, hsp1, hlt1⟩
          · rw [hs1, h1]
            simp only [scan_nil, splitLines]
            cases fuel with
            | zero => omega
            | succ fuel => simp [parseLoop, scan_nil]
          · have hshort2 : ∀ m ∈ splitLines src2, byteLen m < maxScanTokenSize :=
              fun m hm => hshort1 m (by rw [hsp1]; simp [hm])
            rw [hs1, hsp1]
            simp only
            rcases scan_short src2 (dropCR t) hshort2 with
              ⟨h2, hs2⟩ | ⟨p, src3, hs2, hsp2, hlt2⟩
            · rw [hs2, h2]
              simp only [splitLines]
              cases fuel with
              | zero => omega
              | succ fuel => simp [parseLoop, scan_nil]
            · rw [hs2, hsp2]
              simp only
              exact ih src3 (dropCR p) _ (by omega)
                (fun m hm => hshort2 m (by rw [hsp2]; simp [hm]))
      · exact ih src1 (dropCR l) tracks (by omega) hshort1

theorem parseCueSheet_short (input : List Char)
    (hshort : ∀ l ∈ splitLines input, byteLen l < maxScanTokenSize) :
    parseCueSheet input = parseLines (splitLines input) [] :=
  parseLoop_short _ input [] [] (by omega) hshort

/-! ## Track header lines -/

theorem dropCR_cases (l : List Char) :
    (dropCR l = l ∧ l.getLast? ≠ some '\r') ∨ ∃ a, l = a ++ ['\r'] ∧ dropCR l = a := by
  by_cases h : l.getLast? = some '\r'
  · right
    obtain ⟨a, ha⟩ := List.getLast?_eq_some_iff.mp h
    exact ⟨a, ha, by rw [dropCR, if_pos h, ha, List.dropLast_concat]⟩
  · left
    exact ⟨by rw [dropCR, if_neg h], h⟩

/-- Dropping the carriage return does not change whether a line starts with
a tab and `TRACK`. -/
theorem hasPrefix_dropCR (l : List Char) :
    hasPrefix (dropCR l) "\tTRACK".toList = hasPrefix l "\tTRACK".toList := by
  rcases dropCR_cases l with ⟨h, _⟩ | ⟨a, ha, hd⟩
  · rw [h]
  · rw [hd, ha]
    unfold hasPrefix
    rw [Bool.eq_iff_iff, List.isPrefixOf_iff_prefix, List.isPrefixOf_iff_prefix,
      List.prefix_concat_iff]
    constructor
    · exact Or.inr
    · rintro (h | h)
      · exfalso
        have := congrArg List.getLast? h
        rw [List.getLast?_concat] at this
        exact absurd this (by decide)
      · exact h

theorem takeWhile_notSpace (n r : List Char) (hn : ∀ x ∈ n, isSpace x = false)
    (hr : spaceAhead r = true) :
    (n ++ r).takeWhile (fun x => !isSpace x) = n ∧
      (n ++ r).dropWhile (fun x => !isSpace x) = r := by
  have htw0 : r.takeWhile (fun x => !isSpace x) = [] := by
    cases r with
    | nil => rfl
    | cons c r => exact List.takeWhile_cons_of_neg (by simpa [spaceAhead] using hr)
  have htw : (n ++ r).takeWhile (fun x => !isSpace x) = n := by
    rw [List.takeWhile_append_of_pos (fun x hx => by simp [hn x hx]), htw0, List.append_nil]
  refine ⟨htw, ?_⟩
  have h := List.takeWhile_append_dropWhile (fun x => !isSpace x) (n ++ r)
  rw [htw] at h
  exact List.append_cancel_left h

/-- The second field of a line `<tab>TRACK n ...` is `n`. -/
theorem fields_header (n r : List Char) (hne : n ≠ [])
    (hn : ∀ x ∈ n, isSpace x = false) (hr : spaceAhead r = true) :
    (fields ("\tTRACK ".toList ++ (n ++ r)))[1]? = some n := by
  obtain ⟨c, n1, rfl⟩ : ∃ c n1, n = c :: n1 := by
    cases n with
    | nil => exact absurd rfl hne
    | cons c n1 => exact ⟨c, n1, rfl⟩
  have hc : isSpace c = false := hn c (by simp)
  obtain ⟨h1, h2⟩ := takeWhile_notSpace (c :: n1) r hn hr
  obtain ⟨f, hf⟩ : ∃ f, ("\tTRACK ".toList ++ (c :: n1 ++ r)).length = f + 2 :=
    ⟨5 + (c :: n1 ++ r).length, by simp [List.length_append]; omega⟩
  have e0 : ("\tTRACK ".toList ++ (c :: n1 ++ r)).dropWhile isSpace =
      'T' :: ("RACK ".toList ++ (c :: n1 ++ r)) := by
    simp [List.dropWhile_cons, isSpace]
  have e1 : ('T' :: ("RACK ".toList ++ (c :: n1 ++ r))).dropWhile (fun x => !isSpace x) =
      ' ' :: (c :: n1 ++ r) := by
    simp [List.dropWhile_cons, isSpace]
  have e2 : (' ' :: (c :: n1 ++ r)).dropWhile isSpace = c :: (n1 ++ r) := by
    rw [List.dropWhile_cons_of_pos (by decide)]
    exact List.dropWhile_cons_of_neg (by simp [hc])
  unfold fields
  rw [hf, fieldsAux, e0]
  simp only
  rw [e1, fieldsAux, e2]
  simp only
  rw [List.getElem?_cons_succ, List.getElem?_cons_zero]
  exact congrArg some h1

/-- A header line `<tab>TRACK n ...` as the scanner delivers it still has
that form. -/
theorem dropCR_header (n r : List Char) (hne : n ≠ [])
    (hn : ∀ x ∈ n, isSpace x = false) (hr : spaceAhead r = true) :
    ∃ r1, dropCR ("\tTRACK ".toList ++ (n ++ r)) = "\tTRACK ".toList ++ (n ++ r1) ∧
      spaceAhead r1 = true := by
  rcases dropCR_cases ("\tTRACK ".toList ++ (n ++ r)) with ⟨h, _⟩ | ⟨a, ha, hd⟩
  · exact ⟨r, h, hr⟩
  · rcases List.eq_nil_or_concat r with h0 | ⟨r0, b, h0⟩
    · exfalso
      rw [h0, List.append_nil] at ha
      obtain ⟨n0, d, hnd⟩ : ∃ n0 d, n = n0 ++ [d] := by
        rcases List.eq_nil_or_concat n with h1 | ⟨n0, d, h1⟩
        · exact absurd h1 hne
        · exact ⟨n0, d, by rw [h1, List.concat_eq_append]⟩
      rw [hnd, ← List.append_assoc] at ha
      have hlast := congrArg List.getLast? ha
      rw [List.getLast?_concat, List.getLast?_concat] at hlast
      have hd1 := hn d (by rw [hnd]; simp)
      simp only [Option.some.injEq] at hlast
      rw [hlast] at hd1
      exact absurd hd1 (by decide)
    · rw [List.concat_eq_append] at h0
      have e : "\tTRACK ".toList ++ (n ++ r) = ("\tTRACK ".toList ++ (n ++ r0)) ++ [b] := by
        rw [h0]; simp
      rw [e] at ha
      have ha1 := List.append_inj_left' ha rfl
      refine ⟨r0, by rw [hd, ← ha1], ?_⟩
      cases r0 with
      | nil => rfl
      | cons x r0 =>
        rw [h0] at hr
        exact hr

theorem header_recognised (n r : List Char) (hne : n ≠ [])
    (hn : ∀ x ∈ n, isSpace x = false) (hr : spaceAhead r = true) :
    hasPrefix (dropCR ("\tTRACK ".toList ++ (n ++ r))) "\tTRACK".toList = true ∧
      (fields (dropCR ("\tTRACK ".toList ++ (n ++ r))))[1]? = some n := by
  obtain ⟨r1, h1, h2⟩ := dropCR_header n r hne hn hr
  rw [h1]
  refine ⟨?_, fields_header n r1 hne hn h2⟩
  unfold hasPrefix
  rw [List.isPrefixOf_iff_prefix]
  exact ⟨' ' :: (n ++ r1), rfl⟩

/-! ## The loop on blocks -/

theorem parseLines_skip (ls rest : List (List Char)) (tracks : List TrackInfo)
    (h : ∀ l ∈ ls, hasPrefix l "\tTRACK".toList = false) :
    parseLines (ls ++ rest) tracks = parseLines rest tracks := by
  induction ls with
  | nil => rfl
  | cons l ls ih =>
    have hl : hasPrefix (dropCR l) "\tTRACK".toList = false := by
      rw [hasPrefix_dropCR]; exact h l (by simp)
    rw [List.cons_append, parseLines, hl]
    simp only [Bool.false_eq_true, if_false]
    exact ih (fun m hm => h m (by simp [hm]))

theorem Block.wellFormed_iff (b : Block) :
    b.wellFormed = true ↔ b.number ≠ [] ∧ (∀ x ∈ b.number, isSpace x = false) ∧
      spaceAhead b.headerRest = true ∧
      ∀ l ∈ b.trailing, hasPrefix l "\tTRACK".toList = false := by
  simp [Block.wellFormed, List.all_eq_true, and_assoc]

theorem parseLines_block (b : Block) (rest : List (List Char)) (tracks : List TrackInfo)
    (h : b.wellFormed = true) :
    parseLines (b.lines ++ rest) tracks = parseLines rest (tracks ++ [b.record]) := by
  obtain ⟨h1, h2, h3, h4⟩ := (Block.wellFormed_iff b).mp h
  obtain ⟨hp, hf⟩ := header_recognised b.number b.headerRest h1 h2 h3
  simp only [Block.lines, List.cons_append, Block.header]
  rw [parseLines, hp]
  simp only [if_true, hf]
  exact parseLines_skip b.trailing rest _ h4

theorem parseLines_blocks (blocks : List Block) (rest : List (List Char))
    (tracks : List TrackInfo) (h : ∀ b ∈ blocks, b.wellFormed = true) :
    parseLines (blocks.flatMap Block.lines ++ rest) tracks =
      parseLines rest (tracks ++ blocks.map Block.record) := by
  induction blocks generalizing tracks with
  | nil => simp
  | cons b blocks ih =>
    rw [List.flatMap_cons, List.append_assoc, parseLines_block b _ _ (h b (by simp)),
      ih _ (fun c hc => h c (by simp [hc]))]
    simp

/-- The loop on a preamble without header lines followed by well-formed
blocks and then `rest`. -/
theorem parseLines_sheet (pre : List (List Char)) (blocks : List Block)
    (rest : List (List Char))
    (hpre : ∀ l ∈ pre, hasPrefix l "\tTRACK".toList = false)
    (h : ∀ b ∈ blocks, b.wellFormed = true) :
    parseLines (pre ++ (blocks.flatMap Block.lines ++ rest)) [] =
      parseLines rest (blocks.map Block.record) := by
  rw [parseLines_skip pre _ _ hpre, parseLines_blocks blocks rest [] h]
  simp

/-- C8 (amended): for every sheet in which every line is shorter than 65536
bytes and which is made of lines that do not start with tab+`TRACK` followed
by k track blocks in file order (each block a header line `<tab>TRACK n_i ...`,
a title line, a performer line, then any number of lines that do not start
with tab+`TRACK`), `parseCueSheet` returns without error exactly k records,
the i-th one carrying the number `n_i` of the i-th header; the records are
not sorted and equal numbers are all kept. -/
theorem parseCueSheet_blocks (input : List Char) (pre : List (List Char))
    (blocks : List Block)
    (hpre : ∀ l ∈ pre, hasPrefix l "\tTRACK".toList = false)
    (hwf : ∀ b ∈ blocks, b.wellFormed = true)
    (hin : splitLines input = pre ++ blocks.flatMap Block.lines)
    (hshort : ∀ l ∈ splitLines input, byteLen l < maxScanTokenSize) :
    parseCueSheet input = ParseResult.ret (blocks.map Block.record) none ∧
      (blocks.map Block.record).length = blocks.length ∧
      (blocks.map Block.record).map (fun t => t.TrackNumber) =
        blocks.map (fun b => b.number) := by
  refine ⟨?_, by simp, by simp [Block.record]⟩
  rw [parseCueSheet_short input hshort, hin]
  have h := parseLines_sheet pre blocks [] hpre hwf
  rw [List.append_nil] at h
  rw [h]
  rfl

set_option maxRecDepth 100000 in
/-- Witness of C8: blocks numbered 02, 01, 02 come back in that order. -/
theorem parseCueSheet_blocks_witness :
    (splitLines
        "FILE \"a.flac\" WAVE\n\tTRACK 02 AUDIO\n\t\tTITLE \"B\"\n\t\tPERFORMER \"Q\"\n\t\tINDEX 01 00:00:00\n\tTRACK 01 AUDIO\n\t\tTITLE \"A\"\n\tTRACK 09 AUDIO\n\tTRACK 02\r\n\r\n\r\n".toList =
      ["FILE \"a.flac\" WAVE".toList] ++
        [Block.mk "02".toList " AUDIO".toList "\t\tTITLE \"B\"".toList
            "\t\tPERFORMER \"Q\"".toList ["\t\tINDEX 01 00:00:00".toList],
          Block.mk "01".toList " AUDIO".toList "\t\tTITLE \"A\"".toList
            "\tTRACK 09 AUDIO".toList [],
          Block.mk "02".toList "\r".toList "\r".toList "\r".toList []].flatMap Block.lines) ∧
      parseCueSheet
        "FILE \"a.flac\" WAVE\n\tTRACK 02 AUDIO\n\t\tTITLE \"B\"\n\t\tPERFORMER \"Q\"\n\t\tINDEX 01 00:00:00\n\tTRACK 01 AUDIO\n\t\tTITLE \"A\"\n\tTRACK 09 AUDIO\n\tTRACK 02\r\n\r\n\r\n".toList =
      ParseResult.ret [⟨"02".toList, "B".toList, "Q".toList, []⟩,
        ⟨"01".toList, "A".toList, [], []⟩, ⟨"02".toList, [], [], []⟩] none :=
  ⟨by decide,
    (parseCueSheet_blocks _ ["FILE \"a.flac\" WAVE".toList]
      [Block.mk "02".toList " AUDIO".toList "\t\tTITLE \"B\"".toList
          "\t\tPERFORMER \"Q\"".toList ["\t\tINDEX 01 00:00:00".toList],
        Block.mk "01".toList " AUDIO".toList "\t\tTITLE \"A\"".toList
          "\tTRACK 09 AUDIO".toList [],
        Block.mk "02".toList "\r".toList "\r".toList "\r".toList []]
      (by decide) (by decide) (by decide) (by decide)).1⟩

/-! ## extractMetadata -/

theorem backtrack_skip (cont : List Char → Option (List (List Char) × List Char))
    (s : List Char) (m k : Nat) (hmk : m ≤ k)
    (h : ∀ j, m < j → j ≤ k → cont (s.drop j) = none) :
    backtrack cont s k = backtrack cont s m := by
  induction k with
  | zero =>
    have : m = 0 := by omega
    rw [this]
  | succ k ih =>
    by_cases hm : m = k + 1
    · rw [hm]
    · rw [backtrack, h (k + 1) (by omega) (le_refl _)]
      exact ih (by omega) (fun j h1 h2 => h j h1 (by omega))

/-- The group `(.+)` before a closing quote takes everything up to the last
quote of the line. -/
theorem matchHere_dot_quote (v rest : List Char) (hv : v ≠ [])
    (hvn : ∀ x ∈ v, x ≠ '\n') (hrest : ∀ x ∈ rest, x ≠ '\n' ∧ x ≠ '"') :
    matchHere [Node.plus isDot, Node.lit '"'] (v ++ '"' :: rest) = some ([v], rest) := by
  have hall : ∀ x ∈ v ++ '"' :: rest, isDot x = true := by
    intro x hx
    rcases List.mem_append.mp hx with h | h
    · simpa [isDot] using hvn x h
    · rcases List.mem_cons.mp h with h | h
      · rw [h]; decide
      · simpa [isDot] using (hrest x h).1
  have htw : (v ++ '"' :: rest).takeWhile isDot = v ++ '"' :: rest :=
    List.takeWhile_eq_self_iff.mpr hall
  obtain ⟨m, hm⟩ : ∃ m, v.length = m + 1 := by
    cases v with
    | nil => exact absurd rfl hv
    | cons c v => exact ⟨v.length, rfl⟩
  rw [matchHere, htw, backtrack_skip _ _ v.length _ (by simp)]
  · rw [hm, backtrack, ← hm]
    simp [matchHere]
  · intro j h1 h2
    have hd : (v ++ '"' :: rest).drop j = rest.drop (j - v.length - 1) := by
      rw [List.drop_append_eq_append_drop]
      have : v.drop j = [] := List.drop_eq_nil_of_le (by omega)
      rw [this, List.nil_append]
      obtain ⟨i, hi⟩ : ∃ i, j - v.length = i + 1 := ⟨j - v.length - 1, by omega⟩
      rw [hi, List.drop_succ_cons]
      simp
    rw [hd]
    cases hr : rest.drop (j - v.length - 1) with
    | nil => simp [matchHere]
    | cons x xs =>
      have hx : x ∈ rest := List.mem_of_mem_drop (by rw [hr]; simp)
      simp [matchHere, (hrest x hx).2]

theorem findStringSubmatch_skip_eq (re : List Node) (p b : List Char)
    (h : ∀ i, i < p.length → matchHere re ((p ++ b).drop i) = none) :
    findStringSubmatch re (p ++ b) = findStringSubmatch re b := by
  induction p with
  | nil => rfl
  | cons c p ih =>
    have h0 : matchHere re (c :: (p ++ b)) = none := by simpa using h 0 (by simp)
    rw [List.cons_append, findStringSubmatch, h0]
    apply ih
    intro i hi
    simpa using h (i + 1) (by simpa using hi)

/-- A line `<indent>FIELD "t"<rest>` gives the field value `t`, when `t` is
not empty and holds no quote, `rest` holds no quote, and no character of the
indentation is the first letter of the field name. -/
theorem extractMetadata_quoted (c : Char) (f pre t rest : List Char) (ht : t ≠ [])
    (htq : ∀ x ∈ t, x ≠ '"' ∧ x ≠ '\n') (hrest : ∀ x ∈ rest, x ≠ '\n' ∧ x ≠ '"')
    (hpre : ∀ x ∈ pre, x ≠ c) :
    extractMetadata (c :: f) (pre ++ ((c :: f) ++ ' ' :: '"' :: (t ++ '"' :: rest))) = t := by
  have hm : matchHere (metadataRegex (c :: f)) ((c :: f) ++ ' ' :: '"' :: (t ++ '"' :: rest)) =
      some ([t], rest) := by
    unfold metadataRegex
    rw [matchHere_lits_append]
    simp only [matchHere, if_true]
    have := matchHere_dot_quote t rest ht (fun x hx => (htq x hx).2) hrest
    simpa [matchHere] using this
  unfold extractMetadata
  rw [findStringSubmatch_skip_eq, findStringSubmatch_of_match _ _ _ _ (by simp) hm]
  intro i hi
  rw [List.drop_append_of_le_length (by omega)]
  cases hd : pre.drop i with
  | nil => simp at hd; omega
  | cons x xs =>
    have hx : x ∈ pre := List.mem_of_mem_drop (by rw [hd]; simp)
    simp [metadataRegex, lits, matchHere, hpre x hx]

theorem matchHere_lit_inv (c : Char) (re : List Node) (s : List Char)
    (r : List (List Char) × List Char) (h : matchHere (Node.lit c :: re) s = some r) :
    ∃ t, s = c :: t ∧ matchHere re t = some r := by
  cases s with
  | nil => simp [matchHere] at h
  | cons x xs =>
    simp only [matchHere] at h
    split at h
    · next hx => exact ⟨xs, by rw [hx], h⟩
    · exact absurd h (by simp)

/-- A match of the field pattern needs two quotes. -/
theorem matchHere_metadata_count (f s : List Char) (r : List (List Char) × List Char)
    (h : matchHere (metadataRegex f) s = some r) : 2 ≤ s.count '"' := by
  unfold metadataRegex at h
  obtain ⟨t0, e0, h⟩ := matchHere_lits_inv _ _ _ _ h
  obtain ⟨t1, e1, h⟩ := matchHere_lit_inv _ _ _ _ h
  obtain ⟨t2, e2, h⟩ := matchHere_lit_inv _ _ _ _ h
  obtain ⟨caps, rest⟩ := r
  obtain ⟨d, t3, _, _, _, e3, _, _⟩ := matchHere_plus_lit_inv _ _ _ _ _ _ h
  rw [e0, e1, e2, e3]
  simp only [List.count_append, List.count_cons_self, List.count_cons]
  omega

/-- A line with fewer than two quotes gives the empty field value. -/
theorem extractMetadata_unquoted (f line : List Char) (h : line.count '"' < 2) :
    extractMetadata f line = [] := by
  have key : findStringSubmatch (metadataRegex f) line = [] := by
    induction line with
    | nil =>
      cases hm : matchHere (metadataRegex f) [] with
      | none => simp [findStringSubmatch, hm]
      | some r =>
        have := matchHere_metadata_count f [] r hm
        simp at this
    | cons c cs ih =>
      rw [findStringSubmatch_nil_iff]
      constructor
      · cases hm : matchHere (metadataRegex f) (c :: cs) with
        | none => rfl
        | some r =>
          have := matchHere_metadata_count f (c :: cs) r hm
          omega
      · apply ih
        have := List.count_le_count_cons '"' c cs
        omega
  unfold extractMetadata
  rw [key]

theorem count_dropCR (l : List Char) : (dropCR l).count '"' ≤ l.count '"' := by
  rcases dropCR_cases l with ⟨h, _⟩ | ⟨a, ha, hd⟩
  · rw [h]
  · rw [hd, ha, List.count_append]
    omega

theorem extractMetadata_nil (f : List Char) : extractMetadata f [] = [] :=
  extractMetadata_unquoted f [] (by simp)

/-! ## parseCueSheet -/

set_option maxRecDepth 100000 in
/-- On a file whose only line is a tab followed by `TRACK`, `parseCueSheet`
indexes the one-element result of `strings.Fields` at 1 and panics. -/
theorem parseCueSheet_panics : parseCueSheet "\tTRACK\n".toList = ParseResult.panic := by
  decide

/-- C7 (amended): for every track-number token `n` without white space and
all non-empty strings `t` and `p` without double quote or line break, such
that each of the three lines is shorter than 65536 bytes, extracting a sheet
made of the lines `<tab>TRACK n AUDIO`, `<tab><tab>TITLE "t"`,
`<tab><tab>PERFORMER "p"` yields without error exactly one record, with
number `n` taken as text, title `t` and performer `p`. -/
theorem parseCueSheet_track (input n t p : List Char)
    (hn : n ≠ []) (hns : ∀ x ∈ n, isSpace x = false)
    (ht : t ≠ []) (htq : ∀ x ∈ t, x ≠ '"' ∧ x ≠ '\n')
    (hp : p ≠ []) (hpq : ∀ x ∈ p, x ≠ '"' ∧ x ≠ '\n')
    (hin : splitLines input =
      ["\tTRACK ".toList ++ (n ++ " AUDIO".toList),
       "\t\t".toList ++ ("TITLE".toList ++ ' ' :: '"' :: (t ++ ['"'])),
       "\t\t".toList ++ ("PERFORMER".toList ++ ' ' :: '"' :: (p ++ ['"']))])
    (hshort : ∀ l ∈ splitLines input, byteLen l < maxScanTokenSize) :
    parseCueSheet input = ParseResult.ret [⟨n, t, p, []⟩] none := by
  have hb : (Block.mk n " AUDIO".toList
      ("\t\t".toList ++ ("TITLE".toList ++ ' ' :: '"' :: (t ++ ['"'])))
      ("\t\t".toList ++ ("PERFORMER".toList ++ ' ' :: '"' :: (p ++ ['"']))) []).wellFormed
      = true := by
    rw [Block.wellFormed_iff]
    exact ⟨hn, hns, rfl, by simp⟩
  have hlines := parseLines_block _ [] [] hb
  have hnoCR : ∀ (f v : List Char),
      dropCR ("\t\t".toList ++ (f ++ ' ' :: '"' :: (v ++ ['"']))) =
        "\t\t".toList ++ (f ++ ' ' :: '"' :: (v ++ ['"'])) := by
    intro f v
    apply dropCR_of_last
    have e : "\t\t".toList ++ (f ++ ' ' :: '"' :: (v ++ ['"'])) =
        ("\t\t".toList ++ (f ++ ' ' :: '"' :: v)) ++ ['"'] := by simp
    rw [e, List.getLast?_concat]
    decide
  have ht1 := extractMetadata_quoted 'T' "ITLE".toList "\t\t".toList t [] ht htq (by simp)
    (by decide)
  have hp1 := extractMetadata_quoted 'P' "ERFORMER".toList "\t\t".toList p [] hp hpq (by simp)
    (by decide)
  rw [parseCueSheet_short input hshort, hin]
  simp only [Block.lines, Block.header, List.append_nil, List.nil_append, Block.record,
    hnoCR] at hlines
  rw [hlines]
  have e1 : extractMetadata "TITLE".toList
      ("\t\t".toList ++ ("TITLE".toList ++ ' ' :: '"' :: (t ++ ['"']))) = t := ht1
  have e2 : extractMetadata "PERFORMER".toList
      ("\t\t".toList ++ ("PERFORMER".toList ++ ' ' :: '"' :: (p ++ ['"']))) = p := hp1
  rw [e1, e2]
  rfl

set_option maxRecDepth 100000 in
/-- Witness of C7: the block of track 03, `Song Name`, `Artist X`. -/
theorem parseCueSheet_track_witness :
    splitLines "\tTRACK 03 AUDIO\n\t\tTITLE \"Song Name\"\n\t\tPERFORMER \"Artist X\"\n".toList =
        ["\tTRACK ".toList ++ ("03".toList ++ " AUDIO".toList),
         "\t\t".toList ++ ("TITLE".toList ++ ' ' :: '"' :: ("Song Name".toList ++ ['"'])),
         "\t\t".toList ++ ("PERFORMER".toList ++ ' ' :: '"' :: ("Artist X".toList ++ ['"']))] ∧
      parseCueSheet
          "\tTRACK 03 AUDIO\n\t\tTITLE \"Song Name\"\n\t\tPERFORMER \"Artist X\"\n".toList =
        ParseResult.ret [⟨"03".toList, "Song Name".toList, "Artist X".toList, []⟩] none :=
  ⟨by decide,
    parseCueSheet_track _ "03".toList "Song Name".toList "Artist X".toList
      (by decide) (by decide) (by decide) (by decide) (by decide) (by decide)
      (by decide) (by decide)⟩

/-- C9 (amended): in a sheet in which every line is shorter than 65536 bytes,
a track header `<tab>TRACK n ...` found after whole track blocks and within
two lines of the end of the input still yields a record, after the records of
all earlier blocks and with no error: when the header is the last line the
record has empty title and performer; when exactly one line follows, the
title is extracted from that line and the performer is empty. -/
theorem parseCueSheet_header_at_end (input : List Char) (pre : List (List Char))
    (blocks : List Block) (n r : List Char) (tail : List (List Char))
    (hpre : ∀ l ∈ pre, hasPrefix l "\tTRACK".toList = false)
    (hwf : ∀ b ∈ blocks, b.wellFormed = true)
    (hn : n ≠ []) (hns : ∀ x ∈ n, isSpace x = false) (hr : spaceAhead r = true)
    (htail : tail.length ≤ 1)
    (hin : splitLines input =
      pre ++ (blocks.flatMap Block.lines ++ ("\tTRACK ".toList ++ (n ++ r)) :: tail))
    (hshort : ∀ l ∈ splitLines input, byteLen l < maxScanTokenSize) :
    parseCueSheet input =
      ParseResult.ret (blocks.map Block.record ++
        [⟨n, (tail.head?.map fun t => extractMetadata "TITLE".toList (dropCR t)).getD [],
          [], []⟩]) none := by
  obtain ⟨h1, h2⟩ := header_recognised n r hn hns hr
  rw [parseCueSheet_short input hshort, hin, parseLines_sheet pre blocks _ hpre hwf,
    parseLines, h1]
  simp only [if_true, h2]
  match tail, htail with
  | [], _ => simp [extractMetadata_nil]
  | [t], _ => simp [extractMetadata_nil]
  | _ :: _ :: _, h => simp at h

set_option maxRecDepth 100000 in
/-- Witness of C9: one whole block, then a header and a single title line
without a line feed at the end. -/
theorem parseCueSheet_header_at_end_witness :
    splitLines
        "REM x\n\tTRACK 01 AUDIO\n\t\tTITLE \"A\"\n\t\tPERFORMER \"P\"\n\tTRACK 02 AUDIO\n\t\tTITLE \"B\"".toList =
      ["REM x".toList] ++
        ([Block.mk "01".toList " AUDIO".toList "\t\tTITLE \"A\"".toList
            "\t\tPERFORMER \"P\"".toList []].flatMap Block.lines ++
          ("\tTRACK ".toList ++ ("02".toList ++ " AUDIO".toList)) ::
            ["\t\tTITLE \"B\"".toList]) ∧
      parseCueSheet
        "REM x\n\tTRACK 01 AUDIO\n\t\tTITLE \"A\"\n\t\tPERFORMER \"P\"\n\tTRACK 02 AUDIO\n\t\tTITLE \"B\"".toList =
      ParseResult.ret [⟨"01".toList, "A".toList, "P".toList, []⟩,
        ⟨"02".toList, "B".toList, [], []⟩] none :=
  ⟨by decide,
    parseCueSheet_header_at_end _ ["REM x".toList]
      [Block.mk "01".toList " AUDIO".toList "\t\tTITLE \"A\"".toList
        "\t\tPERFORMER \"P\"".toList []]
      "02".toList " AUDIO".toList ["\t\tTITLE \"B\"".toList]
      (by decide) (by decide) (by decide) (by decide) (by decide) (by decide)
      (by decide) (by decide)⟩

/-- C10 (amended): in a sheet in which every line is shorter than 65536 bytes,
a track block `b` whose title line holds fewer than two double quotes yields a
record with empty title, and the blocks after it are extracted exactly as
they are when the title line of `b` is replaced by any other line `t1`:
the records before and after are the same in both sheets. -/
theorem parseCueSheet_untitled (input input1 : List Char) (pre : List (List Char))
    (before after : List Block) (b : Block) (t1 : List Char)
    (hpre : ∀ l ∈ pre, hasPrefix l "\tTRACK".toList = false)
    (hbefore : ∀ c ∈ before, c.wellFormed = true)
    (hafter : ∀ c ∈ after, c.wellFormed = true)
    (hb : b.wellFormed = true) (hq : b.title.count '"' < 2)
    (hin : splitLines input = pre ++ (before ++ b :: after).flatMap Block.lines)
    (hshort : ∀ l ∈ splitLines input, byteLen l < maxScanTokenSize)
    (hin1 : splitLines input1 =
      pre ++ (before ++ { b with title := t1 } :: after).flatMap Block.lines)
    (hshort1 : ∀ l ∈ splitLines input1, byteLen l < maxScanTokenSize) :
    parseCueSheet input =
        ParseResult.ret (before.map Block.record ++
          ⟨b.number, [], extractMetadata "PERFORMER".toList (dropCR b.performer), []⟩ ::
            after.map Block.record) none ∧
      parseCueSheet input1 =
        ParseResult.ret (before.map Block.record ++
          ⟨b.number, extractMetadata "TITLE".toList (dropCR t1),
            extractMetadata "PERFORMER".toList (dropCR b.performer), []⟩ ::
            after.map Block.record) none := by
  have hwf : ∀ c ∈ before ++ b :: after, c.wellFormed = true := by
    intro c hc
    rcases List.mem_append.mp hc with h | h
    · exact hbefore c h
    · rcases List.mem_cons.mp h with h | h
      · rw [h]; exact hb
      · exact hafter c h
  have hb1 : ({ b with title := t1 } : Block).wellFormed = true := hb
  have hwf1 : ∀ c ∈ before ++ { b with title := t1 } :: after, c.wellFormed = true := by
    intro c hc
    rcases List.mem_append.mp hc with h | h
    · exact hbefore c h
    · rcases List.mem_cons.mp h with h | h
      · rw [h]; exact hb1
      · exact hafter c h
  have htitle : extractMetadata "TITLE".toList (dropCR b.title) = [] :=
    extractMetadata_unquoted _ _ (lt_of_le_of_lt (count_dropCR b.title) hq)
  constructor
  · have h := parseLines_sheet pre (before ++ b :: after) [] hpre hwf
    rw [List.append_nil] at h
    have hrec : b.record =
        ⟨b.number, [], extractMetadata "PERFORMER".toList (dropCR b.performer), []⟩ := by
      unfold Block.record
      rw [htitle]
    rw [parseCueSheet_short input hshort, hin, h, List.map_append, List.map_cons, hrec]
    rfl
  · have h := parseLines_sheet pre (before ++ { b with title := t1 } :: after) [] hpre hwf1
    rw [List.append_nil] at h
    rw [parseCueSheet_short input1 hshort1, hin1, h, List.map_append, List.map_cons]
    rfl

set_option maxRecDepth 100000 in
/-- Witness of C10: the title line of track 01 has no quotes; track 02 is
extracted all the same. -/
theorem parseCueSheet_untitled_witness :
    parseCueSheet
        "\tTRACK 01 AUDIO\n\t\tTITLE Untitled\n\t\tPERFORMER \"P\"\n\tTRACK 02 AUDIO\n\t\tTITLE \"B\"\n\t\tPERFORMER \"Q\"\n".toList =
      ParseResult.ret [⟨"01".toList, [], "P".toList, []⟩,
        ⟨"02".toList, "B".toList, "Q".toList, []⟩] none ∧
    parseCueSheet
        "\tTRACK 01 AUDIO\n\t\tTITLE \"A\"\n\t\tPERFORMER \"P\"\n\tTRACK 02 AUDIO\n\t\tTITLE \"B\"\n\t\tPERFORMER \"Q\"\n".toList =
      ParseResult.ret [⟨"01".toList, "A".toList, "P".toList, []⟩,
        ⟨"02".toList, "B".toList, "Q".toList, []⟩] none :=
  parseCueSheet_untitled _ _ [] []
    [Block.mk "02".toList " AUDIO".toList "\t\tTITLE \"B\"".toList
      "\t\tPERFORMER \"Q\"".toList []]
    (Block.mk "01".toList " AUDIO".toList "\t\tTITLE Untitled".toList
      "\t\tPERFORMER \"P\"".toList [])
    "\t\tTITLE \"A\"".toList
    (by decide) (by decide) (by decide) (by decide) (by decide) (by decide) (by decide)
    (by decide) (by decide)

/-! ## Lines that do not fit the buffer of the scanner -/

theorem takeBytes_ascii (a b : List Char) (n : Nat) (ha : ∀ x ∈ a, x.utf8Size = 1)
    (hn : n ≤ a.length) : takeBytes n (a ++ b) = a.take n := by
  induction a generalizing n with
  | nil =>
    have h0 : n = 0 := by simpa using hn
    subst h0
    cases b with
    | nil => rfl
    | cons c cs =>
      have := Char.utf8Size_pos c
      simp only [List.nil_append, takeBytes, List.take_nil]
      rw [if_neg (by omega)]
      rfl
  | cons x a ih =>
    have hx : x.utf8Size = 1 := ha x (by simp)
    cases n with
    | zero =>
      simp only [List.cons_append, takeBytes, hx, List.take_zero]
      rfl
    | succ m =>
      simp only [List.cons_append, takeBytes, hx, List.take_succ_cons]
      have h1 := ih m (fun y hy => ha y (by simp [hy])) (by simpa using hn)
      simpa using h1

theorem byteLen_ascii (a : List Char) (ha : ∀ x ∈ a, x.utf8Size = 1) :
    byteLen a = a.length := by
  induction a with
  | nil => rfl
  | cons x a ih =>
    have h := ih (fun y hy => ha y (by simp [hy]))
    unfold byteLen at h ⊢
    rw [List.map_cons, List.sum_cons, h, ha x (by simp), List.length_cons]
    omega

/-- Once the error is set, `Scan` hands out what is left in the buffer. -/
theorem scan_after_tooLong (chunk tok : List Char) (hne : chunk ≠ [])
    (hl : ∀ x ∈ chunk, x ≠ '\n') :
    Scanner.scan { src := chunk, token := tok, err := some ScanError.tooLong } =
      (true, { src := [], token := dropCR chunk, err := some ScanError.tooLong }) := by
  simp only [Scanner.scan, if_neg hne, takeWhile_noNewline chunk hl]
  rw [if_neg (by simp)]
  simp

theorem extractMetadata_absent (c : Char) (f s : List Char) (hs : ∀ x ∈ s, x ≠ c) :
    extractMetadata (c :: f) s = [] := by
  have key : findStringSubmatch (metadataRegex (c :: f)) s = [] := by
    induction s with
    | nil => simp [findStringSubmatch, metadataRegex, lits, matchHere]
    | cons x xs ih =>
      rw [findStringSubmatch_nil_iff]
      refine ⟨?_, ih (fun y hy => hs y (by simp [hy]))⟩
      simp [metadataRegex, lits, matchHere, hs x (by simp)]
  unfold extractMetadata
  rw [key]

/-- A header line followed by a line that does not fit the buffer: the record
gets an empty title, the performer is searched in the buffered start of the
long line, and the scanner's error is returned. -/
theorem parseCueSheet_title_tooLong (h a rest n : List Char)
    (hh : ∀ x ∈ h, x ≠ '\n') (hs : byteLen h < maxScanTokenSize)
    (hp : hasPrefix (dropCR h) "\tTRACK".toList = true)
    (hf : (fields (dropCR h))[1]? = some n)
    (ha : ∀ x ∈ a, x ≠ '\n' ∧ x ≠ 'P' ∧ x.utf8Size = 1)
    (hlong : maxScanTokenSize ≤ a.length) :
    parseCueSheet (h ++ '\n' :: (a ++ rest)) =
      ParseResult.ret [⟨n, [], [], []⟩] (some ScanError.tooLong) := by
  have hnl : ∀ x ∈ a, x ≠ '\n' := fun x hx => (ha x hx).1
  have hasc : ∀ x ∈ a, x.utf8Size = 1 := fun x hx => (ha x hx).2.2
  have hchunk : takeBytes maxScanTokenSize (a ++ rest) = a.take maxScanTokenSize :=
    takeBytes_ascii a rest _ hasc hlong
  have hcne : a.take maxScanTokenSize ≠ [] := by
    intro h0
    have h1 := congrArg List.length h0
    rw [List.length_take] at h1
    have h2 : 0 < maxScanTokenSize := by decide
    simp only [List.length_nil] at h1
    omega
  have hcnl : ∀ x ∈ a.take maxScanTokenSize, x ≠ '\n' :=
    fun x hx => hnl x (List.mem_of_mem_take hx)
  have hperf : extractMetadata "PERFORMER".toList (dropCR (a.take maxScanTokenSize)) = [] :=
    extractMetadata_absent 'P' "ERFORMER".toList _
      (fun x hx => (ha x (List.mem_of_mem_take (dropCR_subset _ x hx))).2.1)
  obtain ⟨f, hfuel⟩ : ∃ f, (h ++ '\n' :: (a ++ rest)).length + 1 = f + 2 :=
    ⟨h.length + (a ++ rest).length, by simp; omega⟩
  unfold parseCueSheet newScanner
  rw [hfuel, parseLoop, scan_line h (a ++ rest) [] hh hs]
  simp only [hp, if_true, hf]
  rw [scan_tooLong a rest (dropCR h) hnl (by rw [byteLen_ascii a hasc]; exact hlong), hchunk]
  simp only
  rw [scan_after_tooLong _ [] hcne hcnl]
  simp only [hperf, extractMetadata_nil, parseLoop, scan_nil, List.nil_append]

/-- A whole block followed by a line that does not fit the buffer: the loop
ends there with the scanner's error. -/
theorem parseCueSheet_block_tooLong (h t p a rest n : List Char)
    (hh : ∀ x ∈ h, x ≠ '\n') (hs : byteLen h < maxScanTokenSize)
    (hp : hasPrefix (dropCR h) "\tTRACK".toList = true)
    (hf : (fields (dropCR h))[1]? = some n)
    (ht : ∀ x ∈ t, x ≠ '\n') (hts : byteLen t < maxScanTokenSize)
    (hpl : ∀ x ∈ p, x ≠ '\n') (hps : byteLen p < maxScanTokenSize)
    (ha : ∀ x ∈ a, x ≠ '\n') (hlong : maxScanTokenSize ≤ byteLen a) :
    parseCueSheet (h ++ '\n' :: (t ++ '\n' :: (p ++ '\n' :: (a ++ rest)))) =
      ParseResult.ret [⟨n, extractMetadata "TITLE".toList (dropCR t),
        extractMetadata "PERFORMER".toList (dropCR p), []⟩] (some ScanError.tooLong) := by
  obtain ⟨f, hfuel⟩ :
      ∃ f, (h ++ '\n' :: (t ++ '\n' :: (p ++ '\n' :: (a ++ rest)))).length + 1 = f + 2 :=
    ⟨h.length + (t ++ '\n' :: (p ++ '\n' :: (a ++ rest))).length, by simp; omega⟩
  unfold parseCueSheet newScanner
  rw [hfuel, parseLoop, scan_line h _ [] hh hs]
  simp only [hp, if_true, hf]
  rw [scan_line t _ (dropCR h) ht hts]
  simp only
  rw [scan_line p _ (dropCR t) hpl hps]
  simp only [parseLoop, scan_tooLong a rest (dropCR p) ha hlong, List.nil_append]

theorem length_le_framed (p q a z : List Char) (x y : Char) :
    a.length ≤ (p ++ (q ++ x :: y :: (a ++ z))).length := by
  simp only [List.length_append, List.length_cons]
  omega

/-- Counterexample to C7 as stated: with a title of 65536 letters the title
line does not fit the scanner's buffer; the record has empty title and
performer and `ErrTooLong` is returned. -/
theorem parseCueSheet_track_tooLong :
    parseCueSheet (unlines
      ["\tTRACK ".toList ++ ("1".toList ++ " AUDIO".toList),
       "\t\t".toList ++ ("TITLE".toList ++ ' ' :: '"' :: (List.replicate 65536 'a' ++ ['"'])),
       "\t\t".toList ++ ("PERFORMER".toList ++ ' ' :: '"' :: ("b".toList ++ ['"']))]) =
      ParseResult.ret [⟨"1".toList, [], [], []⟩] (some ScanError.tooLong) := by
  simp only [unlines]
  have hP : ∀ (l : List Char), (∀ y ∈ l, y ≠ '\n' ∧ y ≠ 'P' ∧ y.utf8Size = 1) →
      ∀ x ∈ "\t\t".toList ++ ("TITLE".toList ++ ' ' :: '"' :: (l ++ ['"'])),
        x ≠ '\n' ∧ x ≠ 'P' ∧ x.utf8Size = 1 := by
    intro l hl x hx
    rcases List.mem_append.mp hx with h | h
    · have h0 : ∀ y ∈ "\t\t".toList, y ≠ '\n' ∧ y ≠ 'P' ∧ y.utf8Size = 1 := by decide
      exact h0 x h
    · rcases List.mem_append.mp h with h | h
      · have h0 : ∀ y ∈ "TITLE".toList, y ≠ '\n' ∧ y ≠ 'P' ∧ y.utf8Size = 1 := by decide
        exact h0 x h
      · rcases List.mem_cons.mp h with h | h
        · rw [h]; decide
        · rcases List.mem_cons.mp h with h | h
          · rw [h]; decide
          · rcases List.mem_append.mp h with h | h
            · exact hl x h
            · rw [List.mem_singleton.mp h]; decide
  exact parseCueSheet_title_tooLong _ _ _ _ (by decide) (by decide) (by decide) (by decide)
    (hP _ (by
      intro y hy
      rw [(List.mem_replicate.mp hy).2]
      decide))
    (by
      refine le_trans ?_ (length_le_framed _ _ _ _ _ _)
      rw [List.length_replicate]
      decide)

set_option maxRecDepth 100000 in
/-- Counterexample to C8 as stated: a sheet of two blocks where a line of
65536 letters follows the performer line of the first block; one record is
returned, with `ErrTooLong`. -/
theorem parseCueSheet_blocks_tooLong :
    parseCueSheet ("\tTRACK 1 AUDIO".toList ++ '\n' :: ("\t\tTITLE \"A\"".toList ++ '\n' ::
      ("\t\tPERFORMER \"P\"".toList ++ '\n' :: (List.replicate 65536 'x' ++
        "\n\tTRACK 2 AUDIO\n\t\tTITLE \"B\"\n\t\tPERFORMER \"Q\"\n".toList)))) =
      ParseResult.ret [⟨"1".toList, "A".toList, "P".toList, []⟩]
        (some ScanError.tooLong) := by
  have h := parseCueSheet_block_tooLong "\tTRACK 1 AUDIO".toList "\t\tTITLE \"A\"".toList
    "\t\tPERFORMER \"P\"".toList (List.replicate 65536 'x')
    "\n\tTRACK 2 AUDIO\n\t\tTITLE \"B\"\n\t\tPERFORMER \"Q\"\n".toList "1".toList
    (by decide) (by decide) (by decide) (by decide) (by decide) (by decide) (by decide)
    (by decide)
    (by
      intro x hx
      rw [(List.mem_replicate.mp hx).2]
      decide)
    (by rw [byteLen_replicate 65536 'x' (by decide)]; decide)
  rw [h]
  have e1 : extractMetadata "TITLE".toList (dropCR "\t\tTITLE \"A\"".toList) = "A".toList := by
    decide
  have e2 : extractMetadata "PERFORMER".toList (dropCR "\t\tPERFORMER \"P\"".toList) =
      "P".toList := by decide
  rw [e1, e2]

theorem padded_left_chars (P : Char → Prop) (pre : List Char) (n : Nat) (c : Char)
    (hpre : ∀ x ∈ pre, P x) (hc : P c) : ∀ x ∈ pre ++ List.replicate n c, P x := by
  intro x hx
  rcases List.mem_append.mp hx with h | h
  · exact hpre x h
  · rw [(List.mem_replicate.mp h).2]; exact hc

set_option maxRecDepth 100000 in
/-- Counterexample to C9 as stated: a header followed by exactly one line,
`<tab><tab>TITLE "x"` padded with blanks to more than 65536 bytes; the title
that line holds is `x`, but the record has an empty title and `ErrTooLong` is
returned. -/
theorem parseCueSheet_header_at_end_tooLong :
    extractMetadata "TITLE".toList
        ("\t\tTITLE \"x\"".toList ++ List.replicate 65536 ' ') = "x".toList ∧
      parseCueSheet ("\tTRACK 1 AUDIO".toList ++ '\n' ::
        ("\t\tTITLE \"x\"".toList ++ List.replicate 65536 ' ')) =
      ParseResult.ret [⟨"1".toList, [], [], []⟩] (some ScanError.tooLong) := by
  constructor
  · have h := extractMetadata_quoted 'T' "ITLE".toList "\t\t".toList "x".toList
      (List.replicate 65536 ' ') (by decide) (by decide)
      (by
        intro x hx
        rw [(List.mem_replicate.mp hx).2]
        decide)
      (by decide)
    exact h
  · have e : "\tTRACK 1 AUDIO".toList ++ '\n' ::
          ("\t\tTITLE \"x\"".toList ++ List.replicate 65536 ' ') =
        "\tTRACK 1 AUDIO".toList ++ '\n' ::
          (("\t\tTITLE \"x\"".toList ++ List.replicate 65536 ' ') ++ []) := by
      rw [List.append_nil]
    rw [e]
    apply parseCueSheet_title_tooLong _ _ _ _ (by decide) (by decide) (by decide) (by decide)
    · exact padded_left_chars (fun x => x ≠ '\n' ∧ x ≠ 'P' ∧ x.utf8Size = 1) _ _ _
        (by decide) (by decide)
    · rw [List.length_append, List.length_replicate]
      exact le_trans (by decide) (Nat.le_add_left _ _)

set_option maxRecDepth 100000 in
/-- Counterexample to C10 as stated: the title line of the first block holds
no quote and is 65536 bytes long; the block of track 2 that follows is not
extracted. -/
theorem parseCueSheet_untitled_tooLong :
    parseCueSheet ("\tTRACK 1 AUDIO".toList ++ '\n' :: (List.replicate 65536 'x' ++
        "\n\t\tPERFORMER \"P\"\n\tTRACK 2 AUDIO\n\t\tTITLE \"B\"\n\t\tPERFORMER \"Q\"\n".toList)) =
      ParseResult.ret [⟨"1".toList, [], [], []⟩] (some ScanError.tooLong) := by
  apply parseCueSheet_title_tooLong _ _ _ _ (by decide) (by decide) (by decide) (by decide)
  · intro x hx
    rw [(List.mem_replicate.mp hx).2]
    decide
  · rw [List.length_replicate]
    decide

set_option maxRecDepth 100000 in
theorem indexChunk_one_two_three :
    indexChunk "1".toList "2".toList "3".toList = "INDEX 01 62:3.000".toList := by
  decide

/-- A line of 65535 bytes with one timestamp: its rewrite is three bytes
longer and no longer fits the buffer of the scanner. -/
theorem fixCueSheet_grows :
    fixCueSheet ("INDEX 01 1:2:3".toList ++ List.replicate 65521 'a') =
        { written := "INDEX 01 62:3.000".toList ++ (List.replicate 65521 'a' ++ ['\n']),
          err := none } ∧
      fixCueSheet ("INDEX 01 62:3.000".toList ++ (List.replicate 65521 'a' ++ ['\n'])) =
        { written := [], err := some ScanError.tooLong } := by
  have hrep : ∀ x ∈ List.replicate 65521 'a', x ≠ '\n' ∧ x ≠ 'I' := by
    intro x hx
    rw [(List.mem_replicate.mp hx).2]
    decide
  have hnl : ∀ (p : List Char), (∀ y ∈ p, y ≠ '\n') →
      ∀ x ∈ p ++ List.replicate 65521 'a', x ≠ '\n' := by
    intro p hp x hx
    rcases List.mem_append.mp hx with h | h
    · exact hp x h
    · exact (hrep x h).1
  have hbl : byteLen (List.replicate 65521 'a') = 65521 := byteLen_replicate _ _ (by decide)
  constructor
  · have hne : "INDEX 01 1:2:3".toList ++ List.replicate 65521 'a' ≠ [] :=
      List.append_ne_nil_of_left_ne_nil (by decide) _
    have hl := hnl "INDEX 01 1:2:3".toList (by decide)
    have hsp := splitLines_last _ hne hl
    have hshort : ∀ l ∈ splitLines ("INDEX 01 1:2:3".toList ++ List.replicate 65521 'a'),
        byteLen l < maxScanTokenSize := by
      intro l hl1
      rw [hsp, List.mem_singleton] at hl1
      rw [hl1, byteLen_append, hbl]
      decide
    have hcr : dropCR ("INDEX 01 1:2:3".toList ++ List.replicate 65521 'a') =
        "INDEX 01 1:2:3".toList ++ List.replicate 65521 'a' := by
      apply dropCR_of_last
      have e : List.replicate 65521 'a' = List.replicate 65520 'a' ++ ['a'] :=
        List.replicate_succ' ..
      rw [e, ← List.append_assoc, List.getLast?_concat]
      decide
    have hq : startsWithDigit (List.replicate 65521 'a') = false := by
      have e : List.replicate 65521 'a' = 'a' :: List.replicate 65520 'a' :=
        List.replicate_succ ..
      rw [e]
      rfl
    have hrw : rewriteLine ("INDEX 01 1:2:3".toList ++ List.replicate 65521 'a') =
        "INDEX 01 62:3.000".toList ++ List.replicate 65521 'a' := by
      have h1 := rewriteLine_match "1".toList "2".toList "3".toList (List.replicate 65521 'a')
        (by decide) (by decide) (by decide) (by decide) (by decide) (by decide) hq
      have h2 := rewriteLine_indent (List.replicate 65521 'a') []
        (fun x hx => (hrep x hx).2)
      rw [List.append_nil, rewriteLine_nil, List.append_nil] at h2
      rw [h2, indexChunk_one_two_three] at h1
      exact h1
    rw [fixCueSheet_short _ hshort, hsp]
    simp only [List.map_cons, List.map_nil, unlines, hcr, hrw, List.append_assoc]
  · have h := fixCueSheet_tooLong_first
      ("INDEX 01 62:3.000".toList ++ List.replicate 65521 'a') ['\n']
      (hnl "INDEX 01 62:3.000".toList (by decide))
      (by rw [byteLen_append, hbl]; decide)
    rw [List.append_assoc] at h
    exact h

/-! ## The rounds of the loop of parseCueSheet are enough -/

theorem takeBytes_noNewline (s : List Char) (n : Nat)
    (h : n ≤ byteLen (s.takeWhile (fun c => c != '\n'))) :
    ∀ x ∈ takeBytes n s, x ≠ '\n' := by
  induction s generalizing n with
  | nil => simp [takeBytes]
  | cons c cs ih =>
    rw [takeBytes]
    split
    · next hc =>
      have hpos := Char.utf8Size_pos c
      have hne : c ≠ '\n' := by
        intro h0
        rw [h0, List.takeWhile_cons_of_neg (by simp)] at h
        simp [byteLen] at h
        omega
      rw [List.takeWhile_cons_of_pos (by simpa using hne)] at h
      have hb : byteLen (c :: cs.takeWhile (fun c => c != '\n')) =
          c.utf8Size + byteLen (cs.takeWhile (fun c => c != '\n')) := by
        simp [byteLen]
      rw [hb] at h
      intro x hx
      rcases List.mem_cons.mp hx with h0 | h0
      · rw [h0]; exact hne
      · exact ih _ (by omega) x h0
    · intro x hx
      rw [(List.mem_replicate.mp hx).2]
      decide

theorem scan_settled (sc : Scanner) (h : sc.settled) : sc.scan.2.settled := by
  unfold Scanner.scan
  split
  · exact h
  · simp only
    split
    · next hc => exact Or.inr (takeBytes_noNewline _ _ hc.2)
    · rcases h with h | h
      · exact Or.inl h
      · right
        intro x hx
        exact h x (List.mem_of_mem_drop hx)

theorem scan_scansLeft (sc : Scanner) (h : sc.settled) :
    scansLeft sc.scan.2 ≤ scansLeft sc ∧
      (sc.scan.1 = true → scansLeft sc.scan.2 < scansLeft sc) := by
  unfold Scanner.scan
  split
  · next h0 =>
    refine ⟨?_, by simp⟩
    simp only [scansLeft, h0]
    cases sc.err <;> simp
  · next h0 =>
    have hpos : 0 < sc.src.length := List.length_pos.mpr h0
    simp only
    split
    · next hc =>
      refine ⟨?_, by simp⟩
      simp only [scansLeft, hc.1]
      split <;> omega
    · next hc =>
      cases he : sc.err with
      | none =>
        simp only [scansLeft, he, List.length_drop, true_implies]
        omega
      | some e =>
        have hnl : ∀ x ∈ sc.src, x ≠ '\n' := by
          rcases h with h | h
          · rw [he] at h; exact absurd h (by simp)
          · exact h
        have htw := takeWhile_noNewline sc.src hnl
        have hd : sc.src.drop ((sc.src.takeWhile (fun c => c != '\n')).length + 1) = [] := by
          rw [htw]
          exact List.drop_eq_nil_of_le (by omega)
        simp only [scansLeft, he, hd, h0, if_true, if_false, true_implies]
        omega

/-- More rounds than `scansLeft` do not change the result of the loop. -/
theorem parseLoop_fuel (fuel k : Nat) (sc : Scanner) (tracks : List TrackInfo)
    (hs : sc.settled) (h : scansLeft sc < fuel) :
    parseLoop (fuel + k) sc tracks = parseLoop fuel sc tracks := by
  induction fuel generalizing sc tracks with
  | zero => omega
  | succ fuel ih =>
    rw [show fuel + 1 + k = (fuel + k) + 1 by omega]
    have h1 := scan_scansLeft sc hs
    have hs1 := scan_settled sc hs
    simp only [parseLoop]
    rcases hsc : sc.scan with ⟨ok, sc1⟩
    rw [hsc] at h1 hs1
    cases ok with
    | false => rfl
    | true =>
      have hlt : scansLeft sc1 < scansLeft sc := h1.2 rfl
      simp only
      split
      · split
        · rfl
        · have h2 := scan_scansLeft sc1 hs1
          have hs2 := scan_settled sc1 hs1
          have h3 := scan_scansLeft sc1.scan.2 hs2
          have hs3 := scan_settled sc1.scan.2 hs2
          exact ih _ _ hs3 (by omega)
      · exact ih sc1 tracks hs1 (by omega)

/-- The rounds given to the loop in `parseCueSheet` are enough for every
input: the loop ends at a call of `Scan` that fails. -/
theorem parseCueSheet_fuel (input : List Char) (k : Nat) :
    parseLoop (input.length + 1 + k) (newScanner input) [] = parseCueSheet input :=
  parseLoop_fuel _ k _ _ (Or.inl rfl) (by simp [scansLeft, newScanner])

/-- The rounds given to the loop in `fixCueSheet` are enough for every input. -/
theorem fixCueSheet_fuel (input : List Char) (k : Nat) :
    fixLoop (input.length + 1 + k) (newScanner input) [] =
      fixLoop (input.length + 1) (newScanner input) [] :=
  fixLoop_fuel _ k _ _ (by simp [newScanner])

theorem parseLines_ret (n : Nat) (ls : List (List Char)) (tracks : List TrackInfo)
    (hn : ls.length ≤ n)
    (h : ∀ l ∈ ls, hasPrefix l "\tTRACK".toList = true →
      ((fields (dropCR l))[1]?).isSome = true) :
    ∃ tr, parseLines ls tracks = ParseResult.ret tr none := by
  induction n generalizing ls tracks with
  | zero =>
    have : ls = [] := List.length_eq_zero.mp (Nat.le_zero.mp hn)
    rw [this]
    exact ⟨tracks, rfl⟩
  | succ n ih =>
    cases ls with
    | nil => exact ⟨tracks, rfl⟩
    | cons l rest =>
      have hrest : ∀ m ∈ rest, hasPrefix m "\tTRACK".toList = true →
          ((fields (dropCR m))[1]?).isSome = true := fun m hm => h m (by simp [hm])
      rw [parseLines, hasPrefix_dropCR]
      split
      · next hp =>
        obtain ⟨num, hnum⟩ := Option.isSome_iff_exists.mp (h l (by simp) hp)
        rw [hnum]
        simp only
        match rest, hn, hrest with
        | [], _, _ => exact ⟨_, rfl⟩
        | [t], _, _ => exact ⟨_, rfl⟩
        | t :: p :: rest1, hn1, hrest1 =>
          simp only
          exact ih rest1 _ (by simp at hn1; omega) (fun m hm => hrest1 m (by simp [hm]))
      · exact ih rest tracks (by simp at hn; omega) hrest

/-- C5 (amended): for every text in which every line is shorter than 65536
bytes and every line that starts with a tab and `TRACK` carries a second
white-space-delimited field, `parseCueSheet` returns a list of records with
no error and without panic, whatever else the lines contain. -/
theorem parseCueSheet_total (input : List Char)
    (hshort : ∀ l ∈ splitLines input, byteLen l < maxScanTokenSize)
    (hnum : ∀ l ∈ splitLines input, hasPrefix l "\tTRACK".toList = true →
      ((fields (dropCR l))[1]?).isSome = true) :
    ∃ tracks, parseCueSheet input = ParseResult.ret tracks none := by
  rw [parseCueSheet_short input hshort]
  exact parseLines_ret _ _ [] (le_refl _) hnum

set_option maxRecDepth 100000 in
/-- Witness of C5: a sheet with an empty title, a title line without quotes,
a header as title line, and a header at the end of the input. -/
theorem parseCueSheet_total_witness :
    (∀ l ∈ splitLines
        "junk \"\n\tTRACK 01\n\t\tTITLE \"\"\n\n\tTRACKS x y\r\nTITLE A\n\tTRACK 7 \"\n\tTRACK 9".toList,
        byteLen l < maxScanTokenSize) ∧
      ∃ tracks, parseCueSheet
        "junk \"\n\tTRACK 01\n\t\tTITLE \"\"\n\n\tTRACKS x y\r\nTITLE A\n\tTRACK 7 \"\n\tTRACK 9".toList =
        ParseResult.ret tracks none :=
  ⟨by decide, parseCueSheet_total _ (by decide) (by decide)⟩

theorem parseCueSheet_tooLong_first (l rest : List Char) (hl : ∀ x ∈ l, x ≠ '\n')
    (hlong : maxScanTokenSize ≤ byteLen l) :
    parseCueSheet (l ++ rest) = ParseResult.ret [] (some ScanError.tooLong) := by
  unfold parseCueSheet newScanner
  simp only [parseLoop, scan_tooLong l rest [] hl hlong]

/-- Counterexample to C5 as stated: on the single line `<tab>TRACK` the
function panics, and on a line of 65536 letters it returns the scanner's
error `ErrTooLong` although no I/O error occurred. -/
theorem parseCueSheet_fails :
    parseCueSheet "\tTRACK\n".toList = ParseResult.panic ∧
      parseCueSheet (List.replicate 65536 'x' ++ ['\n']) =
        ParseResult.ret [] (some ScanError.tooLong) := by
  refine ⟨parseCueSheet_panics, parseCueSheet_tooLong_first _ _ ?_ ?_⟩
  · intro x hx
    rw [(List.mem_replicate.mp hx).2]
    decide
  · rw [byteLen_replicate 65536 'x' (by decide)]
    decide

/-! ## The hour field cannot be found again -/

set_option maxRecDepth 100000 in
/-- C19: the lines `INDEX 01 1:00:12` and `INDEX 01 0:60:12` have different
hour and minute fields and are rewritten to the same line
`INDEX 01 60:12.000`, so the fields cannot be found again from the output. -/
theorem rewriteLine_lossy :
    ∃ (H M H1 M1 : Nat) (S : List Char), (H, M) ≠ (H1, M1) ∧
      "INDEX 01 ".toList ++ (decimal 0 H ++ ':' :: (decimal 1 M ++ ':' :: S)) =
        "INDEX 01 1:00:12".toList ∧
      "INDEX 01 ".toList ++ (decimal 0 H1 ++ ':' :: (decimal 0 M1 ++ ':' :: S)) =
        "INDEX 01 0:60:12".toList ∧
      rewriteLine "INDEX 01 1:00:12".toList = "INDEX 01 60:12.000".toList ∧
      rewriteLine "INDEX 01 0:60:12".toList = "INDEX 01 60:12.000".toList :=
  ⟨1, 0, 0, 60, "12".toList, by decide, by decide, by decide, by decide, by decide⟩

/-! ## Matches inside a line -/

theorem append_inv_of_not_mem (cs t u rest : List Char) (hu : ∀ x ∈ u, x ≠ 'I')
    (h : cs ++ 'I' :: t = u ++ rest) : ∃ r, cs = u ++ r := by
  induction u generalizing cs with
  | nil => exact ⟨cs, rfl⟩
  | cons x u ih =>
    cases cs with
    | nil =>
      simp only [List.nil_append, List.cons_append, List.cons.injEq] at h
      exact absurd h.1.symm (hu x (by simp))
    | cons c cs =>
      simp only [List.cons_append, List.cons.injEq] at h
      obtain ⟨r, hr⟩ := ih cs (fun y hy => hu y (by simp [hy])) h.2
      exact ⟨r, by rw [h.1, hr]; rfl⟩

theorem index_tail_chars (e1 e2 e3 : List Char) (h1 : ∀ x ∈ e1, isDigit x = true)
    (h2 : ∀ x ∈ e2, isDigit x = true) (h3 : ∀ x ∈ e3, isDigit x = true) :
    ∀ x ∈ "NDEX 01 ".toList ++ (e1 ++ ':' :: (e2 ++ ':' :: e3)), x ≠ 'I' := by
  intro x hx
  have key : x ∈ "NDEX 01 :".toList ∨ isDigit x = true := by
    rcases List.mem_append.mp hx with h | h
    · left
      have hsub : ∀ y ∈ "NDEX 01 ".toList, y ∈ "NDEX 01 :".toList := by decide
      exact hsub x h
    · rcases List.mem_append.mp h with h | h
      · exact Or.inr (h1 x h)
      · rcases List.mem_cons.mp h with h | h
        · left; rw [h]; decide
        · rcases List.mem_append.mp h with h | h
          · exact Or.inr (h2 x h)
          · rcases List.mem_cons.mp h with h | h
            · left; rw [h]; decide
            · exact Or.inr (h3 x h)
  rcases key with h | h
  · have hall : ∀ y ∈ "NDEX 01 :".toList, y ≠ 'I' := by decide
    exact hall x h
  · intro hx; rw [hx] at h; exact absurd h (by decide)

/-- Text that starts with the letter `I` cannot complete a match begun
before it. -/
theorem matchHere_index_append (c : Char) (cs t : List Char)
    (h : matchHere indexRegex (c :: cs) = none) :
    matchHere indexRegex (c :: (cs ++ 'I' :: t)) = none := by
  cases hm : matchHere indexRegex (c :: (cs ++ 'I' :: t)) with
  | none => rfl
  | some res =>
    exfalso
    obtain ⟨caps, rest⟩ := res
    obtain ⟨e1, e2, e3, p1, p2, p3, hs, _, _⟩ := matchHere_index_inv _ _ _ hm
    have hs1 : c :: (cs ++ 'I' :: t) =
        'I' :: (("NDEX 01 ".toList ++ (e1 ++ ':' :: (e2 ++ ':' :: e3))) ++ rest) := by
      rw [hs]; simp
    simp only [List.cons.injEq] at hs1
    obtain ⟨r, hr⟩ := append_inv_of_not_mem cs t _ rest
      (index_tail_chars e1 e2 e3 p1.2 p2.2 p3.2) hs1.2
    have hsome := matchHere_index_isSome e1 e2 e3 r p1.1 p1.2 p2.1 p2.2 p3.1 p3.2
    have hcs : c :: cs = "INDEX 01 ".toList ++ (e1 ++ ':' :: (e2 ++ ':' :: (e3 ++ r))) := by
      rw [hs1.1, hr]; simp
    rw [hcs, hsome] at h
    exact absurd h (by simp)

/-- The rewrite of a line splits in front of a letter `I`. -/
theorem rewriteLine_append (p t : List Char) :
    rewriteLine (p ++ 'I' :: t) = rewriteLine p ++ rewriteLine ('I' :: t) := by
  refine rewriteLine_cases
    (fun p r => rewriteLine (p ++ 'I' :: t) = r ++ rewriteLine ('I' :: t)) ?_ ?_ ?_ p
  · rfl
  · intro c cs hnone ih
    rw [List.cons_append, rewriteLine_cons_none c _ (matchHere_index_append c cs t hnone), ih]
    rfl
  · intro d1 d2 d3 q p1 p2 p3 hq ih
    have hq1 : startsWithDigit (q ++ 'I' :: t) = false := by
      cases q with
      | nil => rfl
      | cons x q => exact hq
    have e : "INDEX 01 ".toList ++ (d1 ++ ':' :: (d2 ++ ':' :: (d3 ++ q))) ++ 'I' :: t =
        "INDEX 01 ".toList ++ (d1 ++ ':' :: (d2 ++ ':' :: (d3 ++ (q ++ 'I' :: t)))) := by
      simp
    rw [e, rewriteLine_match d1 d2 d3 _ p1.1 p1.2 p2.1 p2.2 p3.1 p3.2 hq1, ih,
      List.append_assoc]

theorem findStringSubmatch_of_later (re : List Node) (p s : List Char)
    (caps : List (List Char)) (rest : List Char) (hs : s ≠ [])
    (h : matchHere re s = some (caps, rest)) : findStringSubmatch re (p ++ s) ≠ [] := by
  induction p with
  | nil =>
    rw [List.nil_append, findStringSubmatch_of_match re s caps rest hs h]
    simp
  | cons c p ih =>
    rw [List.cons_append, findStringSubmatch]
    cases hm : matchHere re (c :: (p ++ s)) with
    | none => exact ih
    | some r => simp

/-! ## The frame of a rewritten line -/

/-- C18 (amended): for all non-negative integers `H` and `M` with
`H * 60 + M < 2 ^ 63`, written in decimal with any number of leading zeros,
every non-empty digit string `S`, every prefix `p` that holds no letter `I`
and every suffix `q` that does not start with a digit, the per-line rewrite
turns `p ++ INDEX 01 H:M:S ++ q` into `p ++ INDEX 01 T:S.000 ++ q1`, where `T`
is `H * 60 + M` padded with zeros to at least two digits and `q1` is the
rewrite of `q` itself. -/
theorem rewriteLine_frame (H M z1 z2 : Nat) (S p q : List Char)
    (hS : S ≠ []) (hSd : ∀ x ∈ S, isDigit x = true) (hp : ∀ x ∈ p, x ≠ 'I')
    (hq : startsWithDigit q = false) (hrange : H * 60 + M < 2 ^ 63) :
    rewriteLine (p ++ ("INDEX 01 ".toList ++
        (decimal z1 H ++ ':' :: (decimal z2 M ++ ':' :: (S ++ q))))) =
      p ++ (("INDEX 01 ".toList ++
        (padDigits 2 (H * 60 + M) ++ ':' :: (S ++ ".000".toList))) ++ rewriteLine q) := by
  rw [rewriteLine_indent p _ hp,
    rewriteLine_match (decimal z1 H) (decimal z2 M) S q
      (decimal_ne_nil z1 H) (decimal_isDigit z1 H) (decimal_ne_nil z2 M) (decimal_isDigit z2 M)
      hS hSd hq,
    indexChunk_decimal H M z1 z2 S hrange]

set_option maxRecDepth 100000 in
/-- Witness of C18: the line `x INDEX 01 1:05:07 y INDEX 01 0:2:3` becomes
`x INDEX 01 65:07.000 y INDEX 01 02:3.000`. -/
theorem rewriteLine_frame_witness :
    ("x ".toList ++ ("INDEX 01 ".toList ++
        (decimal 0 1 ++ ':' :: (decimal 1 5 ++ ':' :: ("07".toList ++ " y INDEX 01 0:2:3".toList)))) =
        "x INDEX 01 1:05:07 y INDEX 01 0:2:3".toList) ∧
      rewriteLine " y INDEX 01 0:2:3".toList = " y INDEX 01 02:3.000".toList ∧
      rewriteLine "x INDEX 01 1:05:07 y INDEX 01 0:2:3".toList =
        "x INDEX 01 65:07.000 y INDEX 01 02:3.000".toList :=
  ⟨by decide, by decide,
   (rewriteLine_frame 1 5 0 1 "07".toList "x ".toList " y INDEX 01 0:2:3".toList
     (by decide) (by decide) (by decide) (by decide) (by norm_num)).trans (by decide)⟩

set_option maxRecDepth 100000 in
/-- Counterexample to C18 as stated: with `H = 0` and `M = 2 ^ 63` the line
`x INDEX 01 0:9223372036854775808:7 y` gets the minute field
`9223372036854775807`, not `H * 60 + M`. -/
theorem rewriteLine_frame_overflow :
    rewriteLine ("x ".toList ++ ("INDEX 01 ".toList ++
        (decimal 0 0 ++ ':' :: (decimal 0 9223372036854775808 ++ ':' ::
          ("7".toList ++ " y".toList))))) =
      "x INDEX 01 9223372036854775807:7.000 y".toList ∧
    rewriteLine ("x ".toList ++ ("INDEX 01 ".toList ++
        (decimal 0 0 ++ ':' :: (decimal 0 9223372036854775808 ++ ':' ::
          ("7".toList ++ " y".toList))))) ≠
      "x ".toList ++ (("INDEX 01 ".toList ++
        (padDigits 2 (0 * 60 + 9223372036854775808) ++ ':' :: ("7".toList ++ ".000".toList))) ++
          rewriteLine " y".toList) := by
  decide

/-! ## Fields that do not fit an int -/

/-- C13 (amended): a captured hour or minute text is a non-empty run of
digits, and `Atoi` reports an error for it exactly when its value is `2 ^ 63`
or more; the field then enters `hours * 60 + minutes` as `2 ^ 63 - 1`, the sum
is taken in 64-bit arithmetic, and the line is still rewritten. -/
theorem rewriteLine_atoi_error (d1 d2 d3 p q : List Char)
    (n1 : d1 ≠ []) (h1 : ∀ x ∈ d1, isDigit x = true)
    (n2 : d2 ≠ []) (h2 : ∀ x ∈ d2, isDigit x = true)
    (n3 : d3 ≠ []) (h3 : ∀ x ∈ d3, isDigit x = true)
    (hp : ∀ x ∈ p, x ≠ 'I') (hq : startsWithDigit q = false) :
    ((atoi d1).2 = true ↔ 2 ^ 63 ≤ digitsValue d1) ∧
    ((atoi d2).2 = true ↔ 2 ^ 63 ≤ digitsValue d2) ∧
    ((atoi d1).2 = true → (atoi d1).1 = 2 ^ 63 - 1) ∧
    ((atoi d2).2 = true → (atoi d2).1 = 2 ^ 63 - 1) ∧
    ((atoi d1).2 = false → (atoi d1).1 = digitsValue d1) ∧
    ((atoi d2).2 = false → (atoi d2).1 = digitsValue d2) ∧
    rewriteLine (p ++ ("INDEX 01 ".toList ++ (d1 ++ ':' :: (d2 ++ ':' :: (d3 ++ q))))) =
      p ++ (("INDEX 01 ".toList ++
        (fmt02d (wrapInt (wrapInt ((atoi d1).1 * 60) + (atoi d2).1)) ++
          ':' :: (d3 ++ ".000".toList))) ++ rewriteLine q) := by
  have a1 := atoi_digits d1 n1 h1
  have a2 := atoi_digits d2 n2 h2
  have c1 : (2 : Int) ^ 63 ≤ (digitsValue d1 : Int) ↔ 2 ^ 63 ≤ digitsValue d1 := by
    exact_mod_cast Iff.rfl
  have c2 : (2 : Int) ^ 63 ≤ (digitsValue d2 : Int) ↔ 2 ^ 63 ≤ digitsValue d2 := by
    exact_mod_cast Iff.rfl
  refine ⟨?_, ?_, ?_, ?_, ?_, ?_, ?_⟩
  · rw [a1, ← c1]; split <;> simp <;> omega
  · rw [a2, ← c2]; split <;> simp <;> omega
  · rw [a1]; split <;> simp
  · rw [a2]; split <;> simp
  · rw [a1]; split <;> simp
  · rw [a2]; split <;> simp
  · rw [rewriteLine_indent p _ hp, rewriteLine_match d1 d2 d3 q n1 h1 n2 h2 n3 h3 hq]
    rfl

set_option maxRecDepth 100000 in
/-- Witness of C13: the minute text `9223372036854775808` does not fit, and
the line `\tINDEX 01 0:9223372036854775808:5` becomes
`\tINDEX 01 9223372036854775807:5.000`. -/
theorem rewriteLine_atoi_error_witness :
    (atoi "9223372036854775808".toList).2 = true ∧
    rewriteLine "\tINDEX 01 0:9223372036854775808:5".toList =
      "\tINDEX 01 9223372036854775807:5.000".toList :=
  ⟨by decide,
   ((rewriteLine_atoi_error "0".toList "9223372036854775808".toList "5".toList "\t".toList []
     (by decide) (by decide) (by decide) (by decide) (by decide) (by decide) (by decide)
     (by decide)).2.2.2.2.2.2).trans (by decide)⟩

set_option maxRecDepth 100000 in
/-- Counterexample to C13 as stated: the hour text `9223372036854775808`
makes `Atoi` report an error, and the line is rewritten to
`INDEX 01 -60:0.000`, not to the `INDEX 01 00:0.000` of an hour field taken
as zero. -/
theorem rewriteLine_atoi_error_not_zero :
    (atoi "9223372036854775808".toList).2 = true ∧
    (atoi "9223372036854775808".toList).1 ≠ 0 ∧
    rewriteLine "INDEX 01 9223372036854775808:0:0".toList = "INDEX 01 -60:0.000".toList ∧
    rewriteLine "INDEX 01 9223372036854775808:0:0".toList ≠
      "INDEX 01 ".toList ++ (fmt02d (0 * 60 + 0) ++ ':' :: ("0".toList ++ ".000".toList)) := by
  decide

/-! ## Separators other than one space -/

set_option maxRecDepth 100000 in
/-- Counterexample to C12 as stated: with a tab, or with two spaces, between
`INDEX 01` and the timestamp the line is not matched and stays as it is. -/
theorem rewriteLine_tab_not_recognised :
    findStringSubmatch indexRegex "\tINDEX 01\t1:2:3".toList = [] ∧
    rewriteLine "\tINDEX 01\t1:2:3".toList = "\tINDEX 01\t1:2:3".toList ∧
    findStringSubmatch indexRegex "\tINDEX 01  1:2:3".toList = [] ∧
    rewriteLine "\tINDEX 01  1:2:3".toList = "\tINDEX 01  1:2:3".toList := by
  decide

/-! ## extractMetadata -/

theorem split_last (x : Char) (t : List Char) (h : x ∈ t) :
    ∃ v b, t = v ++ x :: b ∧ ∀ y ∈ b, y ≠ x := by
  induction t with
  | nil => simp at h
  | cons c t ih =>
    by_cases ht : x ∈ t
    · obtain ⟨v, b, e, hb⟩ := ih ht
      exact ⟨c :: v, b, by rw [e]; rfl, hb⟩
    · have hc : x = c := by
        rcases List.mem_cons.mp h with h | h
        · exact h
        · exact absurd h ht
      refine ⟨[], t, by rw [hc]; rfl, ?_⟩
      intro y hy hyx
      rw [hyx] at hy
      exact ht hy

/-- The field pattern matches at the start of every line that starts with
the keyword, one space, a quote, at least one character and a later quote;
the group takes everything up to the last quote. -/
theorem matchHere_metadata (kw m b : List Char) (c : Char)
    (hn : ∀ x ∈ (c :: m) ++ '"' :: b, x ≠ '\n') :
    ∃ v rest, v ≠ [] ∧ (∀ y ∈ rest, y ≠ '"') ∧ (c :: m) ++ '"' :: b = v ++ '"' :: rest ∧
      matchHere (metadataRegex kw) (kw ++ ' ' :: '"' :: ((c :: m) ++ '"' :: b)) =
        some ([v], rest) := by
  obtain ⟨v0, rest, e, hrest⟩ := split_last '"' (m ++ '"' :: b) (by simp)
  have e1 : (c :: m) ++ '"' :: b = (c :: v0) ++ '"' :: rest := by
    rw [List.cons_append, e]; rfl
  refine ⟨c :: v0, rest, by simp, hrest, e1, ?_⟩
  rw [e1] at hn ⊢
  have hm := matchHere_dot_quote (c :: v0) rest (by simp)
    (fun x hx => hn x (List.mem_append_left _ hx))
    (fun x hx => ⟨hn x (List.mem_append_right _ (List.mem_cons_of_mem _ hx)), hrest x hx⟩)
  unfold metadataRegex
  rw [matchHere_lits_append]
  simp only [matchHere, if_true]
  simpa [matchHere] using hm

theorem matchHere_metadata_inv (kw s : List Char) (caps : List (List Char)) (rest : List Char)
    (h : matchHere (metadataRegex kw) s = some (caps, rest)) :
    ∃ v, v ≠ [] ∧ caps = [v] ∧ s = kw ++ ' ' :: '"' :: (v ++ '"' :: rest) := by
  unfold metadataRegex at h
  obtain ⟨t0, e0, h⟩ := matchHere_lits_inv _ _ _ _ h
  obtain ⟨t1, e1, h⟩ := matchHere_lit_inv _ _ _ _ h
  obtain ⟨t2, e2, h⟩ := matchHere_lit_inv _ _ _ _ h
  obtain ⟨d, t3, caps1, hd, _, e3, hm, hc⟩ := matchHere_plus_lit_inv _ _ _ _ _ _ h
  simp only [matchHere, Option.some.injEq, Prod.mk.injEq] at hm
  refine ⟨d, hd, by rw [hc, ← hm.1], ?_⟩
  rw [e0, e1, e2, e3, hm.2]

theorem matchHere_metadata_nil (kw : List Char) : matchHere (metadataRegex kw) [] = none := by
  cases h : matchHere (metadataRegex kw) [] with
  | none => rfl
  | some r =>
    obtain ⟨v, _, _, e⟩ := matchHere_metadata_inv kw [] r.1 r.2 h
    simp at e

/-- The search finds nothing when no suffix matches, and otherwise reports
the match of the first suffix that matches. -/
theorem findStringSubmatch_leftmost (re : List Node) (line : List Char)
    (hnil : matchHere re [] = none) :
    (findStringSubmatch re line = [] ∧ ∀ a s, line = a ++ s → matchHere re s = none) ∨
    (∃ a s caps rest, line = a ++ s ∧ matchHere re s = some (caps, rest) ∧
      findStringSubmatch re line = s.take (s.length - rest.length) :: caps ∧
      ∀ a1 s1, line = a1 ++ s1 → a1.length < a.length → matchHere re s1 = none) := by
  induction line with
  | nil =>
    left
    refine ⟨by simp [findStringSubmatch, hnil], ?_⟩
    intro a s h
    have hs : s = [] := (List.append_eq_nil.mp h.symm).2
    rw [hs]; exact hnil
  | cons c cs ih =>
    cases hm : matchHere re (c :: cs) with
    | some r =>
      right
      refine ⟨[], c :: cs, r.1, r.2, rfl, hm, ?_, ?_⟩
      · simp only [findStringSubmatch, hm]
      · intro a1 s1 _ hlt
        simp at hlt
    | none =>
      have hf : findStringSubmatch re (c :: cs) = findStringSubmatch re cs := by
        simp only [findStringSubmatch, hm]
      rcases ih with ⟨h0, hall⟩ | ⟨a, s, caps, rest, e, hs, hfs, hleft⟩
      · left
        refine ⟨by rw [hf, h0], ?_⟩
        intro a s h
        cases a with
        | nil => rw [List.nil_append] at h; rw [← h]; exact hm
        | cons x a =>
          simp only [List.cons_append, List.cons.injEq] at h
          exact hall a s h.2
      · right
        refine ⟨c :: a, s, caps, rest, by rw [e]; rfl, hs, by rw [hf, hfs], ?_⟩
        intro a1 s1 h hlt
        cases a1 with
        | nil => rw [List.nil_append] at h; rw [← h]; exact hm
        | cons x a1 =>
          simp only [List.cons_append, List.cons.injEq] at h
          exact hleft a1 s1 h.2 (by simpa using hlt)

/-- C20: for the keywords TITLE and PERFORMER and every line without line
break, `extractMetadata` returns the empty string exactly when the line has no
occurrence of the keyword, one space, a double quote, at least one character
and a later double quote; and a non-empty result `v` stands in the line as
keyword, space, quote, `v`, quote, at the leftmost place where such an
occurrence exists, with no double quote after the closing one. -/
theorem extractMetadata_characterised (kw line : List Char)
    (_hkw : kw = "TITLE".toList ∨ kw = "PERFORMER".toList)
    (hline : ∀ x ∈ line, x ≠ '\n') :
    (extractMetadata kw line = [] ↔ ¬ ∃ a, quotedAt kw line a) ∧
    (extractMetadata kw line ≠ [] →
      ∃ a b, line = a ++ (kw ++ ' ' :: '"' :: (extractMetadata kw line ++ '"' :: b)) ∧
        (∀ y ∈ b, y ≠ '"') ∧ quotedAt kw line a ∧
        ∀ a1, quotedAt kw line a1 → a.length ≤ a1.length) := by
  have hocc : ∀ a1, quotedAt kw line a1 → ∀ s1, line = a1 ++ s1 →
      ∃ v rest, v ≠ [] ∧ (∀ y ∈ rest, y ≠ '"') ∧
        matchHere (metadataRegex kw) s1 = some ([v], rest) := by
    intro a1 ⟨c, m, b, e⟩ s1 e1
    have es : s1 = kw ++ ' ' :: '"' :: ((c :: m) ++ '"' :: b) :=
      List.append_cancel_left (e1.symm.trans e)
    have hn : ∀ x ∈ (c :: m) ++ '"' :: b, x ≠ '\n' := by
      intro x hx
      apply hline x
      rw [e]
      exact List.mem_append_right _ (List.mem_append_right _
        (List.mem_cons_of_mem _ (List.mem_cons_of_mem _ hx)))
    obtain ⟨v, rest, hv, hrest, _, hm⟩ := matchHere_metadata kw m b c hn
    exact ⟨v, rest, hv, hrest, by rw [es]; exact hm⟩
  rcases findStringSubmatch_leftmost (metadataRegex kw) line (matchHere_metadata_nil kw) with
    ⟨h0, hall⟩ | ⟨a, s, caps, rest, e, hs, hfs, hleft⟩
  · have hv : extractMetadata kw line = [] := by
      unfold extractMetadata; rw [h0]
    have hno : ¬ ∃ a, quotedAt kw line a := by
      intro ⟨a1, hq⟩
      obtain ⟨c, m, b, e⟩ := hq
      obtain ⟨v, rest, _, _, hm⟩ := hocc a1 ⟨c, m, b, e⟩ _ e
      rw [hall a1 _ e] at hm
      exact absurd hm (by simp)
    exact ⟨⟨fun _ => hno, fun _ => hv⟩, fun h => absurd hv h⟩
  · obtain ⟨v, hvne, hcaps, es⟩ := matchHere_metadata_inv kw s caps rest hs
    have hv : extractMetadata kw line = v := by
      unfold extractMetadata; rw [hfs, hcaps]
    have hq : quotedAt kw line a := by
      cases v with
      | nil => exact absurd rfl hvne
      | cons c m => exact ⟨c, m, rest, by rw [e, es]⟩
    have hrest : ∀ y ∈ rest, y ≠ '"' := by
      obtain ⟨v1, rest1, _, hr1, hm1⟩ := hocc a hq s e
      rw [hs] at hm1
      simp only [Option.some.injEq, Prod.mk.injEq] at hm1
      rw [hm1.2]; exact hr1
    refine ⟨⟨fun h => absurd (hv.symm.trans h) hvne, fun h => absurd ⟨a, hq⟩ h⟩, ?_⟩
    intro _
    refine ⟨a, rest, by rw [hv, e, es], hrest, hq, ?_⟩
    intro a1 hq1
    by_contra hlt
    obtain ⟨c, m, b, e1⟩ := hq1
    obtain ⟨v1, rest1, _, _, hm1⟩ := hocc a1 ⟨c, m, b, e1⟩ _ e1
    rw [hleft a1 _ e1 (by omega)] at hm1
    exact absurd hm1 (by simp)

set_option maxRecDepth 100000 in
/-- Witness of C20: on `\t\tTITLE "" TITLE "a" "b"` the first occurrence that
can be completed gives the value `" TITLE "a" "b`; on `TITLE ""` nothing can
be completed and the value is empty. -/
theorem extractMetadata_characterised_witness :
    extractMetadata "TITLE".toList "\t\tTITLE \"\" TITLE \"a\" \"b\"".toList =
      "\" TITLE \"a\" \"b".toList ∧
    extractMetadata "TITLE".toList "TITLE \"\"".toList = [] ∧
    ¬ ∃ a, quotedAt "TITLE".toList "TITLE \"\"".toList a :=
  ⟨by decide, by decide,
   (extractMetadata_characterised "TITLE".toList "TITLE \"\"".toList (Or.inl rfl)
     (by decide)).1.1 (by decide)⟩

/-- C11 (amended): for the keywords TITLE and PERFORMER and every line without
line break that holds, after a text without double quote, the keyword, a
space, a double quote, a non-empty text `v`, a double quote and then no
further double quote, `extractMetadata` returns `v`: the characters between
the opening double quote and the last double quote of the line. -/
theorem extractMetadata_last_quote (kw pre v rest : List Char)
    (hkw : kw = "TITLE".toList ∨ kw = "PERFORMER".toList)
    (hv : v ≠ []) (hvn : ∀ x ∈ v, x ≠ '\n')
    (hpre : ∀ x ∈ pre, x ≠ '"') (hrest : ∀ x ∈ rest, x ≠ '\n' ∧ x ≠ '"') :
    extractMetadata kw (pre ++ (kw ++ ' ' :: '"' :: (v ++ '"' :: rest))) = v := by
  have hkq : ∀ x ∈ kw ++ [' '], (x != '"') = true := by
    rcases hkw with h | h <;> rw [h] <;> decide
  have hm : matchHere (metadataRegex kw) (kw ++ ' ' :: '"' :: (v ++ '"' :: rest)) =
      some ([v], rest) := by
    unfold metadataRegex
    rw [matchHere_lits_append]
    simp only [matchHere, if_true]
    simpa [matchHere] using matchHere_dot_quote v rest hv hvn hrest
  unfold extractMetadata
  rw [findStringSubmatch_skip_eq, findStringSubmatch_of_match _ _ _ _ (by simp) hm]
  intro i hi
  rw [List.drop_append_of_le_length (by omega)]
  cases hmi : matchHere (metadataRegex kw)
      (pre.drop i ++ (kw ++ ' ' :: '"' :: (v ++ '"' :: rest))) with
  | none => rfl
  | some r =>
    exfalso
    obtain ⟨w, _, _, es⟩ := matchHere_metadata_inv kw _ r.1 r.2 hmi
    have es1 : (pre.drop i ++ (kw ++ [' '])) ++ '"' :: (v ++ '"' :: rest) =
        (kw ++ [' ']) ++ '"' :: (w ++ '"' :: r.2) := by
      simpa using es
    have hd : ∀ x ∈ pre.drop i ++ (kw ++ [' ']), (x != '"') = true := by
      intro x hx
      rcases List.mem_append.mp hx with h | h
      · simpa using hpre x (List.mem_of_mem_drop h)
      · exact hkq x h
    obtain ⟨h1, _, _⟩ := run_unique (fun x => x != '"') _ _ _ _ '"' '"' hd hkq
      (by decide) (by decide) es1
    have hl := congrArg List.length h1
    simp only [List.length_append, List.length_drop] at hl
    omega

set_option maxRecDepth 100000 in
/-- Witness of C11: the line `\t\tTITLE "Song Name"` gives `Song Name`. -/
theorem extractMetadata_last_quote_witness :
    "\t\t".toList ++ ("TITLE".toList ++ ' ' :: '"' :: ("Song Name".toList ++ '"' :: [])) =
      "\t\tTITLE \"Song Name\"".toList ∧
    extractMetadata "TITLE".toList "\t\tTITLE \"Song Name\"".toList = "Song Name".toList :=
  ⟨by decide,
   extractMetadata_last_quote "TITLE".toList "\t\t".toList "Song Name".toList []
     (Or.inl rfl) (by decide) (by decide) (by decide) (by decide)⟩

set_option maxRecDepth 100000 in
/-- Counterexample to C11 as stated: on the line `\t\tTITLE "a" x "b"` the
characters between the opening quote and the next quote are `a`, and
`extractMetadata` returns `a" x "b`. -/
theorem extractMetadata_not_next_quote :
    extractMetadata "TITLE".toList "\t\tTITLE \"a\" x \"b\"".toList = "a\" x \"b".toList ∧
    extractMetadata "TITLE".toList "\t\tTITLE \"a\" x \"b\"".toList ≠ "a".toList := by
  decide

/-! ## The normalizer carries no state from line to line -/

theorem fixLoop_token_irrelevant (fuel : Nat) (src tok tok1 out : List Char)
    (err : Option ScanError) (hfuel : 0 < fuel) :
    fixLoop fuel { src := src, token := tok, err := err } out =
      fixLoop fuel { src := src, token := tok1, err := err } out := by
  obtain ⟨f, rfl⟩ : ∃ f, fuel = f + 1 := ⟨fuel - 1, by omega⟩
  simp only [fixLoop, scan_token_irrelevant src tok tok1 err]

theorem fixLoop_state (fuel : Nat) (sc : Scanner) (out : List Char) :
    (fixLoop fuel sc out).1 = (fixLoop fuel sc []).1 := by
  induction fuel generalizing sc out with
  | zero => rfl
  | succ fuel ih =>
    simp only [fixLoop]
    rcases hs : sc.scan with ⟨ok, sc1⟩
    cases ok with
    | true =>
      simp only
      rw [ih sc1 (out ++ _), ih sc1 ([] ++ _)]
    | false => rfl

theorem getLast_line (l rest : List Char) (hrest : rest ≠ [])
    (h : (l ++ '\n' :: rest).getLast? = some '\n') : rest.getLast? = some '\n' := by
  obtain ⟨r0, b, hb⟩ : ∃ r0 b, rest = r0 ++ [b] := by
    rcases List.eq_nil_or_concat rest with h1 | ⟨r0, b, h1⟩
    · exact absurd h1 hrest
    · exact ⟨r0, b, by rw [h1, List.concat_eq_append]⟩
  rw [hb] at h ⊢
  have e : l ++ '\n' :: (r0 ++ [b]) = (l ++ '\n' :: r0) ++ [b] := by simp
  rw [e, List.getLast?_concat] at h
  rw [List.getLast?_concat]
  exact h

theorem mem_of_getLast (a : List Char) (c : Char) (h : a.getLast? = some c) : c ∈ a := by
  rcases List.eq_nil_or_concat a with h1 | ⟨r0, b, h1⟩
  · rw [h1] at h
    simp at h
  · rw [List.concat_eq_append] at h1
    rw [h1, List.getLast?_concat] at h
    simp only [Option.some.injEq] at h
    rw [h1, h]
    simp

/-- The loop of `fixCueSheet` on a text `a ++ b`, where `a` is made of
terminated lines that fit the buffer: the lines of `a` are written and the
loop goes on with `b`. -/
theorem fixLoop_append (fuel : Nat) (a b tok tok1 out : List Char)
    (ha : a = [] ∨ a.getLast? = some '\n')
    (hshort : ∀ l ∈ splitLines a, byteLen l < maxScanTokenSize)
    (hfuel : (a ++ b).length < fuel) :
    fixLoop fuel { src := a ++ b, token := tok, err := none } out =
      fixLoop fuel { src := b, token := tok1, err := none }
        (out ++ unlines ((splitLines a).map fun l => rewriteLine (dropCR l))) := by
  induction fuel generalizing a tok out with
  | zero => omega
  | succ fuel ih =>
    by_cases hnil : a = []
    · rw [hnil, List.nil_append]
      simp only [splitLines, List.map_nil, unlines, List.append_nil]
      exact fixLoop_token_irrelevant _ b tok tok1 out none (by omega)
    · have hlast : a.getLast? = some '\n' := by
        rcases ha with h | h
        · exact absurd h hnil
        · exact h
      rcases line_cases a with hl | ⟨l, rest, he, hl⟩
      · exfalso
        exact hl '\n' (mem_of_getLast a '\n' hlast) rfl
      · have hsp := splitLines_line_cons l rest hl
        have hb : byteLen l < maxScanTokenSize := hshort l (by rw [he, hsp]; simp)
        have hrest : rest = [] ∨ rest.getLast? = some '\n' := by
          by_cases hr : rest = []
          · exact Or.inl hr
          · exact Or.inr (getLast_line l rest hr (by rw [← he]; exact hlast))
        have e : a ++ b = l ++ '\n' :: (rest ++ b) := by rw [he]; simp
        have hlen : (rest ++ b).length < fuel := by
          rw [e] at hfuel
          simp only [List.length_append, List.length_cons] at hfuel ⊢
          omega
        have hblen : b.length < fuel := by
          simp only [List.length_append] at hlen
          omega
        rw [e, fixLoop, scan_line l (rest ++ b) tok hl hb]
        simp only
        rw [ih rest (dropCR l) _ hrest
          (fun m hm => hshort m (by rw [he, hsp]; simp [hm])) hlen,
          fixLoop_fuel fuel 1 _ _ hblen, he, hsp]
        simp [unlines]

/-! ## Records and header lines -/

theorem after_after (a b : List TrackInfo) (r : ParseResult) :
    ParseResult.after a (ParseResult.after b r) = ParseResult.after (a ++ b) r := by
  cases r with
  | panic => rfl
  | ret ts e => simp [ParseResult.after]

/-- The records found so far stay in front of those the loop adds. -/
theorem parseLines_after (n : Nat) (ls : List (List Char)) (acc : List TrackInfo)
    (hn : ls.length ≤ n) :
    parseLines ls acc = ParseResult.after acc (parseLines ls []) := by
  induction n generalizing ls acc with
  | zero =>
    have : ls = [] := List.length_eq_zero.mp (Nat.le_zero.mp hn)
    rw [this]
    simp [parseLines, ParseResult.after]
  | succ n ih =>
    cases ls with
    | nil => simp [parseLines, ParseResult.after]
    | cons l rest =>
      rw [parseLines, parseLines]
      split
      · cases hf : (fields (dropCR l))[1]? with
        | none => rfl
        | some num =>
          simp only
          match rest, hn with
          | [], _ => simp [ParseResult.after]
          | [t], _ => simp [ParseResult.after]
          | t :: p :: rest1, hn1 =>
            simp only
            have hlen : rest1.length ≤ n := by simp at hn1; omega
            rw [ih rest1 (acc ++ _) hlen, ih rest1 ([] ++ _) hlen, after_after,
              List.nil_append]
      · exact ih rest acc (by simp at hn; omega)

theorem headerNumbers_cons_header (l : List Char) (rest : List (List Char)) (num : List Char)
    (hp : hasPrefix (dropCR l) "\tTRACK".toList = true)
    (hf : (fields (dropCR l))[1]? = some num) :
    headerNumbers (l :: rest) = num :: headerNumbers rest := by
  rw [hasPrefix_dropCR] at hp
  unfold headerNumbers
  rw [List.filterMap_cons_some]
  simp only [hp, if_true, hf]

theorem headerNumbers_cons_other (l : List Char) (rest : List (List Char))
    (hp : ¬ hasPrefix (dropCR l) "\tTRACK".toList = true) :
    headerNumbers (l :: rest) = headerNumbers rest := by
  rw [hasPrefix_dropCR] at hp
  unfold headerNumbers
  rw [List.filterMap_cons_none]
  simp only [hp, if_false]
  rfl

theorem parseLines_numbers (n : Nat) (ls : List (List Char)) (hn : ls.length ≤ n) :
    ((parseLines ls []).records.map fun t => t.TrackNumber).Sublist (headerNumbers ls) := by
  induction n generalizing ls with
  | zero =>
    have : ls = [] := List.length_eq_zero.mp (Nat.le_zero.mp hn)
    rw [this]
    simp [parseLines, ParseResult.records]
  | succ n ih =>
    cases ls with
    | nil => simp [parseLines, ParseResult.records]
    | cons l rest =>
      rw [parseLines]
      split
      · next hp =>
        cases hf : (fields (dropCR l))[1]? with
        | none => simp [ParseResult.records]
        | some num =>
          rw [headerNumbers_cons_header l rest num hp hf]
          simp only
          match rest, hn with
          | [], _ => simp [ParseResult.records, headerNumbers]
          | [t], _ => simp [ParseResult.records]
          | t :: p :: rest1, hn1 =>
            simp only
            have hlen : rest1.length ≤ n := by simp at hn1; omega
            rw [parseLines_after _ rest1 _ (le_refl _)]
            have hsub : (headerNumbers rest1).Sublist (headerNumbers (t :: p :: rest1)) :=
              List.Sublist.filterMap _
                ((List.sublist_cons_self p rest1).trans (List.sublist_cons_self t _))
            have h1 := (ih rest1 hlen).trans hsub
            cases hr : parseLines rest1 [] with
            | panic => simp [ParseResult.after, ParseResult.records]
            | ret ts e =>
              rw [hr] at h1
              simpa [ParseResult.after, ParseResult.records] using h1
      · next hp =>
        rw [headerNumbers_cons_other l rest hp]
        exact ih rest (by simp at hn; omega)

/-- C16 (amended): on a sheet in which every line is shorter than 65536
bytes, `parseCueSheet` starts a record for a line only if the line starts
with a tab and the letters `TRACK`, whatever follows them, and has a second
white-space-delimited field, which is the number of the record: the numbers
of the records are, in order, second fields of distinct such lines.  For a
line `<tab>TRACK n ...` that field is `n`, the first field after `TRACK`. -/
theorem parseCueSheet_numbers (input : List Char)
    (hshort : ∀ l ∈ splitLines input, byteLen l < maxScanTokenSize) :
    ((parseCueSheet input).records.map fun t => t.TrackNumber).Sublist
        (headerNumbers (splitLines input)) ∧
      ∀ n r : List Char, n ≠ [] → (∀ x ∈ n, isSpace x = false) → spaceAhead r = true →
        headerNumbers ["\tTRACK ".toList ++ (n ++ r)] = [n] := by
  refine ⟨?_, ?_⟩
  · rw [parseCueSheet_short input hshort]
    exact parseLines_numbers _ _ (le_refl _)
  · intro n r hne hn hr
    obtain ⟨hp, hf⟩ := header_recognised n r hne hn hr
    rw [headerNumbers_cons_header _ [] n hp hf]
    rfl

set_option maxRecDepth 100000 in
/-- Witness of C16: of the lines `<tab>TRACKS 1 2`, `<tab><tab>TRACK 5` and
`<tab>TRACK 07 AUDIO` the first starts the record `1` and the third, read as
its performer line, starts none. -/
theorem parseCueSheet_numbers_witness :
    (∀ l ∈ splitLines "\tTRACKS 1 2\n\t\tTRACK 5\n\tTRACK 07 AUDIO\n".toList,
      byteLen l < maxScanTokenSize) ∧
    headerNumbers (splitLines "\tTRACKS 1 2\n\t\tTRACK 5\n\tTRACK 07 AUDIO\n".toList) =
      ["1".toList, "07".toList] ∧
    ((parseCueSheet "\tTRACKS 1 2\n\t\tTRACK 5\n\tTRACK 07 AUDIO\n".toList).records.map
      fun t => t.TrackNumber).Sublist
        (headerNumbers (splitLines "\tTRACKS 1 2\n\t\tTRACK 5\n\tTRACK 07 AUDIO\n".toList)) :=
  ⟨by decide, by decide,
   (parseCueSheet_numbers "\tTRACKS 1 2\n\t\tTRACK 5\n\tTRACK 07 AUDIO\n".toList
     (by decide)).1⟩

set_option maxRecDepth 100000 in
/-- Counterexample to C16 as stated: the line `<tab>TRACKS 1 2`, where `TRACK`
is not followed by white space, starts a record, with the number `1`; so does
`<tab>TRACK01 x`, with the number `x`. -/
theorem parseCueSheet_tracks_line :
    parseCueSheet "\tTRACKS 1 2\n".toList =
      ParseResult.ret [⟨"1".toList, [], [], []⟩] none ∧
    parseCueSheet "\tTRACK01 x\n".toList =
      ParseResult.ret [⟨"x".toList, [], [], []⟩] none := by
  decide

/-! ## The two lines after a header -/

/-- C15 (amended): on a sheet in which every line is shorter than 65536
bytes, the two lines `t` and `p` that follow a header line the loop
recognises (a line `h` with tab+`TRACK` and a second field `n`, standing after
lines without tab+`TRACK` and whole track blocks) are consumed as the title
and performer lines of its record whatever they hold, also when they start
with tab+`TRACK`: the result is the earlier records, then the record of `h`
with the values found in `t` and `p`, then what the lines after `p` give on
their own. -/
theorem parseCueSheet_consumes (input : List Char) (pre : List (List Char))
    (blocks : List Block) (h t p : List Char) (rest : List (List Char)) (n : List Char)
    (hpre : ∀ l ∈ pre, hasPrefix l "\tTRACK".toList = false)
    (hwf : ∀ b ∈ blocks, b.wellFormed = true)
    (hp : hasPrefix h "\tTRACK".toList = true)
    (hf : (fields (dropCR h))[1]? = some n)
    (hin : splitLines input = pre ++ (blocks.flatMap Block.lines ++ h :: t :: p :: rest))
    (hshort : ∀ l ∈ splitLines input, byteLen l < maxScanTokenSize) :
    parseCueSheet input =
      ParseResult.after
        (blocks.map Block.record ++
          [⟨n, extractMetadata "TITLE".toList (dropCR t),
            extractMetadata "PERFORMER".toList (dropCR p), []⟩])
        (parseCueSheet (unlines rest)) := by
  have hmem : ∀ l ∈ rest, l ∈ splitLines input := by
    intro l hl
    rw [hin]
    simp [hl]
  have hsp : splitLines (unlines rest) = rest :=
    splitLines_unlines rest (fun l hl => splitLines_noNewline input l (hmem l hl))
  have hrest : parseCueSheet (unlines rest) = parseLines rest [] := by
    rw [parseCueSheet_short (unlines rest) (by rw [hsp]; exact fun l hl => hshort l (hmem l hl)),
      hsp]
  have hp1 : hasPrefix (dropCR h) "\tTRACK".toList = true := by
    rw [hasPrefix_dropCR]; exact hp
  rw [hrest, parseCueSheet_short input hshort, hin,
    parseLines_sheet pre blocks _ hpre hwf, parseLines, hp1]
  simp only [if_true, hf]
  exact parseLines_after _ rest _ (le_refl _)

set_option maxRecDepth 100000 in
/-- Witness of C15: three consecutive header lines give exactly one record,
with the number `01` and empty title and performer. -/
theorem parseCueSheet_consumes_witness :
    splitLines "\tTRACK 01 AUDIO\n\tTRACK 02 AUDIO\n\tTRACK 03 AUDIO\n".toList =
      [] ++ (([] : List Block).flatMap Block.lines ++
        "\tTRACK 01 AUDIO".toList :: "\tTRACK 02 AUDIO".toList ::
          "\tTRACK 03 AUDIO".toList :: []) ∧
    parseCueSheet "\tTRACK 01 AUDIO\n\tTRACK 02 AUDIO\n\tTRACK 03 AUDIO\n".toList =
      ParseResult.ret [⟨"01".toList, [], [], []⟩] none :=
  ⟨by decide,
   (parseCueSheet_consumes "\tTRACK 01 AUDIO\n\tTRACK 02 AUDIO\n\tTRACK 03 AUDIO\n".toList
     [] [] "\tTRACK 01 AUDIO".toList "\tTRACK 02 AUDIO".toList "\tTRACK 03 AUDIO".toList []
     "01".toList (by decide) (by decide) (by decide) (by decide) (by decide)
     (by decide)).trans (by decide)⟩

/-- A header line, a title line, and a performer line that fills the buffer
of the scanner: the performer scan fails, and the next scan of the loop
delivers the buffered start of that line, which starts a record when it
begins with tab+`TRACK`. -/
theorem parseCueSheet_performer_tooLong (h t c rest n n2 : List Char)
    (hh : ∀ x ∈ h, x ≠ '\n') (hs : byteLen h < maxScanTokenSize)
    (hp : hasPrefix (dropCR h) "\tTRACK".toList = true)
    (hf : (fields (dropCR h))[1]? = some n)
    (ht : ∀ x ∈ t, x ≠ '\n') (hts : byteLen t < maxScanTokenSize)
    (hc : ∀ x ∈ c, x ≠ '\n' ∧ x.utf8Size = 1)
    (hlen : c.length = maxScanTokenSize)
    (hcp : hasPrefix (dropCR c) "\tTRACK".toList = true)
    (hcf : (fields (dropCR c))[1]? = some n2) :
    parseCueSheet (h ++ '\n' :: (t ++ '\n' :: (c ++ rest))) =
      ParseResult.ret [⟨n, extractMetadata "TITLE".toList (dropCR t), [], []⟩,
        ⟨n2, [], [], []⟩] (some ScanError.tooLong) := by
  have hnl : ∀ x ∈ c, x ≠ '\n' := fun x hx => (hc x hx).1
  have hasc : ∀ x ∈ c, x.utf8Size = 1 := fun x hx => (hc x hx).2
  have hchunk : takeBytes maxScanTokenSize (c ++ rest) = c := by
    rw [takeBytes_ascii c rest _ hasc (by omega), List.take_of_length_le (by omega)]
  have hcne : c ≠ [] := by
    intro h0
    rw [h0] at hlen
    exact absurd hlen (by decide)
  obtain ⟨f, hfuel⟩ : ∃ f, (h ++ '\n' :: (t ++ '\n' :: (c ++ rest))).length + 1 = f + 3 := by
    refine ⟨h.length + t.length + (c ++ rest).length, ?_⟩
    simp only [List.length_append, List.length_cons]
    omega
  unfold parseCueSheet newScanner
  rw [hfuel, parseLoop, scan_line h _ [] hh hs]
  simp only [hp, if_true, hf]
  rw [scan_line t _ (dropCR h) ht hts]
  simp only
  rw [scan_tooLong c rest (dropCR t) hnl (by rw [byteLen_ascii c hasc]; omega), hchunk]
  simp only
  rw [parseLoop, scan_after_tooLong c [] hcne hnl]
  simp only [hcp, if_true, hcf, scan_nil, extractMetadata_nil, parseLoop, List.nil_append,
    List.cons_append]

set_option maxRecDepth 100000 in
/-- Counterexample to C15 as stated: the second line after the header
`<tab>TRACK 1` is `<tab>TRACK 2 ` followed by 65527 letters, 65536 bytes in
all; it gives the first record no performer and starts a record of its own,
with the number `2`. -/
theorem parseCueSheet_performer_line_starts_record :
    parseCueSheet ("\tTRACK 1".toList ++ '\n' :: ("\t\tTITLE \"A\"".toList ++ '\n' ::
      (("\tTRACK ".toList ++ ("2".toList ++ ' ' :: List.replicate 65527 'x')) ++
        "\n".toList))) =
      ParseResult.ret [⟨"1".toList, "A".toList, [], []⟩, ⟨"2".toList, [], [], []⟩]
        (some ScanError.tooLong) := by
  obtain ⟨hcp, hcf⟩ := header_recognised "2".toList (' ' :: List.replicate 65527 'x')
    (by decide) (by decide) rfl
  have hc : ∀ x ∈ "\tTRACK ".toList ++ ("2".toList ++ ' ' :: List.replicate 65527 'x'),
      x ≠ '\n' ∧ x.utf8Size = 1 := by
    intro x hx
    rcases List.mem_append.mp hx with h | h
    · have h0 : ∀ y ∈ "\tTRACK ".toList, y ≠ '\n' ∧ y.utf8Size = 1 := by decide
      exact h0 x h
    · rcases List.mem_append.mp h with h | h
      · have h0 : ∀ y ∈ "2".toList, y ≠ '\n' ∧ y.utf8Size = 1 := by decide
        exact h0 x h
      · rcases List.mem_cons.mp h with h | h
        · rw [h]; decide
        · rw [(List.mem_replicate.mp h).2]; decide
  have hlen : ("\tTRACK ".toList ++ ("2".toList ++ ' ' :: List.replicate 65527 'x')).length =
      maxScanTokenSize := by
    rw [List.length_append, List.length_append, List.length_cons, List.length_replicate]
    decide
  have e := parseCueSheet_performer_tooLong "\tTRACK 1".toList "\t\tTITLE \"A\"".toList
    ("\tTRACK ".toList ++ ("2".toList ++ ' ' :: List.replicate 65527 'x')) "\n".toList
    "1".toList "2".toList (by decide) (by decide) (by decide) (by decide) (by decide)
    (by decide) hc hlen hcp hcf
  rw [e]
  have e1 : extractMetadata "TITLE".toList (dropCR "\t\tTITLE \"A\"".toList) = "A".toList := by
    decide
  rw [e1]

/-! ## The output file -/

theorem writeString_text (w : Writer) (s : List Char) :
    (w.writeString s).text = w.text ++ s := by
  unfold Writer.writeString
  split_ifs <;> rfl

/-- The loop with the writer scans as the loop of `fixCueSheet` does and
hands the same text to the writer. -/
theorem writeLoop_fixLoop (fuel : Nat) (sc : Scanner) (w : Writer) :
    (writeLoop fuel sc w).1 = (fixLoop fuel sc w.text).1 ∧
      (writeLoop fuel sc w).2.text = (fixLoop fuel sc w.text).2 := by
  induction fuel generalizing sc w with
  | zero => exact ⟨rfl, rfl⟩
  | succ fuel ih =>
    simp only [writeLoop, fixLoop]
    rcases hs : sc.scan with ⟨ok, sc1⟩
    cases ok with
    | true =>
      have h := ih sc1 (w.writeString (rewriteLine sc1.token ++ ['\n']))
      rw [writeString_text] at h
      exact h
    | false => exact ⟨rfl, rfl⟩

theorem takeBytes_byteLen (s : List Char) : takeBytes (byteLen s) s = s := by
  induction s with
  | nil => rfl
  | cons c cs ih =>
    have e : byteLen (c :: cs) = c.utf8Size + byteLen cs := by
      simp [byteLen]
    rw [e, takeBytes, if_pos (by omega), Nat.add_sub_cancel_left, ih]

theorem takeBytes_zero (s : List Char) : takeBytes 0 s = [] := by
  cases s with
  | nil => rfl
  | cons c cs =>
    have := Char.utf8Size_pos c
    rw [takeBytes, if_neg (by omega)]
    rfl

/-- When `fixCueSheet` returns no error the output file holds all the text
handed to the writer. -/
theorem outputFile_of_no_error (input : List Char) (h : (fixCueSheet input).err = none) :
    outputFile input = (fixCueSheet input).written := by
  have hl := writeLoop_fixLoop (input.length + 1) (newScanner input) newWriter
  unfold outputFile
  unfold fixCueSheet at h ⊢
  have ht : newWriter.text = [] := rfl
  rw [ht] at hl
  rcases hw : writeLoop (input.length + 1) (newScanner input) newWriter with ⟨sc, w⟩
  rcases hf : fixLoop (input.length + 1) (newScanner input) [] with ⟨sc1, out⟩
  rw [hw, hf] at hl
  rw [hf] at h
  simp only at hl h ⊢
  rw [hl.1, h]
  simp only [Writer.flush, Writer.file]
  rw [takeBytes_byteLen, hl.2]

theorem outputFile_short (input : List Char)
    (hshort : ∀ l ∈ splitLines input, byteLen l < maxScanTokenSize) :
    outputFile input = unlines ((splitLines input).map fun l => rewriteLine (dropCR l)) := by
  have h := fixCueSheet_short input hshort
  rw [outputFile_of_no_error input (by rw [h]), h]

/-- A first line that does not fit the buffer of the scanner: the output file
stays empty. -/
theorem outputFile_tooLong_first (l rest : List Char) (hl : ∀ x ∈ l, x ≠ '\n')
    (hlong : maxScanTokenSize ≤ byteLen l) : outputFile (l ++ rest) = [] := by
  unfold outputFile newScanner
  simp only [writeLoop, scan_tooLong l rest [] hl hlong]
  rfl

/-- A short first line and a second line that does not fit the buffer of the
scanner: the first line is still in the buffer of the writer when the function
returns, and the output file stays empty. -/
theorem outputFile_tooLong_second (l1 l2 rest : List Char)
    (hl1 : ∀ x ∈ l1, x ≠ '\n') (hs1 : byteLen l1 < maxScanTokenSize)
    (hl2 : ∀ x ∈ l2, x ≠ '\n') (hlong : maxScanTokenSize ≤ byteLen l2)
    (hfit : byteLen (rewriteLine (dropCR l1) ++ ['\n']) ≤ defaultBufSize) :
    outputFile (l1 ++ '\n' :: (l2 ++ rest)) = [] := by
  obtain ⟨f, hf⟩ : ∃ f, (l1 ++ '\n' :: (l2 ++ rest)).length = f + 1 :=
    ⟨l1.length + (l2 ++ rest).length, by simp; omega⟩
  have hb : newWriter.buffered = 0 := rfl
  unfold outputFile newScanner
  rw [hf]
  simp only [writeLoop, scan_line l1 (l2 ++ rest) [] hl1 hs1,
    scan_tooLong l2 rest (dropCR l1) hl2 hlong]
  unfold Writer.writeString
  rw [hb, if_pos (by omega)]
  exact takeBytes_zero _

theorem scannedLines_tooLong_second (l1 l2 rest : List Char)
    (hl1 : ∀ x ∈ l1, x ≠ '\n') (hs1 : byteLen l1 < maxScanTokenSize)
    (hl2 : ∀ x ∈ l2, x ≠ '\n') (hlong : maxScanTokenSize ≤ byteLen l2) :
    scannedLines (l1 ++ '\n' :: (l2 ++ rest)) = [dropCR l1] := by
  obtain ⟨f, hf⟩ : ∃ f, (l1 ++ '\n' :: (l2 ++ rest)).length = f + 1 :=
    ⟨l1.length + (l2 ++ rest).length, by simp; omega⟩
  unfold scannedLines newScanner
  rw [hf]
  simp only [scanAll, scan_line l1 (l2 ++ rest) [] hl1 hs1,
    scan_tooLong l2 rest (dropCR l1) hl2 hlong]

/-- C3 (amended): for every input text in which every line is shorter than
65536 bytes, a line the scanner of `fixCueSheet` delivers (the i-th one) that
holds no match of the `INDEX 01` pattern is, all its characters kept, the i-th
line of the output file. -/
theorem outputFile_passthrough (input : List Char) (i : Nat) (l : List Char)
    (hshort : ∀ l ∈ splitLines input, byteLen l < maxScanTokenSize)
    (hl : (scannedLines input)[i]? = some l)
    (hno : findStringSubmatch indexRegex l = []) :
    (splitLines (outputFile input))[i]? = some l := by
  have h := fixCueSheet_short input hshort
  rw [outputFile_of_no_error input (by rw [h]), fixCueSheet_written, splitLines_unlines]
  · rw [List.getElem?_map, hl, Option.map_some', rewriteLine_noMatch l hno]
  · intro m hm
    obtain ⟨t, ht, rfl⟩ := List.mem_map.mp hm
    exact rewriteLine_noNewline t (scanAll_noNewline _ _ t ht)

set_option maxRecDepth 100000 in
/-- Witness of C3: the line `  REM x  ` between two other lines. -/
theorem outputFile_passthrough_witness :
    (∀ l ∈ splitLines "\tINDEX 01 01:30:12\n  REM x  \r\nabc".toList,
      byteLen l < maxScanTokenSize) ∧
    (scannedLines "\tINDEX 01 01:30:12\n  REM x  \r\nabc".toList)[1]? = some "  REM x  ".toList ∧
      findStringSubmatch indexRegex "  REM x  ".toList = [] ∧
      (splitLines (outputFile "\tINDEX 01 01:30:12\n  REM x  \r\nabc".toList))[1]? =
        some "  REM x  ".toList :=
  ⟨by decide, by decide, by decide,
    outputFile_passthrough "\tINDEX 01 01:30:12\n  REM x  \r\nabc".toList 1 "  REM x  ".toList
      (by decide) (by decide) (by decide)⟩

set_option maxRecDepth 100000 in
/-- Counterexample to C3 as stated: on the line `abc` followed by a line of
65536 letters the scanner delivers `abc`, which holds no match, and then
fails; `fixCueSheet` returns before the writer is flushed and the output file
is empty, so it has no line `abc`. -/
theorem outputFile_passthrough_tooLong :
    (scannedLines ("abc".toList ++ '\n' :: (List.replicate 65536 'x' ++ [])))[0]? =
      some "abc".toList ∧
    findStringSubmatch indexRegex "abc".toList = [] ∧
    outputFile ("abc".toList ++ '\n' :: (List.replicate 65536 'x' ++ [])) = [] ∧
    (splitLines (outputFile ("abc".toList ++ '\n' :: (List.replicate 65536 'x' ++ []))))[0]? ≠
      some "abc".toList := by
  have hl : ∀ x ∈ List.replicate 65536 'x', x ≠ '\n' := by
    intro x hx
    rw [(List.mem_replicate.mp hx).2]
    decide
  have hb : maxScanTokenSize ≤ byteLen (List.replicate 65536 'x') := by
    rw [byteLen_replicate 65536 'x' (by decide)]; decide
  have ho := outputFile_tooLong_second "abc".toList (List.replicate 65536 'x') []
    (by decide) (by decide) hl hb (by decide)
  have hs := scannedLines_tooLong_second "abc".toList (List.replicate 65536 'x') []
    (by decide) (by decide) hl hb
  refine ⟨?_, by decide, ho, ?_⟩
  · rw [hs]
    decide
  · rw [ho]
    decide

/-! ## Running the normalizer on its own output -/

/-- C4 (amended): for every input text `x` in which every line is shorter
than 65536 bytes, no line of the output file `normalize(x)` contains a match
of the `INDEX 01 digits:digits:digits` pattern; and when every line of
`normalize(x)` is shorter than 65536 bytes and none ends with a carriage
return, running the normalizer on `normalize(x)` returns no error and leaves
it unchanged, byte for byte. -/
theorem outputFile_idempotent (x : List Char)
    (hshort : ∀ l ∈ splitLines x, byteLen l < maxScanTokenSize) :
    (∀ l ∈ splitLines (outputFile x), findStringSubmatch indexRegex l = []) ∧
      ((∀ l ∈ splitLines (outputFile x),
          byteLen l < maxScanTokenSize ∧ l.getLast? ≠ some '\r') →
        (fixCueSheet (outputFile x)).err = none ∧
          outputFile (outputFile x) = outputFile x) := by
  have hx := outputFile_short x hshort
  have hnl : ∀ l ∈ (splitLines x).map (fun l => rewriteLine (dropCR l)), ∀ c ∈ l, c ≠ '\n' :=
    rewritten_noNewline _ (splitLines_noNewline x)
  have hsp : splitLines (outputFile x) =
      (splitLines x).map (fun l => rewriteLine (dropCR l)) := by
    rw [hx, splitLines_unlines _ hnl]
  have hnm : ∀ l ∈ splitLines (outputFile x), findStringSubmatch indexRegex l = [] := by
    intro l hl
    rw [hsp] at hl
    obtain ⟨t, _, rfl⟩ := List.mem_map.mp hl
    exact rewriteLine_noMatch_left _
  refine ⟨hnm, fun h => ?_⟩
  have hs2 := fixCueSheet_short (outputFile x) (fun l hl => (h l hl).1)
  have hid : (splitLines (outputFile x)).map (fun l => rewriteLine (dropCR l)) =
      splitLines (outputFile x) := by
    conv_rhs => rw [← List.map_id (splitLines (outputFile x))]
    apply List.map_congr_left
    intro l hl
    rw [dropCR_of_last l (h l hl).2, rewriteLine_noMatch l (hnm l hl)]
    rfl
  refine ⟨by rw [hs2], ?_⟩
  rw [outputFile_short (outputFile x) (fun l hl => (h l hl).1), hid, hsp, ← hx]

set_option maxRecDepth 100000 in
/-- Witness of C4: a sheet with one timestamp line and CR LF line ends. -/
theorem outputFile_idempotent_witness :
    (∀ l ∈ splitLines "FILE x\r\n\tINDEX 01 01:30:12\r\nabc".toList,
        byteLen l < maxScanTokenSize) ∧
    (∀ l ∈ splitLines (outputFile "FILE x\r\n\tINDEX 01 01:30:12\r\nabc".toList),
        byteLen l < maxScanTokenSize ∧ l.getLast? ≠ some '\r') ∧
    outputFile "FILE x\r\n\tINDEX 01 01:30:12\r\nabc".toList =
      "FILE x\n\tINDEX 01 90:12.000\nabc\n".toList ∧
    outputFile (outputFile "FILE x\r\n\tINDEX 01 01:30:12\r\nabc".toList) =
      outputFile "FILE x\r\n\tINDEX 01 01:30:12\r\nabc".toList :=
  ⟨by decide, by decide, by decide,
    ((outputFile_idempotent "FILE x\r\n\tINDEX 01 01:30:12\r\nabc".toList (by decide)).2
      (by decide)).2⟩

set_option maxRecDepth 100000 in
/-- Counterexample to C4 as stated: the output file for `a\r\r\n` is `a\r\n`
and the output file for that is `a\n`; and the output file for a line of
65535 bytes with one timestamp is a line of 65538 bytes, on which the
normalizer fails with `ErrTooLong` and leaves an empty file. -/
theorem outputFile_not_idempotent :
    (outputFile "a\r\r\n".toList = "a\r\n".toList ∧
      outputFile (outputFile "a\r\r\n".toList) = "a\n".toList ∧
      outputFile (outputFile "a\r\r\n".toList) ≠ outputFile "a\r\r\n".toList) ∧
    (outputFile ("INDEX 01 1:2:3".toList ++ List.replicate 65521 'a') =
        "INDEX 01 62:3.000".toList ++ (List.replicate 65521 'a' ++ ['\n']) ∧
      outputFile ("INDEX 01 62:3.000".toList ++ (List.replicate 65521 'a' ++ ['\n'])) = [] ∧
      "INDEX 01 62:3.000".toList ++ (List.replicate 65521 'a' ++ ['\n']) ≠ []) := by
  have hg := fixCueSheet_grows
  refine ⟨by decide, ?_, ?_, List.append_ne_nil_of_left_ne_nil (by decide) _⟩
  · rw [outputFile_of_no_error _ (by rw [hg.1]), hg.1]
  · have hl : ∀ x ∈ "INDEX 01 62:3.000".toList ++ List.replicate 65521 'a', x ≠ '\n' := by
      intro x hx
      rcases List.mem_append.mp hx with h | h
      · have h0 : ∀ y ∈ "INDEX 01 62:3.000".toList, y ≠ '\n' := by decide
        exact h0 x h
      · rw [(List.mem_replicate.mp h).2]
        decide
    have h := outputFile_tooLong_first
      ("INDEX 01 62:3.000".toList ++ List.replicate 65521 'a') ['\n'] hl
      (by rw [byteLen_append, byteLen_replicate 65521 'a' (by decide)]; decide)
    rw [List.append_assoc] at h
    exact h

/-! ## The output file of a text made of two parts -/

/-- The text handed to the writer for `a ++ b`, where `a` is made of
terminated lines that fit the buffer of the scanner. -/
theorem fixCueSheet_written_append (a b : List Char)
    (ha : a = [] ∨ a.getLast? = some '\n')
    (hshort : ∀ l ∈ splitLines a, byteLen l < maxScanTokenSize) :
    (fixCueSheet (a ++ b)).written = (fixCueSheet a).written ++ (fixCueSheet b).written ∧
      (fixCueSheet (a ++ b)).err = (fixCueSheet b).err := by
  have hfuel : (a ++ b).length + 1 = (b.length + 1) + a.length := by
    simp only [List.length_append]
    omega
  have hloop : fixLoop ((a ++ b).length + 1) (newScanner (a ++ b)) [] =
      fixLoop (b.length + 1) (newScanner b)
        (unlines ((splitLines a).map fun l => rewriteLine (dropCR l))) := by
    unfold newScanner
    rw [fixLoop_append _ a b [] [] [] ha hshort (by omega), hfuel,
      fixLoop_fuel (b.length + 1) a.length _ _ (by simp), List.nil_append]
  have hw := fixLoop_written (b.length + 1) (newScanner b)
    (unlines ((splitLines a).map fun l => rewriteLine (dropCR l)))
  have hs := fixLoop_state (b.length + 1) (newScanner b)
    (unlines ((splitLines a).map fun l => rewriteLine (dropCR l)))
  have hb := fixCueSheet_written b
  have hA := fixCueSheet_short a hshort
  constructor
  · rw [hA, hb]
    unfold fixCueSheet
    rw [hloop]
    exact hw
  · unfold fixCueSheet
    rw [hloop]
    exact congrArg Scanner.err hs

/-- C17 (amended): for all texts `a` and `b` where `a` is empty or ends with
a line feed and every line of `a` and of `b` is shorter than 65536 bytes, the
normalizer returns no error on `a ++ b` and the output file for `a ++ b` is
the output file for `a` followed by the output file for `b`. -/
theorem outputFile_append (a b : List Char)
    (ha : a = [] ∨ a.getLast? = some '\n')
    (hshorta : ∀ l ∈ splitLines a, byteLen l < maxScanTokenSize)
    (hshortb : ∀ l ∈ splitLines b, byteLen l < maxScanTokenSize) :
    outputFile (a ++ b) = outputFile a ++ outputFile b ∧
      (fixCueSheet (a ++ b)).err = none := by
  have h := fixCueSheet_written_append a b ha hshorta
  have hA := fixCueSheet_short a hshorta
  have hB := fixCueSheet_short b hshortb
  have herr : (fixCueSheet (a ++ b)).err = none := by rw [h.2, hB]
  refine ⟨?_, herr⟩
  rw [outputFile_of_no_error _ herr, outputFile_of_no_error a (by rw [hA]),
    outputFile_of_no_error b (by rw [hB]), h.1]

set_option maxRecDepth 100000 in
/-- Witness of C17: two lines followed by a line without line feed. -/
theorem outputFile_append_witness :
    ("a\r\n\tINDEX 01 1:2:3\n".toList = [] ∨
      "a\r\n\tINDEX 01 1:2:3\n".toList.getLast? = some '\n') ∧
    (∀ l ∈ splitLines "a\r\n\tINDEX 01 1:2:3\n".toList, byteLen l < maxScanTokenSize) ∧
    (∀ l ∈ splitLines "INDEX 01 0:0:1".toList, byteLen l < maxScanTokenSize) ∧
    outputFile ("a\r\n\tINDEX 01 1:2:3\n".toList ++ "INDEX 01 0:0:1".toList) =
      outputFile "a\r\n\tINDEX 01 1:2:3\n".toList ++ outputFile "INDEX 01 0:0:1".toList ∧
    outputFile ("a\r\n\tINDEX 01 1:2:3\n".toList ++ "INDEX 01 0:0:1".toList) =
      "a\n\tINDEX 01 62:3.000\nINDEX 01 00:1.000\n".toList :=
  ⟨by decide, by decide, by decide,
   (outputFile_append "a\r\n\tINDEX 01 1:2:3\n".toList "INDEX 01 0:0:1".toList
     (by decide) (by decide) (by decide)).1, by decide⟩

set_option maxRecDepth 100000 in
/-- Counterexample to C17 as stated: with `a` the line `abc` and `b` a line of
65536 letters the output file for `a ++ b` is empty and the one for `a` is
not; with `a` a line of 65536 letters and `b` the line `y` the output file for
`a ++ b` is empty and the one for `b` is not. -/
theorem outputFile_append_tooLong :
    (outputFile ("abc\n".toList ++ List.replicate 65536 'x') = [] ∧
      outputFile "abc\n".toList ++ outputFile (List.replicate 65536 'x') = "abc\n".toList) ∧
    ((List.replicate 65536 'x' ++ ['\n']).getLast? = some '\n' ∧
      outputFile ((List.replicate 65536 'x' ++ ['\n']) ++ "y\n".toList) = [] ∧
      outputFile (List.replicate 65536 'x' ++ ['\n']) ++ outputFile "y\n".toList =
        "y\n".toList) := by
  have hl : ∀ x ∈ List.replicate 65536 'x', x ≠ '\n' := by
    intro x hx
    rw [(List.mem_replicate.mp hx).2]
    decide
  have hb : maxScanTokenSize ≤ byteLen (List.replicate 65536 'x') := by
    rw [byteLen_replicate 65536 'x' (by decide)]; decide
  have h1 := outputFile_tooLong_second "abc".toList (List.replicate 65536 'x') []
    (by decide) (by decide) hl hb (by decide)
  rw [List.append_nil] at h1
  have h2 := outputFile_tooLong_first (List.replicate 65536 'x') [] hl hb
  rw [List.append_nil] at h2
  refine ⟨⟨h1, ?_⟩, List.getLast?_concat _, ?_, ?_⟩
  · rw [h2]
    decide
  · rw [List.append_assoc, outputFile_tooLong_first _ _ hl hb]
  · rw [outputFile_tooLong_first _ _ hl hb]
    decide

/-! ## The separator after INDEX 01 is one space -/

theorem matchHere_index_separator (sep t : List Char) (hne : sep ≠ [])
    (hone : sep ≠ [' ']) (hsep : ∀ x ∈ sep, x = ' ' ∨ x = '\t') :
    matchHere indexRegex ("INDEX 01".toList ++ (sep ++ t)) = none := by
  cases sep with
  | nil => exact absurd rfl hne
  | cons c sep =>
    rcases hsep c (by simp) with hc | hc
    · cases sep with
      | nil => rw [hc] at hone; exact absurd rfl hone
      | cons d sep =>
        rcases hsep d (by simp) with hd | hd <;>
          rw [hc, hd] <;> simp [indexRegex, lits, matchHere, backtrack]
    · rw [hc]
      simp [indexRegex, lits, matchHere]

/-- Text after `INDEX 01` and a separator that is not one space is rewritten on
its own: there is no match at that `INDEX 01`. -/
theorem rewriteLine_separator (p sep t : List Char) (hp : ∀ x ∈ p, x ≠ 'I')
    (hne : sep ≠ []) (hone : sep ≠ [' ']) (hsep : ∀ x ∈ sep, x = ' ' ∨ x = '\t') :
    rewriteLine (p ++ ("INDEX 01".toList ++ (sep ++ t))) =
      p ++ ("INDEX 01".toList ++ (sep ++ rewriteLine t)) := by
  have hm := matchHere_index_separator sep t hne hone hsep
  have hn : ∀ x ∈ "NDEX 01".toList ++ sep, x ≠ 'I' := by
    intro x hx
    rcases List.mem_append.mp hx with h | h
    · have h0 : ∀ y ∈ "NDEX 01".toList, y ≠ 'I' := by decide
      exact h0 x h
    · rcases hsep x h with h1 | h1 <;> rw [h1] <;> decide
  have e : "INDEX 01".toList ++ (sep ++ t) = 'I' :: (("NDEX 01".toList ++ sep) ++ t) := by
    simp
  rw [rewriteLine_indent p _ hp, e, rewriteLine_cons_none _ _ (by rw [← e]; exact hm),
    rewriteLine_indent _ t hn]
  simp

/-- C12 (amended): every line that contains the literal `INDEX 01`, exactly
one space, and a value digits:digits:digits is matched, and the rewrite puts
the `minutes:seconds.000` form in the place of that timestamp: what stands
before it is rewritten on its own, the seconds field takes in the digits that
follow it, and the rest of the line is rewritten on its own.  A separator of
spaces and tabs that is not one space is not accepted: after a text without
the letter `I` there is no match at that `INDEX 01`, and the text up to the
end of the timestamp is copied as it stands. -/
theorem rewriteLine_recognised (d1 d2 d3 p q : List Char)
    (n1 : d1 ≠ []) (h1 : ∀ x ∈ d1, isDigit x = true)
    (n2 : d2 ≠ []) (h2 : ∀ x ∈ d2, isDigit x = true)
    (n3 : d3 ≠ []) (h3 : ∀ x ∈ d3, isDigit x = true) :
    findStringSubmatch indexRegex
        (p ++ ("INDEX 01 ".toList ++ (d1 ++ ':' :: (d2 ++ ':' :: (d3 ++ q))))) ≠ [] ∧
    rewriteLine (p ++ ("INDEX 01 ".toList ++ (d1 ++ ':' :: (d2 ++ ':' :: (d3 ++ q))))) =
      rewriteLine p ++ (("INDEX 01 ".toList ++
        (fmt02d (wrapInt (wrapInt ((atoi d1).1 * 60) + (atoi d2).1)) ++
          ':' :: ((d3 ++ q.takeWhile isDigit) ++ ".000".toList))) ++
        rewriteLine (q.dropWhile isDigit)) ∧
    ∀ sep : List Char, sep ≠ [] → sep ≠ [' '] → (∀ x ∈ sep, x = ' ' ∨ x = '\t') →
      matchHere indexRegex
          ("INDEX 01".toList ++ (sep ++ (d1 ++ ':' :: (d2 ++ ':' :: (d3 ++ q))))) = none ∧
        ((∀ x ∈ p, x ≠ 'I') →
          rewriteLine
              (p ++ ("INDEX 01".toList ++ (sep ++ (d1 ++ ':' :: (d2 ++ ':' :: (d3 ++ q)))))) =
            p ++ ("INDEX 01".toList ++
              (sep ++ (d1 ++ ':' :: (d2 ++ ':' :: (d3 ++ rewriteLine q)))))) := by
  have hsplit : d3 ++ q = (d3 ++ q.takeWhile isDigit) ++ q.dropWhile isDigit := by
    rw [List.append_assoc, List.takeWhile_append_dropWhile]
  have n3a : d3 ++ q.takeWhile isDigit ≠ [] := List.append_ne_nil_of_left_ne_nil n3 _
  have h3a : ∀ x ∈ d3 ++ q.takeWhile isDigit, isDigit x = true := by
    intro x hx
    rcases List.mem_append.mp hx with h | h
    · exact h3 x h
    · exact (List.mem_takeWhile_imp h)
  have hq : startsWithDigit (q.dropWhile isDigit) = false := startsWithDigit_dropWhile q
  refine ⟨?_, ?_, ?_⟩
  · rw [hsplit]
    exact findStringSubmatch_of_later indexRegex p _ _ _ (by simp)
      (matchHere_index d1 d2 _ _ n1 h1 n2 h2 n3a h3a hq)
  · rw [hsplit]
    have e : p ++ ("INDEX 01 ".toList ++ (d1 ++ ':' :: (d2 ++ ':' ::
        ((d3 ++ q.takeWhile isDigit) ++ q.dropWhile isDigit)))) =
        p ++ 'I' :: ("NDEX 01 ".toList ++ (d1 ++ ':' :: (d2 ++ ':' ::
        ((d3 ++ q.takeWhile isDigit) ++ q.dropWhile isDigit)))) := rfl
    rw [e, rewriteLine_append]
    have e1 : 'I' :: ("NDEX 01 ".toList ++ (d1 ++ ':' :: (d2 ++ ':' ::
        ((d3 ++ q.takeWhile isDigit) ++ q.dropWhile isDigit)))) =
        "INDEX 01 ".toList ++ (d1 ++ ':' :: (d2 ++ ':' ::
        ((d3 ++ q.takeWhile isDigit) ++ q.dropWhile isDigit))) := rfl
    rw [e1, rewriteLine_match d1 d2 _ _ n1 h1 n2 h2 n3a h3a hq]
    rfl
  · intro sep hne hone hsep
    refine ⟨matchHere_index_separator sep _ hne hone hsep, fun hp => ?_⟩
    have hd : ∀ x ∈ d1 ++ ':' :: (d2 ++ ':' :: d3), x ≠ 'I' := by
      intro x hx hI
      rw [hI] at hx
      have hdig : ∀ d : List Char, (∀ y ∈ d, isDigit y = true) → 'I' ∉ d := by
        intro d hdd hmem
        exact absurd (hdd 'I' hmem) (by decide)
      rcases List.mem_append.mp hx with h | h
      · exact hdig d1 h1 h
      · rcases List.mem_cons.mp h with h | h
        · exact absurd h (by decide)
        · rcases List.mem_append.mp h with h | h
          · exact hdig d2 h2 h
          · rcases List.mem_cons.mp h with h | h
            · exact absurd h (by decide)
            · exact hdig d3 h3 h
    have e : d1 ++ ':' :: (d2 ++ ':' :: (d3 ++ q)) = (d1 ++ ':' :: (d2 ++ ':' :: d3)) ++ q := by
      simp
    have e2 : d1 ++ ':' :: (d2 ++ ':' :: (d3 ++ rewriteLine q)) =
        (d1 ++ ':' :: (d2 ++ ':' :: d3)) ++ rewriteLine q := by
      simp
    rw [rewriteLine_separator p sep _ hp hne hone hsep, e, rewriteLine_indent _ q hd, e2]

set_option maxRecDepth 100000 in
/-- Witness of C12: in `REM INDEX 01 1:2:34 INDEX 01 0:3:4` both timestamps
are matched and rewritten; with a tab after `INDEX 01` the line
`REM INDEX 01<tab>1:2:34 INDEX 01 0:3:4` keeps its first timestamp. -/
theorem rewriteLine_recognised_witness :
    findStringSubmatch indexRegex "REM INDEX 01 1:2:34 INDEX 01 0:3:4".toList ≠ [] ∧
    rewriteLine "REM INDEX 01 1:2:34 INDEX 01 0:3:4".toList =
      "REM INDEX 01 62:34.000 INDEX 01 03:4.000".toList ∧
    rewriteLine "REM INDEX 01\t1:2:34 INDEX 01 0:3:4".toList =
      "REM INDEX 01\t1:2:34 INDEX 01 03:4.000".toList :=
  ⟨(rewriteLine_recognised "1".toList "2".toList "3".toList "REM ".toList
      "4 INDEX 01 0:3:4".toList (by decide) (by decide) (by decide) (by decide) (by decide)
      (by decide)).1,
   (rewriteLine_recognised "1".toList "2".toList "3".toList "REM ".toList
      "4 INDEX 01 0:3:4".toList (by decide) (by decide) (by decide) (by decide) (by decide)
      (by decide)).2.1.trans (by decide),
   (((rewriteLine_recognised "1".toList "2".toList "3".toList "REM ".toList
      "4 INDEX 01 0:3:4".toList (by decide) (by decide) (by decide) (by decide) (by decide)
      (by decide)).2.2 "\t".toList (by decide) (by decide) (by decide)).2
        (by decide)).trans (by decide)⟩

/-! ## The tag writer -/

theorem tagLoop_ran (fails : List (List Char) → Bool) (albumName : List Char)
    (tracks : List TrackInfo) (ran : List (List (List Char))) (failed : List (List Char)) :
    (tagLoop fails albumName tracks ran failed).1 =
      ran ++ tracks.map fun t =>
        ["metaflac".toList, "--remove-all-tags".toList,
         "--set-tag=TITLE=".toList ++ t.Title,
         "--set-tag=ARTIST=".toList ++ t.Performer,
         "--set-tag=ALBUM=".toList ++ albumName,
         List.replicate (2 - t.TrackNumber.length) '0' ++
           (t.TrackNumber ++ ('-' :: (t.Title ++ ".flac".toList)))] := by
  induction tracks generalizing ran failed with
  | nil => simp [tagLoop]
  | cons t rest ih =>
    simp only [tagLoop, applyMetadata, combinedOutput]
    cases fails _ <;> simp [ih, fmt02s]

set_option maxRecDepth 100000 in
/-- C14: whatever the outcome of the invocations, `applyMetadata` runs the tag
writer with exactly the arguments: remove all tags, set TITLE to the title,
set ARTIST to the performer, set ALBUM to the album name, then the file name;
and the loop of `main` runs it so once per track record, in order, on the
file named by the number padded on the left with `0` to at least two
characters, `-`, the title as it stands, and `.flac`.  For the record
(`03`, `Song Name`, `Artist X`) and the album `MyAlbum` the one invocation has
TITLE=Song Name, ARTIST=Artist X, ALBUM=MyAlbum and the file
`03-Song Name.flac`. -/
theorem tagLoop_invokes (fails : List (List Char) → Bool) (albumName : List Char)
    (tracks : List TrackInfo) :
    (∀ (filepath : List Char) (track : TrackInfo) (ran : List (List (List Char))),
      (applyMetadata fails filepath track albumName ran).2 =
        ran ++ [["metaflac".toList, "--remove-all-tags".toList,
          "--set-tag=TITLE=".toList ++ track.Title,
          "--set-tag=ARTIST=".toList ++ track.Performer,
          "--set-tag=ALBUM=".toList ++ albumName, filepath]]) ∧
    (tagLoop fails albumName tracks [] []).1 =
      (tracks.map fun t =>
        ["metaflac".toList, "--remove-all-tags".toList,
         "--set-tag=TITLE=".toList ++ t.Title,
         "--set-tag=ARTIST=".toList ++ t.Performer,
         "--set-tag=ALBUM=".toList ++ albumName,
         List.replicate (2 - t.TrackNumber.length) '0' ++
           (t.TrackNumber ++ ('-' :: (t.Title ++ ".flac".toList)))]) ∧
    (∀ t : TrackInfo,
      (List.replicate (2 - t.TrackNumber.length) '0' ++ t.TrackNumber).length =
        max 2 t.TrackNumber.length) ∧
    (tagLoop fails "MyAlbum".toList
        [⟨"03".toList, "Song Name".toList, "Artist X".toList, []⟩] [] []).1 =
      [["metaflac".toList, "--remove-all-tags".toList, "--set-tag=TITLE=Song Name".toList,
        "--set-tag=ARTIST=Artist X".toList, "--set-tag=ALBUM=MyAlbum".toList,
        "03-Song Name.flac".toList]] := by
  refine ⟨fun filepath track ran => rfl, ?_, ?_, ?_⟩
  · rw [tagLoop_ran, List.nil_append]
  · intro t
    rw [List.length_append, List.length_replicate]
    omega
  · rw [tagLoop_ran]
    decide

end RkbExtract
